import Mathlib

/-!
# Verification of the URL canonicalization engine (`src/lib/urls.js`)

This file shallowly embeds the URL cleanup script: the `cleanUrl` pipeline,
the tracking-parameter classifier `looksLikeTracking` with its static
allow/deny tables, and the parts of the JavaScript runtime the script relies
on (the WHATWG `URL` object, `URLSearchParams`, and `Array.prototype.sort`
with the default string comparator).

Modelling scope: the embedding covers absolute special-scheme URLs
(`http`, `https`, `ws`, `wss`, `ftp`) in the textual form
`scheme://host[:port]path[?query][#fragment]` whose components use ASCII
characters that the WHATWG machinery maps to themselves (so no
percent-encoding churn happens at parse time, and the query decodes and
re-encodes without introducing escapes).  Within that space the JavaScript
behaviour is reproduced exactly,
including the quirks the theorems below are about: the parser strips default
ports and lowercases scheme and host, `url.search` carries a leading `?`
while `URLSearchParams.toString()` does not, and the default array sort
compares the stringified `key,value` pairs.  The network probe of
`canUseHttps` is injected as a boolean oracle `probe : String → Bool`
(`false` covers every failure mode, since the JavaScript catches all errors
and returns `false`).
-/

/-! ## Character helpers (ASCII, matching the JavaScript string operations) -/

/-- ASCII letter test (both cases). -/
def isAsciiAlpha (c : Char) : Bool :=
  (65 ≤ c.toNat && c.toNat ≤ 90) || (97 ≤ c.toNat && c.toNat ≤ 122)

/-- ASCII digit test. -/
def isAsciiDigit (c : Char) : Bool := 48 ≤ c.toNat && c.toNat ≤ 57

/-- Hexadecimal digit value (both cases accepted, as in percent-decoding). -/
def hexVal (c : Char) : Option Nat :=
  if 48 ≤ c.toNat && c.toNat ≤ 57 then some (c.toNat - 48)
  else if 65 ≤ c.toNat && c.toNat ≤ 70 then some (c.toNat - 55)
  else if 97 ≤ c.toNat && c.toNat ≤ 102 then some (c.toNat - 87)
  else none

/-- Upper-case hexadecimal digit, as emitted by the form-urlencoded serializer. -/
def hexDigitUpper (n : Nat) : Char :=
  match n with
  | 0 => '0' | 1 => '1' | 2 => '2' | 3 => '3' | 4 => '4' | 5 => '5' | 6 => '6'
  | 7 => '7' | 8 => '8' | 9 => '9' | 10 => 'A' | 11 => 'B' | 12 => 'C'
  | 13 => 'D' | 14 => 'E' | 15 => 'F' | _ => '0'

/-- ASCII lower-casing of one character, as `String.prototype.toLowerCase`
does on ASCII input. -/
def charToLower (c : Char) : Char :=
  if 65 ≤ c.toNat && c.toNat ≤ 90 then Char.ofNat (c.toNat + 32) else c

/-! ## JavaScript string operations (UTF-16 semantics restricted to ASCII) -/

/-- `String.prototype.toLowerCase` (ASCII scope). -/
def jsToLower (s : String) : String := ⟨s.data.map charToLower⟩

/-- `String.prototype.startsWith`. -/
def jsStartsWith (s pat : String) : Bool := pat.data.isPrefixOf s.data

/-- `String.prototype.endsWith`. -/
def jsEndsWith (s pat : String) : Bool := pat.data.isSuffixOf s.data

/-- `String.prototype.slice(n)` for a nonnegative start index. -/
def jsDrop (s : String) (n : Nat) : String := ⟨s.data.drop n⟩

/-- `String.prototype.slice(0, -1)`: drop the final character. -/
def jsDropLast (s : String) : String := ⟨s.data.dropLast⟩

/-- Occurrence of `pat` as a contiguous sublist of `l` (substring search). -/
def isSubL (pat : List Char) : List Char → Bool
  | [] => pat.isEmpty
  | c :: rest => pat.isPrefixOf (c :: rest) || isSubL pat rest

/-- JavaScript regex `.test` with a plain-literal pattern: substring
containment of `pat` in `s`. -/
def containsSub (s pat : String) : Bool := isSubL pat.data s.data

/-- Split a character list at every occurrence of `sep` (keeping empty
pieces), as `String.prototype.split` does. -/
def splitOnCharL (sep : Char) : List Char → List (List Char)
  | [] => [[]]
  | c :: rest =>
    if c = sep then [] :: splitOnCharL sep rest
    else
      match splitOnCharL sep rest with
      | [] => [[c]]
      | s :: ss => (c :: s) :: ss

/-- Join character lists with a separator character. -/
def joinSep (sep : Char) : List (List Char) → List Char
  | [] => []
  | [x] => x
  | x :: y :: rest => x ++ sep :: joinSep sep (y :: rest)

/-! ## The application/x-www-form-urlencoded codec used by `URLSearchParams` -/

/-- Characters serialized verbatim by the form-urlencoded serializer:
ASCII alphanumerics and `*`, `-`, `.`, `_`. -/
def formSafeChar (c : Char) : Bool :=
  isAsciiAlpha c || isAsciiDigit c ||
  c.toNat == 42 || c.toNat == 45 || c.toNat == 46 || c.toNat == 95

/-- Percent-escape of one character (ASCII scope: one byte). -/
def pctEncodeChar (c : Char) : List Char :=
  ['%', hexDigitUpper (c.toNat / 16), hexDigitUpper (c.toNat % 16)]

/-- Form-urlencoded serialization of a decoded string: space becomes `+`,
safe characters stay, everything else is percent-escaped. -/
def formEncodeL : List Char → List Char
  | [] => []
  | c :: rest =>
    if c = ' ' then '+' :: formEncodeL rest
    else if formSafeChar c then c :: formEncodeL rest
    else pctEncodeChar c ++ formEncodeL rest

/-- Form-urlencoded parsing of an encoded string: `+` becomes space, valid
percent-escapes are decoded, a stray `%` stays literal. -/
def formDecodeL : List Char → List Char
  | [] => []
  | '+' :: rest => ' ' :: formDecodeL rest
  | '%' :: h1 :: h2 :: t =>
    match hexVal h1, hexVal h2 with
    | some a, some b => Char.ofNat (16 * a + b) :: formDecodeL t
    | _, _ => '%' :: formDecodeL (h1 :: h2 :: t)
  | c :: rest => c :: formDecodeL rest

/-- String-level form-urlencoded encoding. -/
def formEncode (s : String) : String := ⟨formEncodeL s.data⟩

/-- String-level form-urlencoded decoding. -/
def formDecode (s : String) : String := ⟨formDecodeL s.data⟩

/-- `new URLSearchParams(init).entries()`: strip one leading `?`, split on
`&`, drop empty pieces, split each piece at the first `=`, decode both
sides. -/
def parseQuery (init : String) : List (String × String) :=
  let s := if jsStartsWith init "?" then jsDrop init 1 else init
  (splitOnCharL '&' s.data).filterMap fun part =>
    if part = [] then none
    else
      let name := part.takeWhile (fun c => c != '=')
      let rest := part.dropWhile (fun c => c != '=')
      let value := match rest with
        | _ :: v => v
        | [] => []
      some (formDecode ⟨name⟩, formDecode ⟨value⟩)

/-- One serialized `name=value` piece of `URLSearchParams.toString()`. -/
def serializePair (kv : String × String) : List Char :=
  formEncodeL kv.1.data ++ '=' :: formEncodeL kv.2.data

/-- `URLSearchParams.prototype.toString()`. -/
def serializeParams (ps : List (String × String)) : String :=
  ⟨joinSep '&' (ps.map serializePair)⟩

/-! ## The default JavaScript array sort on `[key, value]` entries

`[...params.entries()].sort()` uses the default comparator, which converts
each entry array to the string `key + "," + value` and compares the results
by UTF-16 code units.  Modern engines sort stably, so a stable insertion
sort over that ordering reproduces the observable result. -/

/-- `String([key, value])`: the comma-joined entry, as the default comparator
sees it. -/
def joinComma (kv : String × String) : List Char := kv.1.data ++ ',' :: kv.2.data

/-- Code-unit lexicographic less-or-equal on character lists. -/
def leChars : List Char → List Char → Bool
  | [], _ => true
  | _ :: _, [] => false
  | a :: as, b :: bs =>
    if a.toNat < b.toNat then true
    else if b.toNat < a.toNat then false
    else leChars as bs

/-- The ordering the default comparator induces on query pairs. -/
def pairLe (x y : String × String) : Prop := leChars (joinComma x) (joinComma y) = true

instance : DecidableRel pairLe := fun x y =>
  inferInstanceAs (Decidable (leChars (joinComma x) (joinComma y) = true))

/-! ## The WHATWG `URL` record -/

/-- Parsed URL state: the components `new URL(...)` keeps for the URLs in
the modelled scope.  `port = none` means no explicit port (the parser also
nulls a port equal to the scheme's default).  `query`/`fragment` distinguish
absent (`none`) from present-but-empty (`some ""`), exactly as the WHATWG
component model does. -/
structure URLRec where
  scheme : String
  host : String
  port : Option Nat
  pathSegs : List String
  query : Option String
  fragment : Option String
deriving Repr, DecidableEq

/-- Default port of a special scheme. -/
def defaultPort? (scheme : String) : Option Nat :=
  if scheme = "http" then some 80
  else if scheme = "https" then some 443
  else if scheme = "ws" then some 80
  else if scheme = "wss" then some 443
  else if scheme = "ftp" then some 21
  else none

/-- Special schemes covered by the model. -/
def isSpecial (scheme : String) : Bool :=
  scheme == "http" || scheme == "https" || scheme == "ws" || scheme == "wss" ||
  scheme == "ftp"

/-- Decimal representation of a port number. -/
def natRepr (p : Nat) : String :=
  if p = 0 then "0"
  else ⟨(Nat.digits 10 p).reverse.map (fun d => hexDigitUpper d)⟩

/-- `url.protocol`: scheme plus `:`. -/
def URLRec.protocol (u : URLRec) : String := u.scheme ++ ":"

/-- `url.hostname`. -/
def URLRec.hostname (u : URLRec) : String := u.host

/-- `url.port` (empty string when no explicit port remains). -/
def URLRec.portStr (u : URLRec) : String :=
  match u.port with
  | none => ""
  | some p => natRepr p

/-- WHATWG path serialization: `/` before every segment. -/
def joinPath : List (List Char) → List Char
  | [] => []
  | seg :: rest => '/' :: (seg ++ joinPath rest)

/-- `url.pathname`. -/
def URLRec.pathname (u : URLRec) : String := ⟨joinPath (u.pathSegs.map String.data)⟩

/-- `url.search`: empty when the query is null or empty, otherwise `?`
followed by the query. -/
def URLRec.search (u : URLRec) : String :=
  match u.query with
  | none => ""
  | some q => if q = "" then "" else "?" ++ q

/-- `url.hash`: empty when the fragment is null or empty, otherwise `#`
followed by the fragment. -/
def URLRec.hash (u : URLRec) : String :=
  match u.fragment with
  | none => ""
  | some f => if f = "" then "" else "#" ++ f

/-- `url.href`: the URL serializer.  Unlike `search`/`hash`, a present but
empty query or fragment still contributes its `?`/`#`. -/
def URLRec.href (u : URLRec) : String :=
  u.protocol ++ "//" ++ u.host ++
  (match u.port with
   | none => ""
   | some p => ":" ++ natRepr p) ++
  u.pathname ++
  (match u.query with
   | none => ""
   | some q => "?" ++ q) ++
  (match u.fragment with
   | none => ""
   | some f => "#" ++ f)

/-! ## Component character sets (identity subset of the WHATWG encode sets) -/

/-- Raw scheme characters after the first (letters, digits, `+`, `-`, `.`). -/
def schemeCharOk (c : Char) : Bool :=
  isAsciiAlpha c || isAsciiDigit c || c.toNat == 43 || c.toNat == 45 || c.toNat == 46

/-- Scheme syntax: nonempty, letter first, scheme characters after. -/
def rawSchemeOk : List Char → Bool
  | [] => false
  | c :: rest => isAsciiAlpha c && rest.all schemeCharOk

/-- Host characters accepted in the raw input (letters, digits, `-`, `.`,
`_`). -/
def hostRawOk (c : Char) : Bool :=
  isAsciiAlpha c || isAsciiDigit c || c.toNat == 45 || c.toNat == 46 || c.toNat == 95

/-- Host characters as stored after lower-casing. -/
def hostStoredOk (c : Char) : Bool :=
  (97 ≤ c.toNat && c.toNat ≤ 122) || isAsciiDigit c ||
  c.toNat == 45 || c.toNat == 46 || c.toNat == 95

/-- Path segment characters the parser keeps verbatim: visible ASCII minus
the path percent-encode set, the separators and `%`. -/
def pathCharOk (c : Char) : Bool :=
  33 ≤ c.toNat && c.toNat ≤ 126 &&
  c.toNat != 34 && c.toNat != 35 && c.toNat != 60 && c.toNat != 62 &&
  c.toNat != 63 && c.toNat != 92 && c.toNat != 96 &&
  c.toNat != 123 && c.toNat != 125 && c.toNat != 37 && c.toNat != 47

/-- Query characters that both the URL parser and the form-urlencoded codec
map to themselves: the form-safe characters plus `+`. -/
def qlitChar (c : Char) : Bool := formSafeChar c || c.toNat == 43

/-- One `&`-piece of a well-formed query: name and value (split at the first
`=`) consist of identity characters. -/
def pieceOk (piece : List Char) : Bool :=
  (piece.takeWhile (fun c => c != '=')).all qlitChar &&
  (match piece.dropWhile (fun c => c != '=') with
   | [] => true
   | _ :: v => v.all qlitChar)

/-- Query well-formedness for the modelled scope: every `&`-piece uses
identity characters, so `URLSearchParams` decoding and re-encoding is
length-preserving and the serializer introduces no percent-escapes. -/
def queryOkL (l : List Char) : Bool := (splitOnCharL '&' l).all pieceOk

/-- Fragment characters kept verbatim: visible ASCII minus the fragment
percent-encode set and `%`. -/
def fragCharOk (c : Char) : Bool :=
  33 ≤ c.toNat && c.toNat ≤ 126 &&
  c.toNat != 34 && c.toNat != 60 && c.toNat != 62 && c.toNat != 96 &&
  c.toNat != 37

/-! ## Path parsing (the WHATWG path state) -/

/-- Consume the leading `/` the path-start state skips. -/
def dropLeadSlash : List Char → List Char
  | '/' :: rest => rest
  | l => l

/-- `shorten url's path`. -/
def shortenPath (acc : List (List Char)) : List (List Char) := acc.dropLast

/-- WHATWG path state over the `/`-separated buffers: `..` shortens, `.` is
skipped, both re-append an empty segment at the end of input. -/
def processSegs (acc : List (List Char)) : List (List Char) → List (List Char)
  | [] => acc
  | [seg] =>
    if seg = ['.', '.'] then shortenPath acc ++ [[]]
    else if seg = ['.'] then acc ++ [[]]
    else acc ++ [seg]
  | seg :: next :: rest =>
    processSegs
      (if seg = ['.', '.'] then shortenPath acc
       else if seg = ['.'] then acc
       else acc ++ [seg])
      (next :: rest)

/-- Parse a pathname string into stored segments. -/
def parsePathSegsL (p : List Char) : List String :=
  (processSegs [] (splitOnCharL '/' (dropLeadSlash p))).map (fun l => (⟨l⟩ : String))

/-! ## `new URL(...)`: the parser (modelled scope) -/

/-- Numeric value of a digit list (most significant first). -/
def digitsVal (ds : List Char) : Nat :=
  ds.foldl (fun acc c => acc * 10 + (c.toNat - 48)) 0

/-- `new URL(inputUrl)` on the modelled subset: split off `scheme://`, then
authority (host, optional port), then path, query and fragment; lowercase
scheme and host; null a default port.  `none` models the constructor
throwing. -/
def URL.parse (s : String) : Option URLRec :=
  let cs := s.data
  let schemeCs := cs.takeWhile (fun c => c != ':')
  match cs.dropWhile (fun c => c != ':') with
  | ':' :: '/' :: '/' :: rest2 =>
    if rawSchemeOk schemeCs then
      let scheme : String := ⟨schemeCs.map charToLower⟩
      if isSpecial scheme then
        let authCs := rest2.takeWhile (fun c => c != '/' && c != '?' && c != '#')
        let rest3 := rest2.dropWhile (fun c => c != '/' && c != '?' && c != '#')
        let hostCs := authCs.takeWhile (fun c => c != ':')
        let portCs := authCs.dropWhile (fun c => c != ':')
        if hostCs ≠ [] && hostCs.all hostRawOk then
          let host : String := ⟨hostCs.map charToLower⟩
          let portRes : Option (Option Nat) :=
            if portCs = [] then some none
            else
              let ds := portCs.tail
              if ds = [] then some none
              else if ds.all isAsciiDigit then
                let p := digitsVal ds
                if p < 65536 then
                  some (if defaultPort? scheme = some p then none else some p)
                else none
              else none
          portRes.bind fun port =>
            let pathCs := rest3.takeWhile (fun c => c != '?' && c != '#')
            let rest4 := rest3.dropWhile (fun c => c != '?' && c != '#')
            if pathCs.all (fun c => c == '/' || pathCharOk c) then
              let segs := parsePathSegsL pathCs
              let qf : Option (Option String × Option String) :=
                if rest4.head? = some '?' then
                  let r := rest4.tail
                  let qCs := r.takeWhile (fun c => c != '#')
                  let fCs := r.dropWhile (fun c => c != '#')
                  if queryOkL qCs then
                    if fCs.head? = some '#' then
                      if fCs.tail.all fragCharOk then
                        some (some ⟨qCs⟩, some ⟨fCs.tail⟩)
                      else none
                    else some (some ⟨qCs⟩, none)
                  else none
                else if rest4.head? = some '#' then
                  if rest4.tail.all fragCharOk then some (none, some ⟨rest4.tail⟩)
                  else none
                else some (none, none)
              qf.map fun p => ⟨scheme, host, port, segs, p.1, p.2⟩
            else none
        else none
      else none
    else none
  | _ => none

/-! ## The component setters the script uses -/

/-- `url.protocol = v` (both schemes special in scope): replace the scheme,
and null the port if it equals the new scheme's default. -/
def URLRec.protocolSet (u : URLRec) (v : String) : URLRec :=
  let sCs := v.data.takeWhile (fun c => c != ':')
  if rawSchemeOk sCs then
    let s : String := ⟨sCs.map charToLower⟩
    if isSpecial s then
      let u' := { u with scheme := s }
      match u.port with
      | some p => if defaultPort? s = some p then { u' with port := none } else u'
      | none => u'
    else u
  else u

/-- `url.hostname = v`: replace the host if the new value parses as a
nonempty host, otherwise ignore the assignment. -/
def URLRec.hostnameSet (u : URLRec) (v : String) : URLRec :=
  if v ≠ "" && v.data.all hostRawOk then { u with host := ⟨v.data.map charToLower⟩ }
  else u

/-- `url.port = v`: empty string nulls the port; otherwise parse digits and
null a default port. -/
def URLRec.portSet (u : URLRec) (v : String) : URLRec :=
  if v = "" then { u with port := none }
  else if v.data.all isAsciiDigit then
    let p := digitsVal v.data
    if p < 65536 then
      { u with port := if defaultPort? u.scheme = some p then none else some p }
    else u
  else u

/-- `url.search = v`: empty string nulls the query, otherwise strip one
leading `?` and store the rest. -/
def URLRec.searchSet (u : URLRec) (v : String) : URLRec :=
  if v = "" then { u with query := none }
  else { u with query := some (if jsStartsWith v "?" then jsDrop v 1 else v) }

/-- `url.hash = v`: empty string nulls the fragment, otherwise strip one
leading `#` and store the rest. -/
def URLRec.hashSet (u : URLRec) (v : String) : URLRec :=
  if v = "" then { u with fragment := none }
  else { u with fragment := some (if jsStartsWith v "#" then jsDrop v 1 else v) }

/-- `url.pathname = v`: reparse the value through the path states. -/
def URLRec.pathnameSet (u : URLRec) (v : String) : URLRec :=
  { u with pathSegs := parsePathSegsL v.data }

/-! ## The static parameter tables of `urls.js` -/

/-- `PARAMS_TO_REMOVE`: the deny-list of known tracking parameter names. -/
def PARAMS_TO_REMOVE : List String :=
  ["utm_source", "utm_medium", "utm_campaign", "utm_term", "utm_content",
   "fbclid", "ref", "ref_src", "source",
   "_ga", "_gl", "_tracking",
   "gclid", "gclsrc", "dclid", "affiliate_id", "affiliate",
   "mc_cid", "mc_eid", "zanpid", "msclkid",
   "_hsenc", "_hsmi", "igshid", "mkt_tok",
   "session_id", "user_id", "visitor_id",
   "platform", "device", "device_id",
   "timestamp", "ts", "time",
   "cache", "nocache", "bust", "cb"]

/-- `PARAMS_TO_KEEP`: the allow-list of parameter names never dropped. -/
def PARAMS_TO_KEEP : List String :=
  ["page", "q", "search", "id", "category", "type", "sort", "filter"]

/-- The structural regex tests of `looksLikeTracking`, each as the predicate
its `RegExp.test` computes on the lower-cased name: `^_.*`, `.*id$`,
`.*click.*`, `track(ing)?`, `ref(er(r)?)?`, `campaign`, `^src$`,
`affiliate`, `^s_.*`. -/
def trackingPatterns : List (String → Bool) :=
  [fun p => jsStartsWith p "_",
   fun p => jsEndsWith p "id",
   fun p => containsSub p "click",
   fun p => containsSub p "track",
   fun p => containsSub p "ref",
   fun p => containsSub p "campaign",
   fun p => p == "src",
   fun p => containsSub p "affiliate",
   fun p => jsStartsWith p "s_"]

/-- `looksLikeTracking(param)`: allow-list first, then the structural
patterns on the lower-cased name. -/
def looksLikeTracking (param : String) : Bool :=
  if PARAMS_TO_KEEP.contains (jsToLower param) then false
  else trackingPatterns.any fun pat => pat (jsToLower param)

/-- The tracking classification `cleanUrl` applies to a query key:
deny-list membership of the lower-cased key, or `looksLikeTracking`. -/
def isTrackingKey (key : String) : Bool :=
  PARAMS_TO_REMOVE.contains (jsToLower key) || looksLikeTracking key

/-! ## `cleanUrl`: options, result, pipeline -/

/-- The `options` record of `cleanUrl`, with the destructuring defaults of
the source (every flag defaults to `true`). -/
structure CleanOptions where
  tryHttps : Bool := true
  removeWww : Bool := true
  removeTrailingSlash : Bool := true
  removeFragment : Bool := true
  removeTracking : Bool := true
  sortParams : Bool := true
  removeEmptyParams : Bool := true
  removeDefaultPorts : Bool := true
deriving Repr, DecidableEq

/-- The `{original, cleaned, changes}` result of `cleanUrl`. -/
structure CleanResult where
  original : String
  cleaned : String
  changes : List String
deriving Repr, DecidableEq

/-- HTTPS upgrade step: probe when enabled and the scheme is `http`,
rewrite the protocol on success. -/
def httpsApply (options : CleanOptions) (probe : String → Bool)
    (st : URLRec × List String) : URLRec × List String :=
  let (url, changes) := st
  if options.tryHttps && url.protocol == "http:" then
    if probe url.href then
      (url.protocolSet "https:", changes ++ ["Upgraded to HTTPS"])
    else (url, changes)
  else (url, changes)

/-- `hostname.replace(/^www\./, "")`. -/
def wwwReplace (h : String) : String :=
  if jsStartsWith h "www." then jsDrop h 4 else h

/-- www-removal step. -/
def wwwApply (options : CleanOptions) (st : URLRec × List String) :
    URLRec × List String :=
  let (url, changes) := st
  if options.removeWww && jsStartsWith url.hostname "www." then
    (url.hostnameSet (wwwReplace url.hostname), changes ++ ["Removed www prefix"])
  else (url, changes)

/-- Default-port removal step (the guard compares the live `url.port`
string, which the parser has already emptied for default ports). -/
def portApply (options : CleanOptions) (st : URLRec × List String) :
    URLRec × List String :=
  let (url, changes) := st
  if options.removeDefaultPorts &&
      ((url.protocol == "http:" && url.portStr == "80") ||
       (url.protocol == "https:" && url.portStr == "443")) then
    (url.portSet "", changes ++ ["Removed default port"])
  else (url, changes)

/-- The query-pair filter of the parameter loop: drop tracking keys when
`removeTracking`, drop empty values when `removeEmptyParams`. -/
def keepPair (options : CleanOptions) (kv : String × String) : Bool :=
  let shouldRemove := options.removeTracking && isTrackingKey kv.1
  !shouldRemove && (!options.removeEmptyParams || kv.2.length > 0)

/-- Query cleanup step: parse `url.search`, filter, optionally sort with the
default comparator, re-assign `url.search`, and log "Removed tracking
parameters" when the new `url.search` (with its `?`) differs in length from
the pre-cleanup `searchParams.toString()` (without a `?`). -/
def queryApply (options : CleanOptions) (st : URLRec × List String) :
    URLRec × List String :=
  let (url, changes) := st
  if url.search ≠ "" then
    let searchParams := parseQuery url.search
    let originalParamCount := (serializeParams searchParams).length
    let cleanedParams := searchParams.filter (keepPair options)
    let finalParams :=
      if options.sortParams then List.insertionSort pairLe cleanedParams
      else cleanedParams
    let url' := url.searchSet (serializeParams finalParams)
    let changes' :=
      if url'.search.length ≠ originalParamCount then
        changes ++ ["Removed tracking parameters"]
      else changes
    (url', changes')
  else (url, changes)

/-- Fragment removal step. -/
def fragApply (options : CleanOptions) (st : URLRec × List String) :
    URLRec × List String :=
  let (url, changes) := st
  if options.removeFragment && url.hash ≠ "" then
    (url.hashSet "", changes ++ ["Removed URL fragment"])
  else (url, changes)

/-- `path.replace(/\/+/g, "/")`: collapse runs of `/`. -/
def collapseL : List Char → List Char
  | [] => []
  | [c] => [c]
  | c :: d :: rest =>
    if c = '/' && d = '/' then collapseL (d :: rest)
    else c :: collapseL (d :: rest)

/-- String-level slash collapsing. -/
def collapseS (s : String) : String := ⟨collapseL s.data⟩

/-- Path normalization step: skip the root path, collapse duplicate slashes,
optionally strip one trailing slash, and write back when changed. -/
def pathApply (options : CleanOptions) (st : URLRec × List String) :
    URLRec × List String :=
  let (url, changes) := st
  let path := url.pathname
  if path ≠ "/" then
    let path1 := collapseS path
    let path2 :=
      if options.removeTrailingSlash && jsEndsWith path1 "/" then jsDropLast path1
      else path1
    if path2 ≠ url.pathname then
      (url.pathnameSet path2, changes ++ ["Normalized path"])
    else (url, changes)
  else (url, changes)

/-- The rule pipeline of `cleanUrl` after a successful parse, in source
order: HTTPS upgrade, www removal, default ports, query cleanup, fragment,
path normalization. -/
def cleanParsed (options : CleanOptions) (probe : String → Bool) (url : URLRec) :
    URLRec × List String :=
  pathApply options
    (fragApply options
      (queryApply options
        (portApply options
          (wwwApply options
            (httpsApply options probe (url, []))))))

/-- `cleanUrl(inputUrl, options)`: parse (throwing `Invalid URL: ...` on
failure), remember the re-serialized original, run the pipeline, and return
`{original, cleaned, changes}`.  The HTTPS probe is the injected oracle. -/
def cleanUrl (inputUrl : String) (options : CleanOptions) (probe : String → Bool) :
    Except String CleanResult :=
  match URL.parse inputUrl with
  | none => .error ("Invalid URL: " ++ inputUrl)
  | some url =>
    let originalUrl := url.href
    let (u, changes) := cleanParsed options probe url
    .ok { original := originalUrl, cleaned := u.href, changes := changes }

/-! ## Well-formed URL records

The invariant maintained by the parser and by every pipeline step: special
scheme, nonempty lower-case host, in-range non-default port, nonempty
dot-free path segments, valid query and fragment characters.  It is what
makes re-parsing a serialized record give the record back. -/

/-- Stored path segment validity: verbatim characters, not a dot segment. -/
def segOk (seg : String) : Bool :=
  seg.data.all pathCharOk && seg != "." && seg != ".."

/-- Boolean well-formedness of a URL record. -/
def URLRec.wfB (u : URLRec) : Bool :=
  isSpecial u.scheme &&
  (u.host != "") && u.host.data.all hostStoredOk &&
  (match u.port with
   | none => true
   | some p => decide (p < 65536) && (defaultPort? u.scheme != some p)) &&
  (u.pathSegs != []) && u.pathSegs.all segOk &&
  (match u.query with
   | none => true
   | some q => queryOkL q.data) &&
  (match u.fragment with
   | none => true
   | some f => f.data.all fragCharOk)

/-- Well-formedness as a proposition. -/
def URLRec.WF (u : URLRec) : Prop := u.wfB = true

/-- The structural pattern list as §4.2 of the specification words it, with
`matches` read as the regex containment the code's `RegExp.test` computes:
begins with `_`; ends with `id`; contains `click`; contains `track` or
`tracking`; matches a referrer-family token (`ref`, `refer`, `referr`,
`referrer`); contains `campaign`; equals exactly `src`; contains
`affiliate`; begins with `s_`. -/
def specPatternMatch (p : String) : Bool :=
  jsStartsWith p "_" || jsEndsWith p "id" || containsSub p "click" ||
  (containsSub p "track" || containsSub p "tracking") ||
  (containsSub p "ref" || containsSub p "refer" || containsSub p "referr" ||
    containsSub p "referrer") ||
  containsSub p "campaign" || p == "src" || containsSub p "affiliate" ||
  jsStartsWith p "s_"


/-! ## Record-level actions of the pipeline steps

Each step of `cleanParsed` only appends to the change list besides rewriting
the URL record; these are the record rewrites, extracted so compositions of
steps can be reasoned about componentwise. -/

/-- Record action of `httpsApply`. -/
def httpsUpd (options : CleanOptions) (probe : String → Bool) (u : URLRec) : URLRec :=
  if options.tryHttps && u.protocol == "http:" then
    if probe u.href then u.protocolSet "https:" else u
  else u

/-- Record action of `wwwApply`. -/
def wwwUpd (options : CleanOptions) (u : URLRec) : URLRec :=
  if options.removeWww && jsStartsWith u.hostname "www." then
    u.hostnameSet (wwwReplace u.hostname)
  else u

/-- Record action of `portApply`. -/
def portUpd (options : CleanOptions) (u : URLRec) : URLRec :=
  if options.removeDefaultPorts &&
      ((u.protocol == "http:" && u.portStr == "80") ||
       (u.protocol == "https:" && u.portStr == "443")) then
    u.portSet ""
  else u

/-- The rewrite `queryApply` performs on the query component. -/
def queryNext (options : CleanOptions) : Option String → Option String
  | none => none
  | some q =>
    if q = "" then some q
    else
      let searchParams := parseQuery ("?" ++ q)
      let cleanedParams := searchParams.filter (keepPair options)
      let finalParams :=
        if options.sortParams then List.insertionSort pairLe cleanedParams
        else cleanedParams
      let v := serializeParams finalParams
      if v = "" then none
      else some (if jsStartsWith v "?" then jsDrop v 1 else v)

/-- Record action of `queryApply`. -/
def queryUpd (options : CleanOptions) (u : URLRec) : URLRec :=
  { u with query := queryNext options u.query }

/-- Record action of `fragApply`. -/
def fragUpd (options : CleanOptions) (u : URLRec) : URLRec :=
  if options.removeFragment && u.hash ≠ "" then u.hashSet "" else u

/-- The rewrite `pathApply` performs on the path segments. -/
def pathNext (options : CleanOptions) (segs : List String) : List String :=
  let path : String := ⟨joinPath (segs.map String.data)⟩
  if path ≠ "/" then
    let path1 := collapseS path
    let path2 :=
      if options.removeTrailingSlash && jsEndsWith path1 "/" then jsDropLast path1
      else path1
    if path2 ≠ path then parsePathSegsL path2.data else segs
  else segs

/-- Record action of `pathApply`. -/
def pathUpd (options : CleanOptions) (u : URLRec) : URLRec :=
  { u with pathSegs := pathNext options u.pathSegs }

/-- The record rewrite of the whole pipeline. -/
def cleanUpd (options : CleanOptions) (probe : String → Bool) (u : URLRec) : URLRec :=
  pathUpd options (fragUpd options (queryUpd options (portUpd options
    (wwwUpd options (httpsUpd options probe u)))))

/-- Strings all of whose characters survive form-urlencoding untouched by
escapes: what decoding a well-formed query piece produces. -/
def decodedSafe (s : String) : Prop :=
  ∀ c ∈ s.data, formSafeChar c = true ∨ c = ' '

/-! # Theorems

## Generic character and list lemmas -/

/-- Characters with equal codepoints are equal. -/
theorem char_toNat_inj {c d : Char} (h : c.toNat = d.toNat) : c = d := by
  apply Char.ext
  exact UInt32.ext h

/-- Codepoint of `Char.ofNat` below the surrogate range. -/
theorem char_toNat_ofNat {n : Nat} (h : n < 55296) : (Char.ofNat n).toNat = n := by
  have hv : n.isValidChar := Or.inl h
  simp only [Char.ofNat, hv, dite_true, Char.ofNatAux, Char.toNat, UInt32.toNat,
    BitVec.toNat_ofNatLt]

/-- `takeWhile` stops exactly at the first failing element. -/
theorem takeWhile_mid {p : Char → Bool} {l1 l2 : List Char} {c : Char}
    (h1 : ∀ a ∈ l1, p a = true) (hc : p c = false) :
    (l1 ++ c :: l2).takeWhile p = l1 := by
  induction l1 with
  | nil => simp [List.takeWhile_cons, hc]
  | cons a as ih =>
    simp only [List.cons_append, List.takeWhile_cons, h1 a (by simp)]
    simp [ih (fun x hx => h1 x (by simp [hx]))]

/-- `dropWhile` drops exactly up to the first failing element. -/
theorem dropWhile_mid {p : Char → Bool} {l1 l2 : List Char} {c : Char}
    (h1 : ∀ a ∈ l1, p a = true) (hc : p c = false) :
    (l1 ++ c :: l2).dropWhile p = c :: l2 := by
  induction l1 with
  | nil => simp [List.dropWhile_cons, hc]
  | cons a as ih =>
    simp only [List.cons_append, List.dropWhile_cons, h1 a (by simp)]
    simp [ih (fun x hx => h1 x (by simp [hx]))]

/-- `takeWhile` keeps a list every element of which satisfies `p`. -/
theorem takeWhile_all {p : Char → Bool} {l : List Char}
    (h : ∀ a ∈ l, p a = true) : l.takeWhile p = l := by
  induction l with
  | nil => rfl
  | cons a as ih =>
    simp only [List.takeWhile_cons, h a (by simp)]
    simp [ih (fun x hx => h x (by simp [hx]))]

/-- `dropWhile` empties a list every element of which satisfies `p`. -/
theorem dropWhile_all {p : Char → Bool} {l : List Char}
    (h : ∀ a ∈ l, p a = true) : l.dropWhile p = [] := by
  induction l with
  | nil => rfl
  | cons a as ih =>
    simp only [List.dropWhile_cons, h a (by simp)]
    simp [ih (fun x hx => h x (by simp [hx]))]

/-- Splitting undoes joining when no piece contains the separator. -/
theorem splitOn_joinSep {sep : Char} {parts : List (List Char)}
    (hne : parts ≠ []) (hfree : ∀ part ∈ parts, sep ∉ part) :
    splitOnCharL sep (joinSep sep parts) = parts := by
  induction parts with
  | nil => exact absurd rfl hne
  | cons x rest ih =>
    cases rest with
    | nil =>
      have hx : sep ∉ x := hfree x (by simp)
      clear ih hne hfree
      induction x with
      | nil => rfl
      | cons c cs ihx =>
        have hc : ¬c = sep := fun h => hx (by simp [h])
        simp only [joinSep, splitOnCharL, if_neg hc] at *
        rw [ihx (fun h => hx (List.mem_cons_of_mem _ h))]
    | cons y ys =>
      have hx : sep ∉ x := hfree x (by simp)
      have hrest : splitOnCharL sep (joinSep sep (y :: ys)) = y :: ys :=
        ih (by simp) (fun part hp => hfree part (by simp [hp]))
      clear ih hne hfree
      induction x with
      | nil => simpa [joinSep, splitOnCharL] using hrest
      | cons c cs ihx =>
        have hc : ¬c = sep := fun h => hx (by simp [h])
        have ihx' := ihx (fun h => hx (List.mem_cons_of_mem _ h))
        simp only [joinSep, List.cons_append, splitOnCharL, if_neg hc,
          List.append_eq] at *
        simp [ihx']

/-- The path states leave dot-free segments untouched. -/
theorem processSegs_no_dots {segs : List (List Char)} (acc : List (List Char))
    (h : ∀ seg ∈ segs, seg ≠ ['.'] ∧ seg ≠ ['.', '.']) :
    processSegs acc segs = acc ++ segs := by
  induction segs generalizing acc with
  | nil => simp [processSegs]
  | cons seg rest ih =>
    cases rest with
    | nil =>
      have := h seg (by simp)
      simp [processSegs, this.1, this.2]
    | cons next rest2 =>
      have hseg := h seg (by simp)
      simp only [processSegs, if_neg hseg.2, if_neg hseg.1]
      rw [ih (acc ++ [seg]) (fun s hs => h s (by simp [hs]))]
      simp

/-- `List.isPrefixOf` decides the prefix relation on characters. -/
theorem isPrefixOf_iff {p l : List Char} : p.isPrefixOf l = true ↔ p <+: l := by
  induction p generalizing l with
  | nil => simp [List.isPrefixOf]
  | cons a as ih =>
    cases l with
    | nil => simp [List.isPrefixOf]
    | cons b bs =>
      simp [List.isPrefixOf, List.cons_prefix_cons, ih]

/-- `isSubL` decides the contiguous-sublist relation. -/
theorem isSubL_iff {p l : List Char} : isSubL p l = true ↔ p <:+: l := by
  induction l with
  | nil => simp [isSubL, List.isEmpty_iff]
  | cons c rest ih =>
    simp [isSubL, Bool.or_eq_true, isPrefixOf_iff, ih, List.infix_cons_iff]

/-- Containment is monotone along containment of the pattern. -/
theorem containsSub_mono {s big small : String}
    (hsub : small.data <:+: big.data) (h : containsSub s big = true) :
    containsSub s small = true := by
  rw [containsSub, isSubL_iff] at h ⊢
  exact hsub.trans h

/-- `leChars` is total. -/
theorem leChars_total : ∀ a b : List Char, leChars a b = true ∨ leChars b a = true := by
  intro a
  induction a with
  | nil => intro b; left; rfl
  | cons x xs ih =>
    intro b
    cases b with
    | nil => right; rfl
    | cons y ys =>
      by_cases hxy : x.toNat < y.toNat
      · left; simp [leChars, hxy]
      · by_cases hyx : y.toNat < x.toNat
        · right; simp [leChars, hyx]
        · rcases ih ys with h | h
          · left; simp [leChars, hxy, hyx, h]
          · right; simp [leChars, hxy, hyx, h]

/-- `leChars` is transitive. -/
theorem leChars_trans : ∀ {a b c : List Char},
    leChars a b = true → leChars b c = true → leChars a c = true := by
  intro a
  induction a with
  | nil => intro b c _ _; rfl
  | cons x xs ih =>
    intro b c hab hbc
    cases b with
    | nil => simp [leChars] at hab
    | cons y ys =>
      cases c with
      | nil => simp [leChars] at hbc
      | cons z zs =>
        simp only [leChars] at hab hbc ⊢
        split_ifs at hab hbc ⊢ with h1 h2 h3 h4 h5 h6 <;>
          first
          | rfl
          | omega
          | (exact ih hab hbc)

instance : IsTotal (String × String) pairLe :=
  ⟨fun a b => by
    rcases leChars_total (joinComma a) (joinComma b) with h | h
    · exact Or.inl h
    · exact Or.inr h⟩

instance : IsTrans (String × String) pairLe :=
  ⟨fun _ _ _ hab hbc => leChars_trans hab hbc⟩

/-! ## Form codec lemmas -/

/-- Hex digit emit/read roundtrip. -/
theorem hexVal_hexDigitUpper {n : Nat} (h : n < 16) : hexVal (hexDigitUpper n) = some n := by
  interval_cases n <;> decide

/-- `formDecodeL` passes an ordinary character through. -/
theorem formDecodeL_cons_other {c : Char} {rest : List Char} (h1 : c ≠ '+') (h2 : c ≠ '%') :
    formDecodeL (c :: rest) = c :: formDecodeL rest := by
  rw [formDecodeL.eq_def]
  split <;> simp_all

/-- Form-safe characters are none of the delimiter or codec characters. -/
theorem formSafeChar_ne {c : Char} (h : formSafeChar c = true) :
    c ≠ '+' ∧ c ≠ '%' ∧ c ≠ ' ' ∧ c ≠ '&' ∧ c ≠ '=' ∧ c ≠ '?' ∧ c ≠ '#' := by
  refine ⟨?_, ?_, ?_, ?_, ?_, ?_, ?_⟩ <;> intro hc <;> subst hc <;> revert h <;> decide

/-- Form-safe characters are ASCII. -/
theorem formSafeChar_lt128 {c : Char} (h : formSafeChar c = true) : c.toNat < 128 := by
  simp only [formSafeChar, isAsciiAlpha, isAsciiDigit, Bool.or_eq_true,
    Bool.and_eq_true, beq_iff_eq, decide_eq_true_eq] at h
  omega

/-- Identity query characters are not delimiters and are ASCII. -/
theorem qlitChar_spec {c : Char} (h : qlitChar c = true) :
    c ≠ '&' ∧ c ≠ '=' ∧ c ≠ '?' ∧ c ≠ '#' ∧ c ≠ '%' ∧ c.toNat < 128 := by
  simp only [qlitChar, Bool.or_eq_true, beq_iff_eq] at h
  rcases h with h | h
  · have h1 := formSafeChar_ne h
    have h2 := formSafeChar_lt128 h
    exact ⟨h1.2.2.2.1, h1.2.2.2.2.1, h1.2.2.2.2.2.1, h1.2.2.2.2.2.2, h1.2.1, h2⟩
  · have : c = '+' := char_toNat_inj (by simpa using h)
    subst this
    exact ⟨by decide, by decide, by decide, by decide, by decide, by decide⟩

/-- Decoding inverts encoding on ASCII strings. -/
theorem formDecodeL_formEncodeL {s : List Char} (h : ∀ c ∈ s, c.toNat < 128) :
    formDecodeL (formEncodeL s) = s := by
  induction s with
  | nil => rfl
  | cons c cs ih =>
    have hc : c.toNat < 128 := h c (by simp)
    have ih' := ih (fun x hx => h x (by simp [hx]))
    by_cases hsp : c = ' '
    · subst hsp
      simp [formEncodeL, formDecodeL, ih']
    · by_cases hsafe : formSafeChar c = true
      · have hne := formSafeChar_ne hsafe
        simp only [formEncodeL, if_neg hsp, hsafe, if_true]
        rw [formDecodeL_cons_other hne.1 hne.2.1, ih']
      · have h1 : hexVal (hexDigitUpper (c.toNat / 16)) = some (c.toNat / 16) :=
          hexVal_hexDigitUpper (by omega)
        have h2 : hexVal (hexDigitUpper (c.toNat % 16)) = some (c.toNat % 16) :=
          hexVal_hexDigitUpper (by omega)
        simp only [formEncodeL, if_neg hsp, hsafe, Bool.false_eq_true, if_false,
          pctEncodeChar, List.cons_append, List.nil_append, formDecodeL, h1, h2, ih']
        have he : 16 * (c.toNat / 16) + c.toNat % 16 = c.toNat := by omega
        rw [he]
        simp [char_toNat_inj (char_toNat_ofNat (by omega : c.toNat < 55296))]

/-- Encoding a decoded-safe string emits only identity query characters. -/
theorem encode_safe_qlit {s : List Char} (h : ∀ c ∈ s, formSafeChar c = true ∨ c = ' ') :
    ∀ c ∈ formEncodeL s, qlitChar c = true := by
  induction s with
  | nil => simp [formEncodeL]
  | cons a as ih =>
    have ha := h a (by simp)
    have ih' := ih (fun x hx => h x (by simp [hx]))
    rcases ha with ha | rfl
    · have hne := formSafeChar_ne ha
      simp only [formEncodeL, if_neg hne.2.2.1, ha, if_true]
      intro c hc
      rcases List.mem_cons.mp hc with rfl | hc
      · simp [qlitChar, ha]
      · exact ih' c hc
    · simp only [formEncodeL, if_pos rfl]
      intro c hc
      rcases List.mem_cons.mp hc with rfl | hc
      · decide
      · exact ih' c hc

/-- An identity query character other than `+` is form-safe. -/
theorem qlit_not_plus {c : Char} (h : qlitChar c = true) (hp : c ≠ '+') :
    formSafeChar c = true := by
  simp only [qlitChar, Bool.or_eq_true, beq_iff_eq] at h
  rcases h with h | h
  · exact h
  · exact absurd (char_toNat_inj (by simpa using h)) hp

/-- Decoding an identity-character string yields decoded-safe characters. -/
theorem decode_qlit_safe {l : List Char} (h : ∀ c ∈ l, qlitChar c = true) :
    ∀ c ∈ formDecodeL l, formSafeChar c = true ∨ c = ' ' := by
  induction l with
  | nil => simp [formDecodeL]
  | cons a as ih =>
    have ha := h a (by simp)
    have ih' := ih (fun x hx => h x (by simp [hx]))
    by_cases hp : a = '+'
    · subst hp
      simp only [formDecodeL]
      intro c hc
      rcases List.mem_cons.mp hc with rfl | hc
      · right; rfl
      · exact ih' c hc
    · rw [formDecodeL_cons_other hp (qlitChar_spec ha).2.2.2.2.1]
      intro c hc
      rcases List.mem_cons.mp hc with rfl | hc
      · exact Or.inl (qlit_not_plus ha hp)
      · exact ih' c hc

/-- Splitting never yields the empty list of pieces. -/
theorem splitOnCharL_ne_nil {sep : Char} {l : List Char} : splitOnCharL sep l ≠ [] := by
  cases l with
  | nil => simp [splitOnCharL]
  | cons c rest =>
    by_cases hc : c = sep
    · simp [splitOnCharL, hc]
    · simp only [splitOnCharL, if_neg hc]
      split <;> simp

/-- Characters of a piece come from the split list. -/
theorem mem_splitOnCharL {sep : Char} {l piece : List Char} {c : Char}
    (hp : piece ∈ splitOnCharL sep l) (hc : c ∈ piece) : c ∈ l := by
  induction l generalizing piece with
  | nil =>
    simp [splitOnCharL] at hp
    subst hp
    cases hc
  | cons d rest ih =>
    by_cases hd : d = sep
    · subst hd
      simp only [splitOnCharL, if_pos rfl] at hp
      rcases List.mem_cons.mp hp with rfl | hp
      · cases hc
      · exact List.mem_cons_of_mem _ (ih hp hc)
    · simp only [splitOnCharL, if_neg hd] at hp
      rcases hsplit : splitOnCharL sep rest with _ | ⟨s, ss⟩
      · exact absurd hsplit splitOnCharL_ne_nil
      · rw [hsplit] at hp
        rcases List.mem_cons.mp hp with rfl | hp
        · rcases List.mem_cons.mp hc with rfl | hc
          · simp
          · exact List.mem_cons_of_mem _ (ih (by simp [hsplit]) hc)
        · exact List.mem_cons_of_mem _ (ih (by simp [hsplit, hp]) hc)

/-- Joining undoes splitting. -/
theorem joinSep_splitOnCharL {sep : Char} {l : List Char} :
    joinSep sep (splitOnCharL sep l) = l := by
  induction l with
  | nil => rfl
  | cons c rest ih =>
    by_cases hc : c = sep
    · simp only [splitOnCharL, if_pos hc]
      rcases hsplit : splitOnCharL sep rest with _ | ⟨s, ss⟩
      · exact absurd hsplit splitOnCharL_ne_nil
      · rw [hsplit] at ih
        simp [joinSep, ih, hc]
    · simp only [splitOnCharL, if_neg hc]
      rcases hsplit : splitOnCharL sep rest with _ | ⟨s, ss⟩
      · exact absurd hsplit splitOnCharL_ne_nil
      · rw [hsplit] at ih
        cases ss with
        | nil => simpa [joinSep] using congrArg (c :: ·) ih
        | cons y ys => simpa [joinSep] using congrArg (c :: ·) ih

/-- Characters of a join are the separator or come from a part. -/
theorem mem_joinSep {sep : Char} {parts : List (List Char)} {c : Char}
    (hc : c ∈ joinSep sep parts) : c = sep ∨ ∃ part ∈ parts, c ∈ part := by
  induction parts with
  | nil => cases hc
  | cons x rest ih =>
    cases rest with
    | nil =>
      right
      exact ⟨x, by simp, by simpa [joinSep] using hc⟩
    | cons y ys =>
      simp only [joinSep, List.mem_append, List.mem_cons] at hc
      rcases hc with hx | rfl | hrest
      · exact Or.inr ⟨x, by simp, hx⟩
      · exact Or.inl rfl
      · rcases ih hrest with h | ⟨part, hp, hcp⟩
        · exact Or.inl h
        · exact Or.inr ⟨part, by simp [hp], hcp⟩

/-- The head of a `dropWhile` residue fails the predicate. -/
theorem dropWhile_head_not {p : Char → Bool} {l : List Char} {d : Char} {v : List Char}
    (h : l.dropWhile p = d :: v) : p d = false := by
  induction l with
  | nil => cases h
  | cons a as ih =>
    rw [List.dropWhile_cons] at h
    by_cases hpa : p a = true
    · simp only [hpa, if_true] at h
      exact ih h
    · simp only [hpa, if_false] at h
      injection h with h1 _
      subst h1
      simpa using hpa

/-- Characters of a well-formed query are identity characters or
delimiters. -/
theorem queryOkL_mem {l : List Char} {c : Char} (hq : queryOkL l = true) (hc : c ∈ l) :
    qlitChar c = true ∨ c = '&' ∨ c = '=' := by
  have hc' : c ∈ joinSep '&' (splitOnCharL '&' l) := by
    rw [joinSep_splitOnCharL]; exact hc
  rcases mem_joinSep hc' with rfl | ⟨piece, hp, hcp⟩
  · right; left; rfl
  · have hpok : pieceOk piece = true := by
      simp only [queryOkL, List.all_eq_true] at hq
      exact hq piece hp
    simp only [pieceOk, Bool.and_eq_true, List.all_eq_true] at hpok
    rw [← List.takeWhile_append_dropWhile (p := fun c => c != '=') (l := piece)] at hcp
    rcases List.mem_append.mp hcp with h1 | h2
    · exact Or.inl (hpok.1 c h1)
    · rcases hD : piece.dropWhile (fun c => c != '=') with _ | ⟨d, v⟩
      · rw [hD] at h2; cases h2
      · rw [hD] at h2
        have hd : d = '=' := by simpa using dropWhile_head_not hD
        rcases List.mem_cons.mp h2 with rfl | h2
        · right; right; exact hd
        · have hv := hpok.2
          rw [hD] at hv
          simp only [List.all_eq_true] at hv
          exact Or.inl (hv c h2)

/-- A string without `?` does not start with `?`. -/
theorem startsWith_qm_false {l : List Char} (h : '?' ∉ l) :
    jsStartsWith ⟨l⟩ "?" = false := by
  cases l with
  | nil => rfl
  | cons c cs =>
    have hc : ¬('?' = c) := fun he => h (by simp [← he])
    show List.isPrefixOf ['?'] (c :: cs) = false
    simp [List.isPrefixOf, hc]

/-- Characters of a serialized parameter list. -/
theorem mem_serializeParams {ps : List (String × String)}
    (h : ∀ kv ∈ ps, (∀ c ∈ kv.1.data, formSafeChar c = true ∨ c = ' ') ∧
                    (∀ c ∈ kv.2.data, formSafeChar c = true ∨ c = ' '))
    {c : Char} (hc : c ∈ (serializeParams ps).data) :
    qlitChar c = true ∨ c = '&' ∨ c = '=' := by
  simp only [serializeParams] at hc
  rcases mem_joinSep hc with rfl | ⟨part, hpart, hcpart⟩
  · right; left; rfl
  · rcases List.mem_map.mp hpart with ⟨kv, hkv, rfl⟩
    have hkv' := h kv hkv
    simp only [serializePair, List.mem_append, List.mem_cons] at hcpart
    rcases hcpart with h1 | rfl | h2
    · exact Or.inl (encode_safe_qlit hkv'.1 c h1)
    · right; right; rfl
    · exact Or.inl (encode_safe_qlit hkv'.2 c h2)

/-- A serialized parameter list is a well-formed query. -/
theorem queryOkL_serializeParams {ps : List (String × String)}
    (h : ∀ kv ∈ ps, (∀ c ∈ kv.1.data, formSafeChar c = true ∨ c = ' ') ∧
                    (∀ c ∈ kv.2.data, formSafeChar c = true ∨ c = ' ')) :
    queryOkL (serializeParams ps).data = true := by
  simp only [queryOkL, List.all_eq_true, serializeParams]
  cases hps : ps with
  | nil =>
    intro piece hp
    simp [joinSep, splitOnCharL] at hp
    subst hp
    decide
  | cons kv0 rest0 =>
    rw [splitOn_joinSep (by simp) ?hfree]
    case hfree =>
      intro part hpart hmem
      rcases List.mem_map.mp hpart with ⟨kv, hkv, rfl⟩
      have hkv' := h kv (hps ▸ hkv)
      simp only [serializePair, List.mem_append, List.mem_cons] at hmem
      rcases hmem with h1 | h1 | h1
      · exact absurd rfl (qlitChar_spec (encode_safe_qlit hkv'.1 _ h1)).1
      · cases h1
      · exact absurd rfl (qlitChar_spec (encode_safe_qlit hkv'.2 _ h1)).1
    intro piece hp
    rcases List.mem_map.mp hp with ⟨kv, hkv, rfl⟩
    have hkv' := h kv (hps ▸ hkv)
    have hk := encode_safe_qlit hkv'.1
    have hv := encode_safe_qlit hkv'.2
    simp only [serializePair, pieceOk, Bool.and_eq_true]
    constructor
    · rw [takeWhile_mid (fun a ha => by simpa using (qlitChar_spec (hk a ha)).2.1)
        (by decide)]
      simp only [List.all_eq_true]
      exact hk
    · rw [dropWhile_mid (fun a ha => by simpa using (qlitChar_spec (hk a ha)).2.1)
        (by decide)]
      simp only [List.all_eq_true]
      exact hv

/-- A serialized pair is nonempty. -/
theorem serializePair_ne_nil {kv : String × String} : serializePair kv ≠ [] := by
  simp only [serializePair]
  intro h
  exact absurd (List.append_eq_nil.mp h).2 (by simp)

/-- Decode-of-encode at the string level, for decoded-safe strings. -/
theorem formDecode_formEncode_str {s : String}
    (h : ∀ c ∈ s.data, formSafeChar c = true ∨ c = ' ') :
    formDecode ⟨formEncodeL s.data⟩ = s := by
  have hascii : ∀ c ∈ s.data, c.toNat < 128 := by
    intro c hc
    rcases h c hc with h' | rfl
    · exact formSafeChar_lt128 h'
    · decide
  simp only [formDecode]
  rw [formDecodeL_formEncodeL hascii]

/-- The serialized pair splits back into its encoded name and value. -/
theorem serializePair_take {kv : String × String}
    (hk : ∀ c ∈ kv.1.data, formSafeChar c = true ∨ c = ' ') :
    (serializePair kv).takeWhile (fun c => c != '=') = formEncodeL kv.1.data := by
  simp only [serializePair]
  exact takeWhile_mid
    (fun a ha => by simpa using (qlitChar_spec (encode_safe_qlit hk a ha)).2.1)
    (by decide)

/-- The serialized pair's residue starts at its `=`. -/
theorem serializePair_drop {kv : String × String}
    (hk : ∀ c ∈ kv.1.data, formSafeChar c = true ∨ c = ' ') :
    (serializePair kv).dropWhile (fun c => c != '=') = '=' :: formEncodeL kv.2.data := by
  simp only [serializePair]
  exact dropWhile_mid
    (fun a ha => by simpa using (qlitChar_spec (encode_safe_qlit hk a ha)).2.1)
    (by decide)

/-- Re-parsing a serialized parameter list recovers the pairs. -/
theorem parseQuery_serializeParams {ps : List (String × String)}
    (h : ∀ kv ∈ ps, (∀ c ∈ kv.1.data, formSafeChar c = true ∨ c = ' ') ∧
                    (∀ c ∈ kv.2.data, formSafeChar c = true ∨ c = ' ')) :
    parseQuery (serializeParams ps) = ps := by
  cases hps : ps with
  | nil => rfl
  | cons kv0 rest0 =>
    subst hps
    have hqm : jsStartsWith (serializeParams (kv0 :: rest0)) "?" = false := by
      apply startsWith_qm_false
      intro hin
      rcases mem_serializeParams h hin with hq | hq | hq
      · exact absurd rfl (qlitChar_spec hq).2.2.1
      · cases hq
      · cases hq
    simp only [parseQuery, hqm, Bool.false_eq_true, if_false]
    simp only [serializeParams]
    rw [splitOn_joinSep (by simp) ?hfree]
    case hfree =>
      intro part hpart hmem
      rcases List.mem_map.mp hpart with ⟨kv, hkv, rfl⟩
      have hkv' := h kv hkv
      simp only [serializePair, List.mem_append, List.mem_cons] at hmem
      rcases hmem with h1 | h1 | h1
      · exact absurd rfl (qlitChar_spec (encode_safe_qlit hkv'.1 _ h1)).1
      · cases h1
      · exact absurd rfl (qlitChar_spec (encode_safe_qlit hkv'.2 _ h1)).1
    clear hqm
    revert h
    generalize (kv0 :: rest0) = l
    intro h
    induction l with
    | nil => rfl
    | cons kv rest ih =>
      simp only [List.map_cons, List.filterMap_cons]
      have hkv := h kv (by simp)
      rw [if_neg serializePair_ne_nil, serializePair_take hkv.1, serializePair_drop hkv.1]
      simp only [formDecode_formEncode_str hkv.1, formDecode_formEncode_str hkv.2]
      rw [ih (fun x hx => h x (by simp [hx]))]

/-! ## Path lemmas -/

/-- Collapsing passes a non-slash head through. -/
theorem collapseL_cons_other {c : Char} {t : List Char} (h : c ≠ '/') :
    collapseL (c :: t) = c :: collapseL t := by
  cases t with
  | nil => rfl
  | cons d rest => simp [collapseL, h]

/-- Collapsing merges a double slash. -/
theorem collapseL_slash_slash {t : List Char} :
    collapseL ('/' :: '/' :: t) = collapseL ('/' :: t) := by
  simp [collapseL]

/-- Collapsing keeps a slash followed by a non-slash (or nothing). -/
theorem collapseL_slash_other {t : List Char}
    (h : t = [] ∨ ∀ d ∈ t.head?, d ≠ '/') :
    collapseL ('/' :: t) = '/' :: collapseL t := by
  cases t with
  | nil => rfl
  | cons d rest =>
    rcases h with h | h
    · cases h
    · have hd : d ≠ '/' := h d rfl
      simp [collapseL, hd]

/-- Serializing a trailing empty segment appends a slash. -/
theorem joinPath_concat_nil {L : List (List Char)} :
    joinPath (L ++ [[]]) = joinPath L ++ ['/'] := by
  induction L with
  | nil => rfl
  | cons x rest ih => simp [joinPath, ih]

/-- The serialized path is a slash before the slash-joined segments. -/
theorem joinPath_eq_joinSep {L : List (List Char)} (h : L ≠ []) :
    joinPath L = '/' :: joinSep '/' L := by
  induction L with
  | nil => exact absurd rfl h
  | cons x rest ih =>
    cases rest with
    | nil => simp [joinPath, joinSep]
    | cons y ys =>
      have ih' := ih (by simp)
      calc joinPath (x :: y :: ys) = '/' :: (x ++ joinPath (y :: ys)) := rfl
        _ = '/' :: (x ++ '/' :: joinSep '/' (y :: ys)) := by rw [ih']
        _ = '/' :: joinSep '/' (x :: y :: ys) := by simp [joinSep]

/-- Re-parsing a serialized path recovers slash-free, dot-free segments. -/
theorem parsePathSegsL_joinPath {segs : List String} (hne : segs ≠ [])
    (hok : ∀ seg ∈ segs, ('/' ∉ seg.data) ∧ seg ≠ "." ∧ seg ≠ "..") :
    parsePathSegsL (joinPath (segs.map String.data)) = segs := by
  have hmapne : segs.map String.data ≠ [] := by simpa using hne
  simp only [parsePathSegsL]
  rw [joinPath_eq_joinSep hmapne]
  have hdrop : dropLeadSlash ('/' :: joinSep '/' (segs.map String.data)) =
      joinSep '/' (segs.map String.data) := rfl
  rw [hdrop, splitOn_joinSep hmapne ?hfree]
  case hfree =>
    intro part hpart hmem
    rcases List.mem_map.mp hpart with ⟨seg, hseg, rfl⟩
    exact (hok seg hseg).1 hmem
  rw [processSegs_no_dots [] ?hdots]
  case hdots =>
    intro seg hseg
    rcases List.mem_map.mp hseg with ⟨s, hs, rfl⟩
    have h1 : s ≠ "." := (hok s hs).2.1
    have h2 : s ≠ ".." := (hok s hs).2.2
    constructor
    · intro he
      exact h1 (by cases s; simp_all)
    · intro he
      exact h2 (by cases s; simp_all)
  simp only [List.nil_append, List.map_map]
  have : (fun l => (⟨l⟩ : String)) ∘ String.data = id := by
    funext s
    rfl
  rw [this, List.map_id]

/-- Collapsing is the identity on slash-free lists. -/
theorem collapseL_free {l : List Char} (h : '/' ∉ l) : collapseL l = l := by
  induction l with
  | nil => rfl
  | cons c t ih =>
    rw [collapseL_cons_other (fun he => h (by simp [he]))]
    rw [ih (fun hm => h (by simp [hm]))]

/-- Collapsing walks through a slash-free block. -/
theorem collapseL_append_free {x Z : List Char} (h : '/' ∉ x) :
    collapseL (x ++ Z) = x ++ collapseL Z := by
  induction x with
  | nil => rfl
  | cons c t ih =>
    rw [List.cons_append, collapseL_cons_other (fun he => h (by simp [he]))]
    rw [ih (fun hm => h (by simp [hm]))]
    simp

/-- What collapsing does to a serialized path: empty segments disappear,
except that a trailing empty segment survives as the trailing slash. -/
theorem collapse_joinPath {segs : List (List Char)} (hne : segs ≠ [])
    (hflat : ∀ seg ∈ segs, '/' ∉ seg) :
    collapseL (joinPath segs) =
      joinPath (segs.filter (fun s => !s.isEmpty) ++
        if segs.getLast? = some [] then [[]] else []) := by
  induction segs with
  | nil => exact absurd rfl hne
  | cons x rest ih =>
    cases rest with
    | nil =>
      cases x with
      | nil => rfl
      | cons c cs =>
        have hx : '/' ∉ c :: cs := hflat _ (by simp)
        have hc : c ≠ '/' := fun he => hx (by simp [he])
        simp only [joinPath, List.append_nil]
        rw [collapseL_slash_other (Or.inr (by simp [hc]))]
        rw [collapseL_free hx]
    | cons y ys =>
      have ih' := ih (by simp) (fun s hs => hflat s (by simp [hs]))
      have hJne : joinPath (y :: ys) = '/' :: joinSep '/' (y :: ys) :=
        joinPath_eq_joinSep (by simp)
      cases x with
      | nil =>
        have step : collapseL (joinPath ([] :: y :: ys)) = collapseL (joinPath (y :: ys)) := by
          show collapseL ('/' :: ([] ++ joinPath (y :: ys))) = _
          rw [List.nil_append, hJne, collapseL_slash_slash, ← hJne]
        rw [step, ih']
        simp [List.filter, List.getLast?_cons_cons]
      | cons c cs =>
        have hx : '/' ∉ c :: cs := hflat _ (by simp)
        have hc : c ≠ '/' := fun he => hx (by simp [he])
        have step : collapseL (joinPath ((c :: cs) :: y :: ys)) =
            '/' :: ((c :: cs) ++ collapseL (joinPath (y :: ys))) := by
          show collapseL ('/' :: ((c :: cs) ++ joinPath (y :: ys))) = _
          rw [collapseL_slash_other (Or.inr (by simp [hc])), collapseL_append_free hx]
        rw [step, ih']
        simp only [List.filter, List.isEmpty_cons, Bool.not_false,
          List.getLast?_cons_cons]
        simp [joinPath]

/-- Ending in a slash is having `'/'` as last character. -/
theorem jsEndsWith_slash_iff {l : List Char} :
    jsEndsWith ⟨l⟩ "/" = true ↔ l.getLast? = some '/' := by
  have h1 : jsEndsWith ⟨l⟩ "/" = List.isPrefixOf ['/'] l.reverse := rfl
  rw [h1, List.getLast?_eq_head?_reverse]
  rcases l.reverse with _ | ⟨d, rest⟩
  · simp [List.isPrefixOf]
  · simp [List.isPrefixOf]
    exact eq_comm

/-- A path of nonempty segments ends in its last segment's last character. -/
theorem joinPath_concat_form {L : List (List Char)} (hne : L ≠ [])
    (hall : ∀ s ∈ L, s ≠ [] ∧ '/' ∉ s) :
    ∃ t d, joinPath L = t ++ [d] ∧ d ≠ '/' := by
  induction L with
  | nil => exact absurd rfl hne
  | cons x rest ih =>
    cases rest with
    | nil =>
      have hx := hall x (by simp)
      refine ⟨'/' :: x.dropLast, x.getLast hx.1, ?_, ?_⟩
      · simp only [joinPath, List.append_nil]
        rw [show ('/' :: x.dropLast) ++ [x.getLast hx.1] =
          '/' :: (x.dropLast ++ [x.getLast hx.1]) from rfl]
        rw [List.dropLast_append_getLast hx.1]
      · intro he
        exact hx.2 (he ▸ List.getLast_mem hx.1)
    | cons y ys =>
      rcases ih (by simp) (fun s hs => hall s (by simp [hs])) with ⟨t, d, hform, hd⟩
      refine ⟨'/' :: (x ++ t), d, ?_, hd⟩
      show '/' :: (x ++ joinPath (y :: ys)) = _
      rw [hform]
      simp

/-- A path of nonempty segments does not end in a slash. -/
theorem joinPath_not_endsWith_slash {L : List (List Char)} (hne : L ≠ [])
    (hall : ∀ s ∈ L, s ≠ [] ∧ '/' ∉ s) :
    jsEndsWith ⟨joinPath L⟩ "/" = false := by
  rcases joinPath_concat_form hne hall with ⟨t, d, hform, hd⟩
  rw [Bool.eq_false_iff]
  intro h
  rw [jsEndsWith_slash_iff, hform, List.getLast?_concat] at h
  exact hd (by injection h)

/-- A path with a trailing empty segment ends in a slash. -/
theorem joinPath_trailing_endsWith_slash {L : List (List Char)} :
    jsEndsWith ⟨joinPath (L ++ [[]])⟩ "/" = true := by
  rw [jsEndsWith_slash_iff, joinPath_concat_nil, List.getLast?_concat]

/-! ## URL parse's inverse on serialized records -/

/-- The five special schemes. -/
theorem isSpecial_eq {s : String} (h : isSpecial s = true) :
    s = "http" ∨ s = "https" ∨ s = "ws" ∨ s = "wss" ∨ s = "ftp" := by
  simp only [isSpecial, Bool.or_eq_true, beq_iff_eq] at h
  tauto

/-- Facts about a special scheme's characters. -/
theorem scheme_facts {s : String} (h : isSpecial s = true) :
    (∀ c ∈ s.data, (c != ':') = true) ∧ rawSchemeOk s.data = true ∧
    s.data.map charToLower = s.data := by
  rcases isSpecial_eq h with rfl | rfl | rfl | rfl | rfl <;>
    exact ⟨by decide, by decide, by decide⟩

/-- Facts about stored host characters. -/
theorem hostStored_facts {c : Char} (h : hostStoredOk c = true) :
    ((c != '/' && c != '?' && c != '#') = true) ∧ (c != ':') = true ∧
    hostRawOk c = true ∧ charToLower c = c := by
  simp only [hostStoredOk, isAsciiDigit, Bool.or_eq_true, Bool.and_eq_true,
    beq_iff_eq, decide_eq_true_eq] at h
  have h35 : c.toNat ≠ 35 := by omega
  have h47 : c.toNat ≠ 47 := by omega
  have h58 : c.toNat ≠ 58 := by omega
  have h63 : c.toNat ≠ 63 := by omega
  refine ⟨?_, ?_, ?_, ?_⟩
  · simp only [Bool.and_eq_true, bne_iff_ne]
    exact ⟨⟨fun he => h47 (by rw [he]; rfl), fun he => h63 (by rw [he]; rfl)⟩,
      fun he => h35 (by rw [he]; rfl)⟩
  · simp only [bne_iff_ne]
    exact fun he => h58 (by rw [he]; rfl)
  · simp only [hostRawOk, isAsciiAlpha, isAsciiDigit, Bool.or_eq_true,
      Bool.and_eq_true, beq_iff_eq, decide_eq_true_eq]
    omega
  · simp only [charToLower]
    rw [if_neg]
    simp only [Bool.and_eq_true, decide_eq_true_eq, not_and]
    omega

/-- Decimal digit characters have codepoint `48 + d`. -/
theorem hexDigitUpper_toNat {d : Nat} (h : d < 10) :
    (hexDigitUpper d).toNat = 48 + d := by
  interval_cases d <;> decide

/-- Digit characters of a printed number. -/
theorem natRepr_digits {p : Nat} : ∀ c ∈ (natRepr p).data, isAsciiDigit c = true := by
  by_cases hp : p = 0
  · subst hp; decide
  · simp only [natRepr, if_neg hp]
    intro c hc
    rcases List.mem_map.mp (by simpa using hc) with ⟨d, hd, rfl⟩
    have hd10 : d < 10 := Nat.digits_lt_base (by norm_num) (by simpa using hd)
    simp only [isAsciiDigit, hexDigitUpper_toNat hd10]
    simp
    omega

/-- A printed number is nonempty. -/
theorem natRepr_ne_nil {p : Nat} : (natRepr p).data ≠ [] := by
  by_cases hp : p = 0
  · subst hp; decide
  · simp only [natRepr, if_neg hp]
    simp [Nat.digits_ne_nil_iff_ne_zero, hp]

/-- Folding the printed digits recovers the number. -/
theorem digitsVal_eq_ofDigits {L : List Nat} (h : ∀ d ∈ L, d < 10) :
    digitsVal (L.reverse.map hexDigitUpper) = Nat.ofDigits 10 L := by
  induction L with
  | nil => rfl
  | cons d L' ih =>
    simp only [List.reverse_cons, List.map_append, List.map_cons, List.map_nil]
    simp only [digitsVal, List.foldl_append]
    have ih' := ih (fun x hx => h x (by simp [hx]))
    simp only [digitsVal] at ih'
    rw [ih']
    simp only [List.foldl_cons, List.foldl_nil]
    rw [hexDigitUpper_toNat (h d (by simp))]
    rw [Nat.ofDigits_cons]
    ring_nf
    omega

/-- Parsing the printed port recovers it. -/
theorem digitsVal_natRepr {p : Nat} : digitsVal (natRepr p).data = p := by
  by_cases hp : p = 0
  · subst hp; decide
  · simp only [natRepr, if_neg hp]
    rw [show List.map (fun d => hexDigitUpper d) (Nat.digits 10 p).reverse =
      (Nat.digits 10 p).reverse.map hexDigitUpper from rfl]
    rw [digitsVal_eq_ofDigits (fun d hd => Nat.digits_lt_base (by norm_num) hd)]
    exact Nat.ofDigits_digits 10 p

/-- Characters of a serialized path come from the slashes or the segments. -/
theorem mem_joinPath {L : List (List Char)} {c : Char} (hc : c ∈ joinPath L) :
    c = '/' ∨ ∃ s ∈ L, c ∈ s := by
  induction L with
  | nil => cases hc
  | cons x rest ih =>
    simp only [joinPath, List.mem_cons, List.mem_append] at hc
    rcases hc with rfl | hx | hrest
    · exact Or.inl rfl
    · exact Or.inr ⟨x, by simp, hx⟩
    · rcases ih hrest with h | ⟨s, hs, hcs⟩
      · exact Or.inl h
      · exact Or.inr ⟨s, by simp [hs], hcs⟩

/-- Path characters pass the path span and are not slashes. -/
theorem pathCharOk_facts {c : Char} (h : pathCharOk c = true) :
    (c != '?' && c != '#') = true ∧ c ≠ '/' := by
  simp only [pathCharOk, Bool.and_eq_true, decide_eq_true_eq, bne_iff_ne] at h
  have h35 : c.toNat ≠ 35 := by omega
  have h47 : c.toNat ≠ 47 := by omega
  have h63 : c.toNat ≠ 63 := by omega
  refine ⟨?_, fun he => h47 (by rw [he]; decide)⟩
  simp only [Bool.and_eq_true, bne_iff_ne]
  exact ⟨fun he => h63 (by rw [he]; decide), fun he => h35 (by rw [he]; decide)⟩

/-- Query characters pass the query span. -/
theorem queryOkL_ne_hash {q : List Char} (hq : queryOkL q = true) :
    ∀ c ∈ q, (c != '#') = true := by
  intro c hc
  simp only [bne_iff_ne]
  rcases queryOkL_mem hq hc with h | rfl | rfl
  · exact (qlitChar_spec h).2.2.2.1
  · decide
  · decide

theorem parse_href_concat (scheme host : String) (port : Option Nat) (segs : List String)
    (query frag : Option String)
    (hspec : isSpecial scheme = true)
    (hhostne : host ≠ "") (hhost : host.data.all hostStoredOk = true)
    (hport : ∀ p, port = some p → p < 65536 ∧ defaultPort? scheme ≠ some p)
    (hsegsne : segs ≠ []) (hsegs : ∀ seg ∈ segs, segOk seg = true)
    (hquery : ∀ q, query = some q → queryOkL q.data = true)
    (hfrag : ∀ f, frag = some f → f.data.all fragCharOk = true) :
    URL.parse (URLRec.href ⟨scheme, host, port, segs, query, frag⟩) =
      some ⟨scheme, host, port, segs, query, frag⟩ := by
  have hsch := scheme_facts hspec
  obtain ⟨portCs, hpcs⟩ : ∃ l, (match port with
      | none => ([] : List Char)
      | some p => ':' :: (natRepr p).data) = l := ⟨_, rfl⟩
  obtain ⟨queryCs, hqcs⟩ : ∃ l, (match query with
      | none => ([] : List Char)
      | some q => '?' :: q.data) = l := ⟨_, rfl⟩
  obtain ⟨fragCs, hfcs⟩ : ∃ l, (match frag with
      | none => ([] : List Char)
      | some f => '#' :: f.data) = l := ⟨_, rfl⟩
  have hdata : (URLRec.href ⟨scheme, host, port, segs, query, frag⟩).data =
      scheme.data ++ ':' :: '/' :: '/' ::
        ((host.data ++ portCs) ++
         (joinPath (segs.map String.data) ++ (queryCs ++ fragCs))) := by
    rw [← hpcs, ← hqcs, ← hfcs]
    rcases port with _ | p <;> rcases query with _ | q <;> rcases frag with _ | f <;>
      simp [URLRec.href, URLRec.protocol, URLRec.pathname, String.data_append]
  simp only [URL.parse]
  rw [hdata]
  rw [takeWhile_mid hsch.1 (by decide), dropWhile_mid hsch.1 (by decide)]
  have hmk : ({ data := scheme.data } : String) = scheme := rfl
  simp only [hsch.2.2, hmk, hsch.2.1, hspec, if_true]
  have hhostOk : ∀ a ∈ host.data, hostStoredOk a = true := List.all_eq_true.mp hhost
  have hsegsmapne : segs.map String.data ≠ [] := by simpa using hsegsne
  rw [joinPath_eq_joinSep hsegsmapne]
  simp only [List.cons_append]
  have hdigitAuth : ∀ c : Char, isAsciiDigit c = true →
      ((c != '/' && c != '?' && c != '#') = true) ∧ (c != ':') = true := by
    intro c hc
    simp only [isAsciiDigit, Bool.and_eq_true, decide_eq_true_eq] at hc
    have h35 : c.toNat ≠ 35 := by omega
    have h47 : c.toNat ≠ 47 := by omega
    have h58 : c.toNat ≠ 58 := by omega
    have h63 : c.toNat ≠ 63 := by omega
    constructor
    · simp only [Bool.and_eq_true, bne_iff_ne]
      exact ⟨⟨fun he => h47 (by rw [he]; decide), fun he => h63 (by rw [he]; decide)⟩,
        fun he => h35 (by rw [he]; decide)⟩
    · simp only [bne_iff_ne]
      exact fun he => h58 (by rw [he]; decide)
  have hauth1 : ∀ a ∈ host.data ++ portCs, (a != '/' && a != '?' && a != '#') = true := by
    intro a ha
    rcases List.mem_append.mp ha with h | h
    · exact (hostStored_facts (hhostOk a h)).1
    · rcases port with _ | p
      · rw [← hpcs] at h; cases h
      · rw [← hpcs] at h
        rcases List.mem_cons.mp h with rfl | h
        · decide
        · exact (hdigitAuth a (natRepr_digits a h)).1
  simp only [takeWhile_mid (c := '/') hauth1 (by decide),
    dropWhile_mid (c := '/') hauth1 (by decide)]
  have hHostPort : (host.data ++ portCs).takeWhile (fun c => c != ':') = host.data ∧
      (host.data ++ portCs).dropWhile (fun c => c != ':') = portCs := by
    rcases port with _ | p
    · rw [← hpcs]
      simp only [List.append_nil]
      exact ⟨takeWhile_all (fun a ha => (hostStored_facts (hhostOk a ha)).2.1),
        dropWhile_all (fun a ha => (hostStored_facts (hhostOk a ha)).2.1)⟩
    · rw [← hpcs]
      exact ⟨takeWhile_mid (fun a ha => (hostStored_facts (hhostOk a ha)).2.1) (by decide),
        dropWhile_mid (fun a ha => (hostStored_facts (hhostOk a ha)).2.1) (by decide)⟩
  simp only [hHostPort.1, hHostPort.2]
  have hhostdatane : decide (host.data ≠ []) = true := by
    apply decide_eq_true
    intro h
    exact hhostne (by cases host; simp_all)
  have hhostraw : host.data.all hostRawOk = true := by
    rw [List.all_eq_true]
    intro a ha
    exact (hostStored_facts (hhostOk a ha)).2.2.1
  have hhostlower : List.map charToLower host.data = host.data := by
    have hmapid : ∀ a ∈ host.data, charToLower a = a :=
      fun a ha => (hostStored_facts (hhostOk a ha)).2.2.2
    calc List.map charToLower host.data = List.map id host.data :=
      List.map_congr_left hmapid
    _ = host.data := List.map_id _
  have hhostmk : ({ data := host.data } : String) = host := rfl
  simp only [hhostdatane, hhostraw, Bool.and_self, if_true, hhostlower, hhostmk]
  have hportRes : (if portCs = [] then some (none : Option Nat)
      else
        if portCs.tail = [] then some none
        else
          if portCs.tail.all isAsciiDigit = true then
            if digitsVal portCs.tail < 65536 then
              some (if defaultPort? scheme = some (digitsVal portCs.tail) then none
                else some (digitsVal portCs.tail))
            else none
          else none) = some port := by
    rcases port with _ | p
    · have h0 : portCs = [] := hpcs.symm
      subst h0
      rfl
    · have h0 : portCs = ':' :: (natRepr p).data := hpcs.symm
      have hp' := hport p rfl
      subst h0
      simp only [List.tail_cons, List.cons_ne_nil, if_false, if_neg natRepr_ne_nil,
        List.all_eq_true.mpr natRepr_digits, digitsVal_natRepr, hp'.1, if_true,
        if_neg hp'.2]
  simp only [hportRes, Option.some_bind]
  have hpathAll : ∀ a ∈ '/' :: joinSep '/' (segs.map String.data),
      (a != '?' && a != '#') = true := by
    intro a ha
    rcases List.mem_cons.mp ha with rfl | ha
    · decide
    · rcases mem_joinSep ha with rfl | ⟨part, hp, hcp⟩
      · decide
      · rcases List.mem_map.mp hp with ⟨seg, hseg, rfl⟩
        have hso := hsegs seg hseg
        simp only [segOk, Bool.and_eq_true, List.all_eq_true] at hso
        exact (pathCharOk_facts (hso.1.1 a hcp)).1
  have hpathCheck : (('/' :: joinSep '/' (segs.map String.data)).all
      (fun c => c == '/' || pathCharOk c)) = true := by
    rw [List.all_eq_true]
    intro a ha
    rcases List.mem_cons.mp ha with rfl | ha
    · decide
    · rcases mem_joinSep ha with rfl | ⟨part, hp, hcp⟩
      · decide
      · rcases List.mem_map.mp hp with ⟨seg, hseg, rfl⟩
        have hso := hsegs seg hseg
        simp only [segOk, Bool.and_eq_true, List.all_eq_true] at hso
        simp [hso.1.1 a hcp]
  have hsegfacts : ∀ seg ∈ segs, ('/' ∉ seg.data) ∧ seg ≠ "." ∧ seg ≠ ".." := by
    intro seg hseg
    have hso := hsegs seg hseg
    simp only [segOk, Bool.and_eq_true, List.all_eq_true, bne_iff_ne] at hso
    exact ⟨fun hm => (pathCharOk_facts (hso.1.1 '/' hm)).2 rfl, hso.1.2, hso.2⟩
  have hparsePath : parsePathSegsL ('/' :: joinSep '/' (segs.map String.data)) = segs := by
    rw [← joinPath_eq_joinSep hsegsmapne]
    exact parsePathSegsL_joinPath hsegsne hsegfacts
  rcases query with _ | q
  · rcases frag with _ | f
    · have hq0 : queryCs = [] := hqcs.symm
      subst hq0
      have hf0 : fragCs = [] := hfcs.symm
      subst hf0
      simp only [List.append_nil, takeWhile_all hpathAll, dropWhile_all hpathAll,
        hpathCheck, if_true, hparsePath, List.head?_nil]
      simp
    · have hq0 : queryCs = [] := hqcs.symm
      subst hq0
      have hf0 : fragCs = '#' :: f.data := hfcs.symm
      subst hf0
      have hfok := hfrag f rfl
      simp only [List.nil_append]
      have hre : ('/' :: (joinSep '/' (segs.map String.data) ++ '#' :: f.data)) =
          ('/' :: joinSep '/' (segs.map String.data)) ++ '#' :: f.data := rfl
      simp only [hre]
      simp only [takeWhile_mid (c := '#') hpathAll (by decide),
        dropWhile_mid (c := '#') hpathAll (by decide),
        hpathCheck, if_true, hparsePath, List.head?_cons, List.tail_cons]
      simp [hfok]
  · rcases frag with _ | f
    · have hq0 : queryCs = '?' :: q.data := hqcs.symm
      subst hq0
      have hf0 : fragCs = [] := hfcs.symm
      subst hf0
      have hqok := hquery q rfl
      simp only [List.append_nil]
      have hre : ('/' :: (joinSep '/' (segs.map String.data) ++ '?' :: q.data)) =
          ('/' :: joinSep '/' (segs.map String.data)) ++ '?' :: q.data := rfl
      simp only [hre]
      simp only [takeWhile_mid (c := '?') hpathAll (by decide),
        dropWhile_mid (c := '?') hpathAll (by decide),
        hpathCheck, if_true, hparsePath, List.head?_cons, List.tail_cons]
      rw [takeWhile_all (queryOkL_ne_hash hqok), dropWhile_all (queryOkL_ne_hash hqok)]
      simp [hqok]
    · have hq0 : queryCs = '?' :: q.data := hqcs.symm
      subst hq0
      have hf0 : fragCs = '#' :: f.data := hfcs.symm
      subst hf0
      have hqok := hquery q rfl
      have hfok := hfrag f rfl
      have hq1 : ('?' :: q.data) ++ ('#' :: f.data) = '?' :: (q.data ++ '#' :: f.data) := rfl
      rw [hq1]
      have hre : ('/' :: (joinSep '/' (segs.map String.data) ++
          '?' :: (q.data ++ '#' :: f.data))) =
          ('/' :: joinSep '/' (segs.map String.data)) ++
          '?' :: (q.data ++ '#' :: f.data) := rfl
      simp only [hre]
      simp only [takeWhile_mid (c := '?') hpathAll (by decide),
        dropWhile_mid (c := '?') hpathAll (by decide),
        hpathCheck, if_true, hparsePath, List.head?_cons, List.tail_cons]
      rw [takeWhile_mid (queryOkL_ne_hash hqok) (by decide),
        dropWhile_mid (queryOkL_ne_hash hqok) (by decide)]
      simp [hqok, hfok]

/-- Re-parsing the serialization of a well-formed record gives it back. -/
theorem parse_href {u : URLRec} (h : u.WF) : URL.parse u.href = some u := by
  obtain ⟨scheme, host, port, segs, query, frag⟩ := u
  simp only [URLRec.WF, URLRec.wfB, Bool.and_eq_true, bne_iff_ne, ne_eq,
    List.all_eq_true] at h
  obtain ⟨⟨⟨⟨⟨⟨⟨hspec, hhostne⟩, hhost⟩, hportm⟩, hsegsne⟩, hsegs⟩, hquerym⟩, hfragm⟩ := h
  refine parse_href_concat scheme host port segs query frag hspec hhostne
    (List.all_eq_true.mpr hhost) ?_ hsegsne hsegs ?_ ?_
  · intro p hp
    rw [hp] at hportm
    simp only [Bool.and_eq_true, decide_eq_true_eq, bne_iff_ne, ne_eq] at hportm
    exact hportm
  · intro q hq
    rw [hq] at hquerym
    exact hquerym
  · intro f hf
    rw [hf] at hfragm
    exact hfragm

/-- Pieces of a split never contain the separator. -/
theorem sep_not_mem_splitOnCharL {sep : Char} {l piece : List Char}
    (hp : piece ∈ splitOnCharL sep l) : sep ∉ piece := by
  induction l generalizing piece with
  | nil =>
    simp [splitOnCharL] at hp
    subst hp
    simp
  | cons d rest ih =>
    by_cases hd : d = sep
    · simp only [splitOnCharL, if_pos hd] at hp
      rcases List.mem_cons.mp hp with rfl | hp
      · simp
      · exact ih hp
    · simp only [splitOnCharL, if_neg hd] at hp
      rcases hsplit : splitOnCharL sep rest with _ | ⟨s, ss⟩
      · exact absurd hsplit splitOnCharL_ne_nil
      · rw [hsplit] at hp
        rcases List.mem_cons.mp hp with rfl | hp
        · intro hmem
          rcases List.mem_cons.mp hmem with rfl | hmem
          · exact hd rfl
          · exact ih (by simp [hsplit]) hmem
        · exact ih (by simp [hsplit, hp])

/-- The path states produce old accumulator entries, non-dot input segments,
or empty segments. -/
theorem mem_processSegs {l : List (List Char)} {acc : List (List Char)}
    {seg : List Char} (hs : seg ∈ processSegs acc l) :
    seg ∈ acc ∨ (seg ∈ l ∧ seg ≠ ['.'] ∧ seg ≠ ['.', '.']) ∨ seg = [] := by
  induction l generalizing acc with
  | nil => exact Or.inl hs
  | cons x rest ih =>
    cases rest with
    | nil =>
      by_cases hdd : x = ['.', '.']
      · subst hdd
        simp only [processSegs, if_pos rfl] at hs
        rcases List.mem_append.mp hs with h | h
        · exact Or.inl (List.dropLast_subset _ h)
        · simp at h
          exact Or.inr (Or.inr h)
      · by_cases hd : x = ['.']
        · subst hd
          simp only [processSegs, if_neg hdd, if_pos rfl] at hs
          rcases List.mem_append.mp hs with h | h
          · exact Or.inl h
          · simp at h
            exact Or.inr (Or.inr h)
        · simp only [processSegs, if_neg hdd, if_neg hd] at hs
          rcases List.mem_append.mp hs with h | h
          · exact Or.inl h
          · simp at h
            subst h
            exact Or.inr (Or.inl ⟨by simp, hd, hdd⟩)
    | cons y ys =>
      simp only [processSegs] at hs
      split at hs
      · rcases ih hs with h | ⟨h1, h2⟩ | h
        · exact Or.inl (List.dropLast_subset _ h)
        · exact Or.inr (Or.inl ⟨by simp [h1], h2⟩)
        · exact Or.inr (Or.inr h)
      · split at hs
        · rcases ih hs with h | ⟨h1, h2⟩ | h
          · exact Or.inl h
          · exact Or.inr (Or.inl ⟨by simp [h1], h2⟩)
          · exact Or.inr (Or.inr h)
        · rcases ih hs with h | ⟨h1, h2⟩ | h
          · rcases List.mem_append.mp h with h | h
            · exact Or.inl h
            · simp at h
              subst h
              refine Or.inr (Or.inl ⟨by simp, ?_, ?_⟩) <;> assumption
          · exact Or.inr (Or.inl ⟨by simp [h1], h2⟩)
          · exact Or.inr (Or.inr h)

/-- The path states never produce an empty segment list. -/
theorem processSegs_ne_nil {l : List (List Char)} {acc : List (List Char)}
    (hl : l ≠ []) : processSegs acc l ≠ [] := by
  induction l generalizing acc with
  | nil => exact absurd rfl hl
  | cons x rest ih =>
    cases rest with
    | nil =>
      simp only [processSegs]
      split
      · simp
      · split <;> simp
    | cons y ys =>
      simp only [processSegs]
      exact ih (by simp)

/-- Lower-casing a raw host character yields a stored host character. -/
theorem hostRawOk_toLower {c : Char} (h : hostRawOk c = true) :
    hostStoredOk (charToLower c) = true := by
  simp only [hostRawOk, isAsciiAlpha, isAsciiDigit, Bool.or_eq_true,
    Bool.and_eq_true, beq_iff_eq, decide_eq_true_eq] at h
  by_cases hup : 65 ≤ c.toNat ∧ c.toNat ≤ 90
  · have hb : (65 ≤ c.toNat && c.toNat ≤ 90) = true := by
      simp only [Bool.and_eq_true, decide_eq_true_eq]
      exact hup
    simp only [charToLower]
    rw [if_pos hb]
    simp only [hostStoredOk, isAsciiDigit, Bool.or_eq_true, Bool.and_eq_true,
      beq_iff_eq, decide_eq_true_eq, char_toNat_ofNat (by omega : c.toNat + 32 < 55296)]
    omega
  · have hb : ¬((65 ≤ c.toNat && c.toNat ≤ 90) = true) := by
      simp only [Bool.and_eq_true, decide_eq_true_eq]
      exact hup
    simp only [charToLower]
    rw [if_neg hb]
    simp only [hostStoredOk, isAsciiDigit, Bool.or_eq_true, Bool.and_eq_true,
      beq_iff_eq, decide_eq_true_eq]
    omega

/-- A nonempty character list makes a nonempty string. -/
theorem mk_ne_empty {l : List Char} (h : l ≠ []) : (⟨l⟩ : String) ≠ "" := by
  intro he
  exact h (by simpa using congrArg String.data he)

/-- Introduction rule for well-formedness. -/
theorem WF_intro {scheme host : String} {port : Option Nat} {segs : List String}
    {query frag : Option String}
    (hspec : isSpecial scheme = true)
    (hhostne : host ≠ "") (hhost : ∀ c ∈ host.data, hostStoredOk c = true)
    (hport : ∀ p, port = some p → p < 65536 ∧ defaultPort? scheme ≠ some p)
    (hsegsne : segs ≠ []) (hsegs : ∀ seg ∈ segs, segOk seg = true)
    (hquery : ∀ q, query = some q → queryOkL q.data = true)
    (hfrag : ∀ f, frag = some f → f.data.all fragCharOk = true) :
    URLRec.WF ⟨scheme, host, port, segs, query, frag⟩ := by
  simp only [URLRec.WF, URLRec.wfB, Bool.and_eq_true, bne_iff_ne, ne_eq,
    List.all_eq_true]
  refine ⟨⟨⟨⟨⟨⟨⟨hspec, hhostne⟩, hhost⟩, ?_⟩, hsegsne⟩, hsegs⟩, ?_⟩, ?_⟩
  · rcases port with _ | p
    · rfl
    · have := hport p rfl
      simp only [Bool.and_eq_true, decide_eq_true_eq, bne_iff_ne, ne_eq]
      exact this
  · rcases query with _ | q
    · rfl
    · exact hquery q rfl
  · rcases frag with _ | f
    · rfl
    · exact hfrag f rfl

set_option maxHeartbeats 1000000 in
/-- Parsing produces well-formed records. -/
theorem parse_WF {s : String} {r : URLRec} (h : URL.parse s = some r) : r.WF := by
  simp only [URL.parse] at h
  split at h
  case h_2 => exact Option.noConfusion h
  case h_1 rest2 heq =>
    generalize List.takeWhile (fun c => c != ':') s.data = schemeCs at h
    generalize List.takeWhile (fun c => c != '/' && c != '?' && c != '#') rest2 = authCs at h
    generalize List.dropWhile (fun c => c != '/' && c != '?' && c != '#') rest2 = rest3 at h
    generalize List.takeWhile (fun c => c != ':') authCs = hostCs at h
    generalize List.dropWhile (fun c => c != ':') authCs = portCs at h
    generalize List.takeWhile (fun c => c != '?' && c != '#') rest3 = pathCs at h
    generalize List.dropWhile (fun c => c != '?' && c != '#') rest3 = rest4 at h
    split at h
    case isFalse => exact Option.noConfusion h
    case isTrue h1 =>
      split at h
      case isFalse => exact Option.noConfusion h
      case isTrue h2 =>
        split at h
        case isFalse => exact Option.noConfusion h
        case isTrue h3 =>
          rcases Option.bind_eq_some.mp h with ⟨port, hport, hbody⟩
          split at hbody
          case isFalse => exact Option.noConfusion hbody
          case isTrue h4 =>
            rcases Option.map_eq_some'.mp hbody with ⟨⟨q, fr⟩, hqf, hrec⟩
            subst hrec
            simp only [Bool.and_eq_true, decide_eq_true_eq] at h3
            have hportFact : ∀ p, port = some p →
                p < 65536 ∧
                defaultPort? ⟨List.map charToLower schemeCs⟩ ≠ some p := by
              intro p hp
              rw [hp] at hport
              split at hport
              case isTrue => exact Option.noConfusion (Option.some.inj hport)
              case isFalse =>
                split at hport
                case isTrue => exact Option.noConfusion (Option.some.inj hport)
                case isFalse =>
                  split at hport
                  case isFalse => exact Option.noConfusion hport
                  case isTrue hdig =>
                    split at hport
                    case isFalse => exact Option.noConfusion hport
                    case isTrue hlt =>
                      have hinner := Option.some.inj hport
                      split at hinner
                      case isTrue => exact Option.noConfusion hinner
                      case isFalse hdef =>
                        have hval := Option.some.inj hinner
                        subst hval
                        exact ⟨hlt, hdef⟩
            have hqffacts : (∀ q', q = some q' → queryOkL q'.data = true) ∧
                (∀ f', fr = some f' → f'.data.all fragCharOk = true) := by
              split at hqf
              case isTrue hq1 =>
                split at hqf
                case isFalse => exact Option.noConfusion hqf
                case isTrue hq2 =>
                  split at hqf
                  case isTrue hq3 =>
                    split at hqf
                    case isFalse => exact Option.noConfusion hqf
                    case isTrue hq4 =>
                      have hpair := Option.some.inj hqf
                      injection hpair with hq' hf'
                      subst hq'
                      subst hf'
                      constructor
                      · intro q' hq'
                        cases Option.some.inj hq'
                        exact hq2
                      · intro f' hf'
                        cases Option.some.inj hf'
                        exact hq4
                  case isFalse hq3 =>
                    have hpair := Option.some.inj hqf
                    injection hpair with hq' hf'
                    subst hq'
                    subst hf'
                    constructor
                    · intro q' hq'
                      cases Option.some.inj hq'
                      exact hq2
                    · intro f' hf'
                      exact Option.noConfusion hf'
              case isFalse hq1 =>
                split at hqf
                case isTrue hq2 =>
                  split at hqf
                  case isFalse => exact Option.noConfusion hqf
                  case isTrue hq3 =>
                    have hpair := Option.some.inj hqf
                    injection hpair with hq' hf'
                    subst hq'
                    subst hf'
                    constructor
                    · intro q' hq'
                      exact Option.noConfusion hq'
                    · intro f' hf'
                      cases Option.some.inj hf'
                      exact hq3
                case isFalse hq2 =>
                  have hpair := Option.some.inj hqf
                  injection hpair with hq' hf'
                  subst hq'
                  subst hf'
                  constructor
                  · intro q' hq'
                    exact Option.noConfusion hq'
                  · intro f' hf'
                    exact Option.noConfusion hf'
            refine WF_intro h2 (mk_ne_empty ?_) ?_ hportFact ?_ ?_ hqffacts.1 hqffacts.2
            · intro hmap
              exact h3.1 (List.map_eq_nil_iff.mp hmap)
            · intro c hc
              rcases List.mem_map.mp hc with ⟨a, ha, rfl⟩
              exact hostRawOk_toLower (List.all_eq_true.mp h3.2 a ha)
            · simp only [parsePathSegsL, ne_eq, List.map_eq_nil_iff]
              exact processSegs_ne_nil splitOnCharL_ne_nil
            · intro seg hseg
              rcases List.mem_map.mp hseg with ⟨l, hl, rfl⟩
              rcases mem_processSegs hl with hacc | ⟨hmem, hd1, hd2⟩ | rfl
              · cases hacc
              · simp only [segOk, Bool.and_eq_true, List.all_eq_true, bne_iff_ne]
                refine ⟨⟨?_, ?_⟩, ?_⟩
                · intro c hc
                  have hcp : c ∈ pathCs := by
                    have h0 := mem_splitOnCharL hmem hc
                    rcases hpc : pathCs with _ | ⟨p0, prest⟩
                    · rw [hpc] at h0
                      simp [dropLeadSlash] at h0
                    · rw [hpc] at h0
                      by_cases hp0 : p0 = '/'
                      · subst hp0
                        simp only [dropLeadSlash] at h0
                        exact List.mem_cons_of_mem _ h0
                      · have : dropLeadSlash (p0 :: prest) = p0 :: prest := by
                          cases hp0' : p0 <;> simp [dropLeadSlash] <;> simp_all [dropLeadSlash]
                        rw [this] at h0
                        exact h0
                  have hck := List.all_eq_true.mp h4 c hcp
                  simp only [Bool.or_eq_true, beq_iff_eq] at hck
                  rcases hck with rfl | hck
                  · exact absurd hc (sep_not_mem_splitOnCharL hmem)
                  · exact hck
                · intro he
                  exact hd1 (by simpa using congrArg String.data he)
                · intro he
                  exact hd2 (by simpa using congrArg String.data he)
              · decide

/-! ## Record and component equations for the pipeline steps -/

/-- Elimination of well-formedness into its components. -/
theorem WF_elim {u : URLRec} (h : u.WF) :
    isSpecial u.scheme = true ∧ u.host ≠ "" ∧
    (∀ c ∈ u.host.data, hostStoredOk c = true) ∧
    (∀ p, u.port = some p → p < 65536 ∧ defaultPort? u.scheme ≠ some p) ∧
    u.pathSegs ≠ [] ∧ (∀ seg ∈ u.pathSegs, segOk seg = true) ∧
    (∀ q, u.query = some q → queryOkL q.data = true) ∧
    (∀ f, u.fragment = some f → f.data.all fragCharOk = true) := by
  simp only [URLRec.WF, URLRec.wfB, Bool.and_eq_true, bne_iff_ne, ne_eq,
    List.all_eq_true] at h
  obtain ⟨⟨⟨⟨⟨⟨⟨h1, h2⟩, h3⟩, h4⟩, h5⟩, h6⟩, h7⟩, h8⟩ := h
  refine ⟨h1, h2, h3, ?_, h5, h6, ?_, ?_⟩
  · intro p hp
    rw [hp] at h4
    simpa using h4
  · intro q hq
    rw [hq] at h7
    exact h7
  · intro f hf
    rw [hf] at h8
    exact h8

/-- Cancel a trailing `":"` of a string append. -/
theorem append_colon_inj {s t : String} (h : s ++ ":" = t ++ ":") : s = t := by
  have hd : s.data ++ [':'] = t.data ++ [':'] := congrArg String.data h
  apply String.ext
  have h3 := congrArg List.reverse hd
  simp only [List.reverse_append, List.reverse_cons, List.reverse_nil,
    List.nil_append, List.singleton_append] at h3
  have h4 : s.data.reverse = t.data.reverse := by injection h3
  simpa using congrArg List.reverse h4

/-- `url.protocol` determines the scheme. -/
theorem protocol_eq {u : URLRec} {s : String} (h : u.protocol = s ++ ":") :
    u.scheme = s := by
  simp only [URLRec.protocol] at h
  exact append_colon_inj h

/-- Stored host characters are already lower-case. -/
theorem hostStoredOk_lower_fix {c : Char} (h : hostStoredOk c = true) :
    charToLower c = c := by
  have hc : ¬((65 ≤ c.toNat && c.toNat ≤ 90) = true) := by
    simp only [hostStoredOk, isAsciiDigit, Bool.or_eq_true, Bool.and_eq_true,
      decide_eq_true_eq, beq_iff_eq] at h
    simp only [Bool.and_eq_true, decide_eq_true_eq, not_and]
    omega
  unfold charToLower
  rw [if_neg hc]

/-- Stored host characters pass the raw host filter. -/
theorem hostStoredOk_rawOk {c : Char} (h : hostStoredOk c = true) :
    hostRawOk c = true := by
  simp only [hostStoredOk, hostRawOk, isAsciiAlpha, isAsciiDigit,
    Bool.or_eq_true, Bool.and_eq_true, decide_eq_true_eq, beq_iff_eq] at h ⊢
  omega

/-- `url.port` reads back an absent port as the empty string. -/
theorem portStr_none {u : URLRec} (h : u.port = none) : u.portStr = "" := by
  simp [URLRec.portStr, h]

/-- `url.port` reads back a present port as its decimal print. -/
theorem portStr_some {u : URLRec} {p : Nat} (h : u.port = some p) :
    u.portStr = natRepr p := by
  simp [URLRec.portStr, h]

/-- On a well-formed record the port guard of `cleanUrl` never fires: the
parser has already nulled any default port. -/
theorem port_guard_false {u : URLRec} (h : u.WF) :
    ((u.protocol == "http:" && u.portStr == "80") ||
     (u.protocol == "https:" && u.portStr == "443")) = false := by
  rcases WF_elim h with ⟨_, _, _, h4, _⟩
  rw [Bool.eq_false_iff]
  intro htrue
  simp only [Bool.or_eq_true, Bool.and_eq_true, beq_iff_eq] at htrue
  rcases hp : u.port with _ | p
  · rcases htrue with ⟨_, hps⟩ | ⟨_, hps⟩ <;> rw [portStr_none hp] at hps <;>
      exact absurd hps (by decide)
  · rcases htrue with ⟨hpr, hps⟩ | ⟨hpr, hps⟩
    · have hsch : u.scheme = "http" := protocol_eq hpr
      rw [portStr_some hp] at hps
      have hval : p = 80 := by
        have hv := congrArg (fun s => digitsVal s.data) hps
        simp only [digitsVal_natRepr] at hv
        rw [hv]
        decide
      have hd := h4 p hp
      rw [hsch] at hd
      exact hd.2 (by simp [hval, defaultPort?])
    · have hsch : u.scheme = "https" := protocol_eq hpr
      rw [portStr_some hp] at hps
      have hval : p = 443 := by
        have hv := congrArg (fun s => digitsVal s.data) hps
        simp only [digitsVal_natRepr] at hv
        rw [hv]
        decide
      have hd := h4 p hp
      rw [hsch] at hd
      exact hd.2 (by simp [hval, defaultPort?])

/-- The port step is the identity on well-formed records. -/
theorem portUpd_noop {options : CleanOptions} {u : URLRec} (h : u.WF) :
    portUpd options u = u := by
  unfold portUpd
  rw [port_guard_false h, Bool.and_false]
  simp

/-- The port step of the pipeline is a no-op on well-formed records. -/
theorem portApply_noop {options : CleanOptions} {u : URLRec} {ch : List String}
    (h : u.WF) : portApply options (u, ch) = (u, ch) := by
  unfold portApply
  dsimp only
  rw [port_guard_false h, Bool.and_false]
  simp

/-- `httpsApply` splits into the record action and a change append. -/
theorem httpsApply_eq (options : CleanOptions) (probe : String → Bool)
    (u : URLRec) (ch : List String) :
    httpsApply options probe (u, ch) =
      (httpsUpd options probe u,
       if options.tryHttps && u.protocol == "http:" then
         if probe u.href then ch ++ ["Upgraded to HTTPS"] else ch
       else ch) := by
  unfold httpsApply httpsUpd
  dsimp only
  split
  · split <;> rfl
  · rfl

/-- `wwwApply` splits into the record action and a change append. -/
theorem wwwApply_eq (options : CleanOptions) (u : URLRec) (ch : List String) :
    wwwApply options (u, ch) =
      (wwwUpd options u,
       if options.removeWww && jsStartsWith u.hostname "www." then
         ch ++ ["Removed www prefix"]
       else ch) := by
  unfold wwwApply wwwUpd
  dsimp only
  split <;> rfl

/-- `portApply` splits into the record action and a change append. -/
theorem portApply_eq (options : CleanOptions) (u : URLRec) (ch : List String) :
    portApply options (u, ch) =
      (portUpd options u,
       if options.removeDefaultPorts &&
           ((u.protocol == "http:" && u.portStr == "80") ||
            (u.protocol == "https:" && u.portStr == "443")) then
         ch ++ ["Removed default port"]
       else ch) := by
  unfold portApply portUpd
  dsimp only
  split <;> rfl

/-- `fragApply` splits into the record action and a change append. -/
theorem fragApply_eq (options : CleanOptions) (u : URLRec) (ch : List String) :
    fragApply options (u, ch) =
      (fragUpd options u,
       if options.removeFragment && u.hash ≠ "" then
         ch ++ ["Removed URL fragment"]
       else ch) := by
  unfold fragApply fragUpd
  dsimp only
  split <;> rfl

/-- The record component of `queryApply` is `queryUpd`. -/
theorem queryApply_fst (options : CleanOptions) (u : URLRec) (ch : List String) :
    (queryApply options (u, ch)).1 = queryUpd options u := by
  obtain ⟨s, hst, p, sg, q, f⟩ := u
  rcases q with _ | qs
  · rfl
  · by_cases hqe : qs = ""
    · subst hqe
      rfl
    · unfold queryApply queryUpd queryNext
      dsimp only
      have hsearch : URLRec.search ⟨s, hst, p, sg, some qs, f⟩ = "?" ++ qs := by
        simp [URLRec.search, hqe]
      rw [hsearch]
      rw [if_pos (show ("?" ++ qs) ≠ "" from fun hcon =>
        hqe (by simpa using congrArg String.data hcon))]
      rw [if_neg hqe]
      dsimp only [URLRec.searchSet]
      split <;> split <;> rfl

/-- The change component of `queryApply` appends at most the tracking entry. -/
theorem queryApply_snd (options : CleanOptions) (u : URLRec) (ch : List String) :
    (queryApply options (u, ch)).2 = ch ∨
    (queryApply options (u, ch)).2 = ch ++ ["Removed tracking parameters"] := by
  unfold queryApply
  dsimp only
  split
  · dsimp only
    split
    · split
      · right
        rfl
      · left
        rfl
    · split
      · right
        rfl
      · left
        rfl
  · left
    rfl

/-- The record component of `pathApply` is `pathUpd`. -/
theorem pathApply_fst (options : CleanOptions) (u : URLRec) (ch : List String) :
    (pathApply options (u, ch)).1 = pathUpd options u := by
  rcases u with ⟨s, h, p, sg, q, f⟩
  simp only [pathApply, pathUpd, pathNext, URLRec.pathname, URLRec.pathnameSet]
  split
  · split <;> split <;> rfl
  · rfl

/-- The change component of `pathApply` appends at most the path entry. -/
theorem pathApply_snd (options : CleanOptions) (u : URLRec) (ch : List String) :
    (pathApply options (u, ch)).2 = ch ∨
    (pathApply options (u, ch)).2 = ch ++ ["Normalized path"] := by
  unfold pathApply
  dsimp only
  split
  · split <;> split <;> first | exact Or.inr rfl | exact Or.inl rfl
  · left
    rfl

/-! ## Component preservation and well-formedness of the step actions -/

/-- `url.protocol = "https:"` in closed form. -/
theorem protocolSet_https_eq (u : URLRec) :
    u.protocolSet "https:" =
      match u.port with
      | some p =>
        if defaultPort? "https" = some p then { u with scheme := "https", port := none }
        else { u with scheme := "https", port := some p }
      | none => { u with scheme := "https", port := none } := by
  obtain ⟨s, h, p, sg, q, f⟩ := u
  rcases p with _ | pn
  · rfl
  · rfl

/-- The protocol setter touches only scheme and port. -/
theorem protocolSet_https_fields (u : URLRec) :
    (u.protocolSet "https:").host = u.host ∧
    (u.protocolSet "https:").pathSegs = u.pathSegs ∧
    (u.protocolSet "https:").query = u.query ∧
    (u.protocolSet "https:").fragment = u.fragment ∧
    (u.protocolSet "https:").scheme = "https" := by
  rw [protocolSet_https_eq]
  rcases hp : u.port with _ | pn
  · exact ⟨rfl, rfl, rfl, rfl, rfl⟩
  · dsimp only
    split <;> exact ⟨rfl, rfl, rfl, rfl, rfl⟩

/-- The protocol setter preserves well-formedness. -/
theorem protocolSet_https_WF {u : URLRec} (h : u.WF) :
    (u.protocolSet "https:").WF := by
  rcases WF_elim h with ⟨h1, h2, h3, h4, h5, h6, h7, h8⟩
  rw [protocolSet_https_eq]
  rcases hp : u.port with _ | pn
  · exact WF_intro (by decide) h2 h3 (by intro p hp'; cases hp') h5 h6 h7 h8
  · dsimp only
    split
    · exact WF_intro (by decide) h2 h3 (by intro p hp'; cases hp') h5 h6 h7 h8
    · next hd =>
      refine WF_intro (by decide) h2 h3 ?_ h5 h6 h7 h8
      intro p hp'
      injection hp' with he
      subst he
      exact ⟨(h4 pn hp).1, hd⟩

/-- The hostname setter touches only the host. -/
theorem hostnameSet_fields (u : URLRec) (v : String) :
    (u.hostnameSet v).scheme = u.scheme ∧ (u.hostnameSet v).port = u.port ∧
    (u.hostnameSet v).pathSegs = u.pathSegs ∧ (u.hostnameSet v).query = u.query ∧
    (u.hostnameSet v).fragment = u.fragment := by
  unfold URLRec.hostnameSet
  split <;> exact ⟨rfl, rfl, rfl, rfl, rfl⟩

/-- Assigning the empty hostname is ignored. -/
theorem hostnameSet_empty (u : URLRec) : u.hostnameSet "" = u := by
  simp [URLRec.hostnameSet]

/-- The hostname setter preserves well-formedness. -/
theorem hostnameSet_WF {u : URLRec} {v : String} (h : u.WF) :
    (u.hostnameSet v).WF := by
  rcases WF_elim h with ⟨h1, h2, h3, h4, h5, h6, h7, h8⟩
  unfold URLRec.hostnameSet
  split
  · next hv =>
    simp only [Bool.and_eq_true, decide_eq_true_eq, List.all_eq_true] at hv
    refine WF_intro h1 ?_ ?_ h4 h5 h6 h7 h8
    · exact mk_ne_empty (by
        intro hm
        exact hv.1 (String.ext (by simpa using hm)))
    · intro c hc
      rcases List.mem_map.mp hc with ⟨a, ha, rfl⟩
      exact hostRawOk_toLower (hv.2 a ha)
  · exact h

/-- Assigning the empty port string nulls the port. -/
theorem portSet_empty (u : URLRec) : u.portSet "" = { u with port := none } := rfl

/-- Assigning the empty hash nulls the fragment. -/
theorem hashSet_empty (u : URLRec) : u.hashSet "" = { u with fragment := none } := rfl

/-- The search setter touches only the query. -/
theorem searchSet_fields (u : URLRec) (v : String) :
    (u.searchSet v).scheme = u.scheme ∧ (u.searchSet v).host = u.host ∧
    (u.searchSet v).port = u.port ∧ (u.searchSet v).pathSegs = u.pathSegs ∧
    (u.searchSet v).fragment = u.fragment := by
  unfold URLRec.searchSet
  split <;> exact ⟨rfl, rfl, rfl, rfl, rfl⟩

/-- The HTTPS step touches only scheme and port. -/
theorem httpsUpd_fields (options : CleanOptions) (probe : String → Bool) (u : URLRec) :
    (httpsUpd options probe u).host = u.host ∧
    (httpsUpd options probe u).pathSegs = u.pathSegs ∧
    (httpsUpd options probe u).query = u.query ∧
    (httpsUpd options probe u).fragment = u.fragment := by
  unfold httpsUpd
  split
  · split
    · have h := protocolSet_https_fields u
      exact ⟨h.1, h.2.1, h.2.2.1, h.2.2.2.1⟩
    · exact ⟨rfl, rfl, rfl, rfl⟩
  · exact ⟨rfl, rfl, rfl, rfl⟩

/-- The www step touches only the host. -/
theorem wwwUpd_fields (options : CleanOptions) (u : URLRec) :
    (wwwUpd options u).scheme = u.scheme ∧ (wwwUpd options u).port = u.port ∧
    (wwwUpd options u).pathSegs = u.pathSegs ∧ (wwwUpd options u).query = u.query ∧
    (wwwUpd options u).fragment = u.fragment := by
  unfold wwwUpd
  split
  · exact hostnameSet_fields u _
  · exact ⟨rfl, rfl, rfl, rfl, rfl⟩

/-- The port step touches only the port. -/
theorem portUpd_fields (options : CleanOptions) (u : URLRec) :
    (portUpd options u).scheme = u.scheme ∧ (portUpd options u).host = u.host ∧
    (portUpd options u).pathSegs = u.pathSegs ∧ (portUpd options u).query = u.query ∧
    (portUpd options u).fragment = u.fragment := by
  unfold portUpd
  split <;> exact ⟨rfl, rfl, rfl, rfl, rfl⟩

/-- The query step touches only the query. -/
theorem queryUpd_fields (options : CleanOptions) (u : URLRec) :
    (queryUpd options u).scheme = u.scheme ∧ (queryUpd options u).host = u.host ∧
    (queryUpd options u).port = u.port ∧ (queryUpd options u).pathSegs = u.pathSegs ∧
    (queryUpd options u).fragment = u.fragment :=
  ⟨rfl, rfl, rfl, rfl, rfl⟩

/-- The fragment step touches only the fragment. -/
theorem fragUpd_fields (options : CleanOptions) (u : URLRec) :
    (fragUpd options u).scheme = u.scheme ∧ (fragUpd options u).host = u.host ∧
    (fragUpd options u).port = u.port ∧ (fragUpd options u).pathSegs = u.pathSegs ∧
    (fragUpd options u).query = u.query := by
  unfold fragUpd
  split <;> exact ⟨rfl, rfl, rfl, rfl, rfl⟩

/-- The path step touches only the path segments. -/
theorem pathUpd_fields (options : CleanOptions) (u : URLRec) :
    (pathUpd options u).scheme = u.scheme ∧ (pathUpd options u).host = u.host ∧
    (pathUpd options u).port = u.port ∧ (pathUpd options u).query = u.query ∧
    (pathUpd options u).fragment = u.fragment :=
  ⟨rfl, rfl, rfl, rfl, rfl⟩

/-- The HTTPS step preserves well-formedness. -/
theorem httpsUpd_WF {options : CleanOptions} {probe : String → Bool} {u : URLRec}
    (h : u.WF) : (httpsUpd options probe u).WF := by
  unfold httpsUpd
  split
  · split
    · exact protocolSet_https_WF h
    · exact h
  · exact h

/-- The www step preserves well-formedness. -/
theorem wwwUpd_WF {options : CleanOptions} {u : URLRec} (h : u.WF) :
    (wwwUpd options u).WF := by
  unfold wwwUpd
  split
  · exact hostnameSet_WF h
  · exact h

/-- The port step preserves well-formedness. -/
theorem portUpd_WF {options : CleanOptions} {u : URLRec} (h : u.WF) :
    (portUpd options u).WF := by
  rw [portUpd_noop h]
  exact h

/-- The fragment step preserves well-formedness. -/
theorem fragUpd_WF {options : CleanOptions} {u : URLRec} (h : u.WF) :
    (fragUpd options u).WF := by
  rcases WF_elim h with ⟨h1, h2, h3, h4, h5, h6, h7, _⟩
  unfold fragUpd
  split
  · rw [hashSet_empty]
    exact WF_intro h1 h2 h3 h4 h5 h6 h7 (by intro f hf; cases hf)
  · exact h

/-! ## Path characters through collapsing and reparsing -/

/-- Collapsing only removes characters. -/
theorem mem_collapseL : ∀ {l : List Char} {c : Char}, c ∈ collapseL l → c ∈ l
  | [], _, h => h
  | [_], _, h => h
  | a :: d :: rest, c, h => by
    by_cases ha : a = '/'
    · by_cases hd : d = '/'
      · subst ha
        subst hd
        rw [collapseL_slash_slash] at h
        exact List.mem_cons_of_mem _ (mem_collapseL h)
      · subst ha
        rw [collapseL_slash_other (Or.inr (by intro x hx; cases hx; exact hd))] at h
        rcases List.mem_cons.mp h with rfl | h'
        · exact List.mem_cons_self _ _
        · exact List.mem_cons_of_mem _ (mem_collapseL h')
    · rw [collapseL_cons_other ha] at h
      rcases List.mem_cons.mp h with rfl | h'
      · exact List.mem_cons_self _ _
      · exact List.mem_cons_of_mem _ (mem_collapseL h')

/-- The path-start state keeps a non-slash head. -/
theorem dropLeadSlash_ne {c : Char} {t : List Char} (h : c ≠ '/') :
    dropLeadSlash (c :: t) = c :: t := by
  cases hc' : c <;> simp [dropLeadSlash] <;> simp_all [dropLeadSlash]

/-- The path-start state only removes a character. -/
theorem mem_dropLeadSlash {l : List Char} {c : Char} (h : c ∈ dropLeadSlash l) :
    c ∈ l := by
  cases l with
  | nil => exact h
  | cons a t =>
    by_cases ha : a = '/'
    · subst ha
      exact List.mem_cons_of_mem _ h
    · rw [dropLeadSlash_ne ha] at h
      exact h

/-- Reparsing any string of slashes and path characters yields nonempty,
well-formed segments. -/
theorem parsePathSegsL_good {p : List Char}
    (hp : ∀ c ∈ p, c = '/' ∨ pathCharOk c = true) :
    parsePathSegsL p ≠ [] ∧ ∀ seg ∈ parsePathSegsL p, segOk seg = true := by
  constructor
  · simp only [parsePathSegsL, ne_eq, List.map_eq_nil_iff]
    exact processSegs_ne_nil splitOnCharL_ne_nil
  · intro seg hseg
    rcases List.mem_map.mp hseg with ⟨l, hl, rfl⟩
    rcases mem_processSegs hl with hacc | ⟨hmem, hd1, hd2⟩ | rfl
    · cases hacc
    · simp only [segOk, Bool.and_eq_true, List.all_eq_true, bne_iff_ne]
      refine ⟨⟨?_, ?_⟩, ?_⟩
      · intro c hc
        have hcp : c ∈ p := mem_dropLeadSlash (mem_splitOnCharL hmem hc)
        rcases hp c hcp with rfl | hck
        · exact absurd hc (sep_not_mem_splitOnCharL hmem)
        · exact hck
      · intro he
        exact hd1 (by simpa using congrArg String.data he)
      · intro he
        exact hd2 (by simpa using congrArg String.data he)
    · decide

/-- Characters of a well-formed record's pathname. -/
theorem mem_pathname {u : URLRec} (h : u.WF) {c : Char}
    (hc : c ∈ u.pathname.data) : c = '/' ∨ pathCharOk c = true := by
  rcases WF_elim h with ⟨_, _, _, _, _, h6, _, _⟩
  simp only [URLRec.pathname] at hc
  rcases mem_joinPath hc with rfl | ⟨seg, hseg, hcseg⟩
  · exact Or.inl rfl
  · rcases List.mem_map.mp hseg with ⟨s, hs, rfl⟩
    have hok := h6 s hs
    simp only [segOk, Bool.and_eq_true, List.all_eq_true] at hok
    exact Or.inr (hok.1.1 c hcseg)

/-- Reassigning a pathname made of slashes and path characters preserves
well-formedness. -/
theorem pathnameSet_from_path_WF {u : URLRec} (h : u.WF) {v : String}
    (hv : ∀ c ∈ v.data, c = '/' ∨ pathCharOk c = true) :
    ({ u with pathSegs := parsePathSegsL v.data } : URLRec).WF := by
  rcases WF_elim h with ⟨h1, h2, h3, h4, _, _, h7, h8⟩
  obtain ⟨hne, hok⟩ := parsePathSegsL_good hv
  exact WF_intro h1 h2 h3 h4 hne hok h7 h8

/-- The path step preserves well-formedness. -/
theorem pathUpd_WF {options : CleanOptions} {u : URLRec} (h : u.WF) :
    (pathUpd options u).WF := by
  unfold pathUpd pathNext
  dsimp only
  split
  · split
    · split
      · apply pathnameSet_from_path_WF h
        intro c hc
        exact mem_pathname h (mem_collapseL (List.dropLast_subset _ hc))
      · exact h
    · split
      · apply pathnameSet_from_path_WF h
        intro c hc
        exact mem_pathname h (mem_collapseL hc)
      · exact h
  · exact h

/-! ## The query step: safety, idempotence, well-formedness -/

/-- `"?" ++ q` starts with `?`. -/
theorem startsWith_qm_append {q : String} : jsStartsWith ("?" ++ q) "?" = true := by
  show List.isPrefixOf ['?'] ('?' :: q.data) = true
  simp [List.isPrefixOf]

/-- A serialized parameter list of decoded-safe pairs does not start with `?`. -/
theorem serializeParams_no_qm {ps : List (String × String)}
    (hsafe : ∀ kv ∈ ps, decodedSafe kv.1 ∧ decodedSafe kv.2) :
    jsStartsWith (serializeParams ps) "?" = false := by
  apply startsWith_qm_false
  intro hin
  rcases mem_serializeParams hsafe hin with hq | hq | hq
  · exact absurd rfl (qlitChar_spec hq).2.2.1
  · cases hq
  · cases hq

/-- A nonempty parameter list serializes to a nonempty string. -/
theorem serializeParams_ne_empty {ps : List (String × String)} (h : ps ≠ []) :
    serializeParams ps ≠ "" := by
  rcases ps with _ | ⟨kv, rest⟩
  · exact absurd rfl h
  · apply mk_ne_empty
    rcases rest with _ | ⟨kv2, rest2⟩
    · exact serializePair_ne_nil
    · simp only [List.map_cons, joinSep, ne_eq]
      intro hcon
      rcases List.append_eq_nil.mp hcon with ⟨-, h2⟩
      cases h2

/-- Stripping one leading `?` undoes prefixing one. -/
theorem parseQuery_qm {s : String} : parseQuery ("?" ++ s) = parseQuery s ∨
    jsStartsWith s "?" = true := by
  by_cases hs : jsStartsWith s "?" = true
  · exact Or.inr hs
  · left
    unfold parseQuery
    rw [startsWith_qm_append]
    rw [Bool.eq_false_iff.mpr hs]
    rfl

/-- Pairs parsed from a well-formed query decode to safe strings. -/
theorem mem_parseQuery_safe {q : String} (hq : queryOkL q.data = true)
    {kv : String × String} (hkv : kv ∈ parseQuery ("?" ++ q)) :
    decodedSafe kv.1 ∧ decodedSafe kv.2 := by
  unfold parseQuery at hkv
  rw [startsWith_qm_append] at hkv
  simp only [if_true] at hkv
  have hdrop : jsDrop ("?" ++ q) 1 = q := rfl
  rw [hdrop] at hkv
  rcases List.mem_filterMap.mp hkv with ⟨part, hpart, hfn⟩
  have hpiece : pieceOk part = true := by
    simp only [queryOkL, List.all_eq_true] at hq
    exact hq part hpart
  by_cases hempty : part = []
  · rw [if_pos hempty] at hfn
    cases hfn
  · rw [if_neg hempty] at hfn
    simp only [pieceOk, Bool.and_eq_true, List.all_eq_true] at hpiece
    rcases hrest : part.dropWhile (fun c => c != '=') with _ | ⟨r0, v⟩
    · rw [hrest] at hfn
      injection hfn with he
      subst he
      constructor
      · intro c hc
        exact decode_qlit_safe hpiece.1 c hc
      · intro c hc
        cases hc
    · rw [hrest] at hfn
      injection hfn with he
      subst he
      rw [hrest] at hpiece
      dsimp only at hpiece
      simp only [List.all_eq_true] at hpiece
      constructor
      · intro c hc
        exact decode_qlit_safe hpiece.1 c hc
      · intro c hc
        exact decode_qlit_safe hpiece.2 c hc

/-- What the query rewrite yields on a nonempty well-formed query: nothing,
or the serialization of a nonempty list of decoded-safe surviving pairs,
sorted when sorting is on. -/
theorem queryNext_spec {options : CleanOptions} {q : String}
    (hq : queryOkL q.data = true) (hne : q ≠ "") :
    queryNext options (some q) = none ∨
    ∃ fin : List (String × String),
      fin ≠ [] ∧
      (∀ kv ∈ fin, decodedSafe kv.1 ∧ decodedSafe kv.2) ∧
      (∀ kv ∈ fin, keepPair options kv = true) ∧
      (options.sortParams = true → List.Sorted pairLe fin) ∧
      queryNext options (some q) = some (serializeParams fin) := by
  unfold queryNext
  dsimp only
  rw [if_neg hne]
  set cleaned := (parseQuery ("?" ++ q)).filter (keepPair options) with hcleaned
  set fin := if options.sortParams then List.insertionSort pairLe cleaned
    else cleaned with hfin
  by_cases hv : serializeParams fin = ""
  · rw [if_pos hv]
    exact Or.inl rfl
  · rw [if_neg hv]
    right
    have hfinne : fin ≠ [] := by
      intro hcon
      exact hv (by rw [hcon]; rfl)
    have hmem : ∀ kv ∈ fin, kv ∈ cleaned := by
      intro kv hkv
      rw [hfin] at hkv
      by_cases hs : options.sortParams
      · rw [if_pos hs] at hkv
        exact (List.perm_insertionSort pairLe cleaned).mem_iff.mp hkv
      · rw [if_neg hs] at hkv
        exact hkv
    have hsafe : ∀ kv ∈ fin, decodedSafe kv.1 ∧ decodedSafe kv.2 := by
      intro kv hkv
      have h1 := List.mem_filter.mp (hcleaned ▸ hmem kv hkv)
      exact mem_parseQuery_safe hq h1.1
    refine ⟨fin, hfinne, hsafe, ?_, ?_, ?_⟩
    · intro kv hkv
      exact (List.mem_filter.mp (hcleaned ▸ hmem kv hkv)).2
    · intro hs
      rw [hfin, if_pos hs]
      exact List.sorted_insertionSort pairLe cleaned
    · rw [serializeParams_no_qm hsafe]
      simp

/-- The query rewrite is idempotent on well-formed queries. -/
theorem queryNext_idem {options : CleanOptions} {oq : Option String}
    (hok : ∀ q, oq = some q → queryOkL q.data = true) :
    queryNext options (queryNext options oq) = queryNext options oq := by
  rcases oq with _ | q
  · rfl
  · by_cases hne : q = ""
    · subst hne
      rfl
    · rcases queryNext_spec (hok q rfl) hne with hnone |
        ⟨fin, hfne, hsafe, hkeep, hsort, heq⟩
      · rw [hnone]
        rfl
      · rw [heq]
        have hvne : serializeParams fin ≠ "" := serializeParams_ne_empty hfne
        unfold queryNext
        dsimp only
        rw [if_neg hvne]
        have hparse : parseQuery ("?" ++ serializeParams fin) = fin := by
          rcases parseQuery_qm (s := serializeParams fin) with hgood | hbad
          · rw [hgood]
            exact parseQuery_serializeParams hsafe
          · rw [serializeParams_no_qm hsafe] at hbad
            cases hbad
        rw [hparse]
        have hfilter : fin.filter (keepPair options) = fin :=
          List.filter_eq_self.mpr hkeep
        rw [hfilter]
        have hfin2 : (if options.sortParams then List.insertionSort pairLe fin
            else fin) = fin := by
          by_cases hs : options.sortParams
          · rw [if_pos hs]
            exact List.Sorted.insertionSort_eq (hsort hs)
          · rw [if_neg hs]
        rw [hfin2]
        rw [if_neg hvne]
        rw [serializeParams_no_qm hsafe]
        simp

/-- The query step preserves well-formedness. -/
theorem queryUpd_WF {options : CleanOptions} {u : URLRec} (h : u.WF) :
    (queryUpd options u).WF := by
  rcases WF_elim h with ⟨h1, h2, h3, h4, h5, h6, h7, h8⟩
  unfold queryUpd
  refine WF_intro h1 h2 h3 h4 h5 h6 ?_ h8
  intro q' hq'
  rcases hq : u.query with _ | q
  · rw [hq] at hq'
    cases hq'
  · rw [hq] at hq'
    by_cases hne : q = ""
    · subst hne
      have hq'' : some "" = some q' := hq'
      injection hq'' with he
      subst he
      decide
    · rcases queryNext_spec (h7 q hq) hne with hnone |
        ⟨fin, hfne, hsafe, hkeep, hsort, heq⟩
      · rw [hnone] at hq'
        cases hq'
      · rw [heq] at hq'
        injection hq' with he
        subst he
        exact queryOkL_serializeParams hsafe

/-! ## The path step: canonical forms and idempotence -/

/-- Serializing one more segment appends a slash and the segment. -/
theorem joinPath_concat {A : List (List Char)} {x : List Char} :
    joinPath (A ++ [x]) = joinPath A ++ '/' :: x := by
  induction A with
  | nil => simp [joinPath]
  | cons a A' ih => simp [joinPath, ih]

/-- Every list is empty or a list plus a last element. -/
theorem eq_nil_or_append_single (l : List (List Char)) :
    l = [] ∨ ∃ L' b, l = L' ++ [b] := by
  rcases List.eq_nil_or_concat l with h | ⟨L', b, h⟩
  · exact Or.inl h
  · exact Or.inr ⟨L', b, by simpa [List.concat_eq_append] using h⟩

/-- Facts from stored segment validity. -/
theorem segOk_facts {s : String} (h : segOk s = true) :
    '/' ∉ s.data ∧ s.data ≠ ['.'] ∧ s.data ≠ ['.', '.'] := by
  simp only [segOk, Bool.and_eq_true, List.all_eq_true, bne_iff_ne] at h
  refine ⟨?_, ?_, ?_⟩
  · intro hmem
    exact (pathCharOk_facts (h.1.1 '/' hmem)).2 rfl
  · intro he
    exact h.1.2 (String.ext he)
  · intro he
    exact h.2 (String.ext he)

/-- Reparse of a serialized list of flat, dot-free character segments. -/
theorem parsePathSegsL_joinPath_chars {M : List (List Char)} (hne : M ≠ [])
    (hok : ∀ m ∈ M, '/' ∉ m ∧ m ≠ ['.'] ∧ m ≠ ['.', '.']) :
    parsePathSegsL (joinPath M) = M.map (fun l => (⟨l⟩ : String)) := by
  have hmapne : M.map (fun l => (⟨l⟩ : String)) ≠ [] := by simpa using hne
  have hdata : (M.map (fun l => (⟨l⟩ : String))).map String.data = M := by
    rw [List.map_map]
    have hcomp : (String.data ∘ fun l => (⟨l⟩ : String)) = id := by
      funext l
      rfl
    rw [hcomp, List.map_id]
  have hok' : ∀ seg ∈ M.map (fun l => (⟨l⟩ : String)),
      ('/' ∉ seg.data) ∧ seg ≠ "." ∧ seg ≠ ".." := by
    intro seg hseg
    rcases List.mem_map.mp hseg with ⟨m, hm, rfl⟩
    refine ⟨(hok m hm).1, ?_, ?_⟩
    · intro he
      exact (hok m hm).2.1 (by simpa using congrArg String.data he)
    · intro he
      exact (hok m hm).2.2 (by simpa using congrArg String.data he)
  have h2 := parsePathSegsL_joinPath hmapne hok'
  rw [hdata] at h2
  exact h2

/-- The root path is a fixed point of the path rewrite. -/
theorem pathNext_root (options : CleanOptions) : pathNext options [""] = [""] := rfl

/-- Canonical non-root paths are fixed points of the path rewrite: nonempty
slash-free segments, plus a trailing empty segment only when trailing-slash
removal is off. -/
theorem pathNext_fix {options : CleanOptions} {M T : List (List Char)}
    (hM : ∀ m ∈ M, m ≠ [] ∧ '/' ∉ m) (hMne : M ≠ [])
    (hT : T = [] ∨ (T = [[]] ∧ options.removeTrailingSlash = false)) :
    pathNext options ((M ++ T).map (fun l => (⟨l⟩ : String))) =
      (M ++ T).map (fun l => (⟨l⟩ : String)) := by
  have hdata : ((M ++ T).map (fun l => (⟨l⟩ : String))).map String.data = M ++ T := by
    rw [List.map_map]
    have hcomp : (String.data ∘ fun l => (⟨l⟩ : String)) = id := by
      funext l
      rfl
    rw [hcomp, List.map_id]
  have hflat : ∀ m ∈ M ++ T, '/' ∉ m := by
    intro m hm
    rcases List.mem_append.mp hm with h | h
    · exact (hM m h).2
    · rcases hT with rfl | ⟨rfl, -⟩
      · cases h
      · have hm0 : m = [] := by simpa using h
        subst hm0
        intro hc
        cases hc
  have hMTne : M ++ T ≠ [] := by
    intro hcon
    exact hMne (List.append_eq_nil.mp hcon).1
  have hfilter : (M ++ T).filter (fun s => !s.isEmpty) = M := by
    rw [List.filter_append]
    have h1 : M.filter (fun s => !s.isEmpty) = M :=
      List.filter_eq_self.mpr (fun m hm => by simp [List.isEmpty_iff, (hM m hm).1])
    have h2 : T.filter (fun s => !s.isEmpty) = [] := by
      rcases hT with rfl | ⟨rfl, -⟩
      · rfl
      · rfl
    rw [h1, h2, List.append_nil]
  have hcol : collapseL (joinPath (M ++ T)) = joinPath (M ++ T) := by
    rw [collapse_joinPath hMTne hflat, hfilter]
    rcases hT with rfl | ⟨rfl, -⟩
    · have hlast : ¬((M ++ ([] : List (List Char))).getLast? = some []) := by
        rw [List.append_nil]
        rcases eq_nil_or_append_single M with rfl | ⟨M', x, rfl⟩
        · exact absurd rfl hMne
        · rw [List.getLast?_concat]
          intro hcon
          injection hcon with he
          exact (hM x (by simp)).1 he
      rw [if_neg hlast, List.append_nil]
    · have hlast : (M ++ [[]]).getLast? = some [] := List.getLast?_concat _
      rw [if_pos hlast]
  unfold pathNext
  dsimp only
  rw [hdata]
  by_cases hroot : (⟨joinPath (M ++ T)⟩ : String) = "/"
  · rw [if_neg (not_not_intro hroot)]
  · rw [if_pos hroot]
    have hcolS : collapseS (⟨joinPath (M ++ T)⟩ : String) = ⟨joinPath (M ++ T)⟩ :=
      congrArg (fun l => (⟨l⟩ : String)) hcol
    rw [hcolS]
    have hb : (options.removeTrailingSlash &&
        jsEndsWith (⟨joinPath (M ++ T)⟩ : String) "/") = false := by
      rcases hT with rfl | ⟨rfl, hrts⟩
      · rw [List.append_nil, joinPath_not_endsWith_slash hMne hM]
        exact Bool.and_false _
      · rw [hrts]
        exact Bool.false_and _
    rw [hb, if_neg Bool.false_ne_true]
    rw [if_neg (fun hcon => hcon rfl)]

/-- What the path rewrite produces: the same segments, the root path, or a
canonical non-root form. -/
theorem pathNext_spec {options : CleanOptions} {S : List String}
    (hne : S ≠ []) (hok : ∀ s ∈ S, segOk s = true) :
    pathNext options S = S ∨ pathNext options S = [""] ∨
    ∃ M T, (∀ m ∈ M, m ≠ [] ∧ '/' ∉ m) ∧ M ≠ [] ∧
      (T = [] ∨ (T = [[]] ∧ options.removeTrailingSlash = false)) ∧
      pathNext options S = (M ++ T).map (fun l => (⟨l⟩ : String)) := by
  unfold pathNext
  dsimp only
  set L := S.map String.data with hL
  have hLne : L ≠ [] := by
    rw [hL]
    simpa using hne
  have hflat : ∀ m ∈ L, '/' ∉ m := by
    intro m hm
    rw [hL] at hm
    rcases List.mem_map.mp hm with ⟨s, hs, rfl⟩
    exact (segOk_facts (hok s hs)).1
  set M := L.filter (fun s => !s.isEmpty) with hMdef
  have hM : ∀ m ∈ M, m ≠ [] ∧ '/' ∉ m := by
    intro m hm
    rw [hMdef] at hm
    have h1 := List.mem_filter.mp hm
    constructor
    · simpa [List.isEmpty_iff] using h1.2
    · exact hflat m h1.1
  have hMdots : ∀ m ∈ M, m ≠ ['.'] ∧ m ≠ ['.', '.'] := by
    intro m hm
    rw [hMdef] at hm
    have h1 := (List.mem_filter.mp hm).1
    rw [hL] at h1
    rcases List.mem_map.mp h1 with ⟨s, hs, rfl⟩
    exact ⟨(segOk_facts (hok s hs)).2.1, (segOk_facts (hok s hs)).2.2⟩
  have hMgood : ∀ m ∈ M, '/' ∉ m ∧ m ≠ ['.'] ∧ m ≠ ['.', '.'] := by
    intro m hm
    exact ⟨(hM m hm).2, (hMdots m hm).1, (hMdots m hm).2⟩
  by_cases hroot : (⟨joinPath L⟩ : String) = "/"
  · rw [if_neg (not_not_intro hroot)]
    exact Or.inl rfl
  · rw [if_pos hroot]
    set Tc := (if L.getLast? = some ([] : List Char) then [([] : List Char)]
      else ([] : List (List Char))) with hTc
    have hcol : collapseS (⟨joinPath L⟩ : String) = ⟨joinPath (M ++ Tc)⟩ := by
      apply congrArg (fun l => (⟨l⟩ : String))
      rw [collapse_joinPath hLne hflat, ← hMdef, ← hTc]
    rw [hcol]
    by_cases hlast : L.getLast? = some ([] : List Char)
    · have hTceq : Tc = [[]] := by
        rw [hTc, if_pos hlast]
      have hendsL : jsEndsWith (⟨joinPath L⟩ : String) "/" = true := by
        rcases eq_nil_or_append_single L with hnil | ⟨L', x, hLeq⟩
        · exact absurd hnil hLne
        · rw [hLeq] at hlast ⊢
          rw [List.getLast?_concat] at hlast
          injection hlast with hx
          subst hx
          exact joinPath_trailing_endsWith_slash
      have hendsM : jsEndsWith (⟨joinPath M⟩ : String) "/" = false := by
        by_cases hMnil : M = []
        · rw [hMnil]
          rfl
        · exact joinPath_not_endsWith_slash hMnil hM
      by_cases hrts : options.removeTrailingSlash = true
      · have hb : (options.removeTrailingSlash &&
            jsEndsWith (⟨joinPath (M ++ Tc)⟩ : String) "/") = true := by
          rw [hrts, hTceq]
          rw [joinPath_trailing_endsWith_slash]
          rfl
        rw [hb, if_pos rfl]
        have hdrop : jsDropLast (⟨joinPath (M ++ Tc)⟩ : String) = ⟨joinPath M⟩ := by
          rw [hTceq]
          apply congrArg (fun l => (⟨l⟩ : String))
          show (joinPath (M ++ [[]])).dropLast = joinPath M
          rw [joinPath_concat]
          exact List.dropLast_concat
        rw [hdrop]
        have hchange : (⟨joinPath M⟩ : String) ≠ ⟨joinPath L⟩ := by
          intro hcon
          rw [hcon, hendsL] at hendsM
          cases hendsM
        rw [if_pos hchange]
        by_cases hMnil : M = []
        · right
          left
          rw [hMnil]
          rfl
        · right
          right
          refine ⟨M, [], hM, hMnil, Or.inl rfl, ?_⟩
          rw [List.append_nil]
          exact parsePathSegsL_joinPath_chars hMnil hMgood
      · have hb : (options.removeTrailingSlash &&
            jsEndsWith (⟨joinPath (M ++ Tc)⟩ : String) "/") = false := by
          rw [Bool.eq_false_iff.mpr hrts]
          exact Bool.false_and _
        rw [hb, if_neg Bool.false_ne_true]
        by_cases hchange : ¬((⟨joinPath (M ++ Tc)⟩ : String) = ⟨joinPath L⟩)
        · rw [if_pos hchange]
          by_cases hMnil : M = []
          · right
            left
            rw [hMnil, hTceq]
            rfl
          · right
            right
            refine ⟨M, [[]], hM, hMnil, Or.inr ⟨rfl, Bool.eq_false_iff.mpr hrts⟩, ?_⟩
            rw [hTceq]
            apply parsePathSegsL_joinPath_chars
            · intro hcon
              exact hMnil (List.append_eq_nil.mp hcon).1
            · intro m hm
              rcases List.mem_append.mp hm with h | h
              · exact hMgood m h
              · have hm0 : m = [] := by simpa using h
                subst hm0
                refine ⟨?_, ?_, ?_⟩ <;> intro hc <;> cases hc
        · rw [if_neg hchange]
          exact Or.inl rfl
    · have hTceq : Tc = [] := by
        rw [hTc, if_neg hlast]
      have hMnil : M ≠ [] := by
        rcases eq_nil_or_append_single L with hnil | ⟨L', x, hLeq⟩
        · exact absurd hnil hLne
        · have hxne : x ≠ [] := by
            intro hx
            exact hlast (by rw [hLeq, List.getLast?_concat, hx])
          intro hMn
          have hxM : x ∈ M := by
            rw [hMdef, hLeq, List.filter_append]
            apply List.mem_append_right
            simp [List.isEmpty_iff, hxne]
          rw [hMn] at hxM
          cases hxM
      have hb : (options.removeTrailingSlash &&
          jsEndsWith (⟨joinPath (M ++ Tc)⟩ : String) "/") = false := by
        rw [hTceq, List.append_nil, joinPath_not_endsWith_slash hMnil hM]
        exact Bool.and_false _
      rw [hb, if_neg Bool.false_ne_true]
      by_cases hchange : ¬((⟨joinPath (M ++ Tc)⟩ : String) = ⟨joinPath L⟩)
      · rw [if_pos hchange]
        right
        right
        refine ⟨M, [], hM, hMnil, Or.inl rfl, ?_⟩
        rw [hTceq, List.append_nil]
        exact parsePathSegsL_joinPath_chars hMnil hMgood
      · rw [if_neg hchange]
        exact Or.inl rfl

/-- The path rewrite is idempotent on well-formed segments. -/
theorem pathNext_idem {options : CleanOptions} {S : List String}
    (hne : S ≠ []) (hok : ∀ s ∈ S, segOk s = true) :
    pathNext options (pathNext options S) = pathNext options S := by
  rcases @pathNext_spec options S hne hok with h | h | ⟨M, T, hM, hMne, hT, h⟩
  · rw [h]
    exact h
  · rw [h]
    exact pathNext_root options
  · rw [h]
    exact pathNext_fix hM hMne hT

/-- The path step is idempotent on well-formed records. -/
theorem pathUpd_idem {options : CleanOptions} {u : URLRec} (h : u.WF) :
    pathUpd options (pathUpd options u) = pathUpd options u := by
  rcases WF_elim h with ⟨-, -, -, -, h5, h6, -, -⟩
  exact congrArg (fun X => { u with pathSegs := X }) (pathNext_idem h5 h6)

/-- The query step is idempotent on well-formed records. -/
theorem queryUpd_idem {options : CleanOptions} {u : URLRec} (h : u.WF) :
    queryUpd options (queryUpd options u) = queryUpd options u := by
  rcases WF_elim h with ⟨-, -, -, -, -, -, h7, -⟩
  exact congrArg (fun X => { u with query := X }) (queryNext_idem h7)

/-! ## The pipeline as a record rewrite plus change appends -/

/-- `queryApply` as a pair. -/
theorem queryApply_pair (options : CleanOptions) (u : URLRec) (ch : List String) :
    queryApply options (u, ch) =
      (queryUpd options u, (queryApply options (u, ch)).2) := by
  rw [← queryApply_fst options u ch]

/-- `pathApply` as a pair. -/
theorem pathApply_pair (options : CleanOptions) (u : URLRec) (ch : List String) :
    pathApply options (u, ch) =
      (pathUpd options u, (pathApply options (u, ch)).2) := by
  rw [← pathApply_fst options u ch]

/-- The record component of the whole pipeline is `cleanUpd`. -/
theorem cleanParsed_fst (options : CleanOptions) (probe : String → Bool) (u : URLRec) :
    (cleanParsed options probe u).1 = cleanUpd options probe u := by
  unfold cleanParsed cleanUpd
  rw [httpsApply_eq, wwwApply_eq, portApply_eq, queryApply_pair, fragApply_eq,
    pathApply_pair]

/-- The pipeline preserves well-formedness. -/
theorem cleanUpd_WF {options : CleanOptions} {probe : String → Bool} {u : URLRec}
    (h : u.WF) : (cleanUpd options probe u).WF :=
  pathUpd_WF (fragUpd_WF (queryUpd_WF (portUpd_WF (wwwUpd_WF (httpsUpd_WF h)))))

/-- Membership in a conditional change append. -/
theorem mem_of_ite_append {c : Prop} [Decidable c] {ch : List String} {e x : String}
    (hx : x ∈ (if c then ch ++ [e] else ch)) : x ∈ ch ∨ x = e := by
  split at hx
  · rcases List.mem_append.mp hx with h | h
    · exact Or.inl h
    · exact Or.inr (by simpa using h)
  · exact Or.inl hx

/-- A scheme other than `http` fails the insecure-protocol guard. -/
theorem protocol_http_false {u : URLRec} (h : u.scheme ≠ "http") :
    (u.protocol == "http:") = false := by
  rw [Bool.eq_false_iff]
  intro hcon
  rw [beq_iff_eq] at hcon
  exact h (protocol_eq (s := "http") hcon)

/-- Scheme `http` passes the insecure-protocol guard. -/
theorem protocol_http_true {u : URLRec} (h : u.scheme = "http") :
    (u.protocol == "http:") = true := by
  have hp : u.protocol = "http:" := by
    simp only [URLRec.protocol, h]
    rfl
  simp [hp]

/-- The hash getter is empty exactly on absent or empty fragments. -/
theorem hash_empty_iff {u : URLRec} :
    u.hash = "" ↔ (u.fragment = none ∨ u.fragment = some "") := by
  unfold URLRec.hash
  rcases hf : u.fragment with _ | f
  · simp
  · dsimp only
    by_cases hfe : f = ""
    · subst hfe
      simp
    · rw [if_neg hfe]
      constructor
      · intro hcon
        exact absurd (congrArg String.data hcon) (by simp)
      · intro hcon
        rcases hcon with h | h
        · cases h
        · injection h with he
          exact absurd he hfe

/-- The search getter is empty exactly on absent or empty queries. -/
theorem search_empty_iff {u : URLRec} :
    u.search = "" ↔ (u.query = none ∨ u.query = some "") := by
  unfold URLRec.search
  rcases hq : u.query with _ | q
  · simp
  · dsimp only
    by_cases hqe : q = ""
    · subst hqe
      simp
    · rw [if_neg hqe]
      constructor
      · intro hcon
        exact absurd (congrArg String.data hcon) (by simp)
      · intro hcon
        rcases hcon with h | h
        · cases h
        · injection h with he
          exact absurd he hqe

/-- With a `www.` prefix, the replace drops four characters. -/
theorem wwwReplace_of_www {h : String} (hs : jsStartsWith h "www." = true) :
    wwwReplace h = jsDrop h 4 := by
  unfold wwwReplace
  rw [hs]
  rfl

/-- Without a `www.` prefix, the replace is the identity. -/
theorem wwwReplace_of_not_www {h : String} (hs : jsStartsWith h "www." = false) :
    wwwReplace h = h := by
  unfold wwwReplace
  rw [hs]
  rfl

/-- Stripping a nonempty `www.` remainder stores it verbatim. -/
theorem host_after_www {u : URLRec} (h : u.WF)
    (hs : jsStartsWith u.host "www." = true) (hne : wwwReplace u.host ≠ "") :
    (u.hostnameSet (wwwReplace u.host)).host = wwwReplace u.host := by
  rcases WF_elim h with ⟨-, -, h3, -⟩
  have hchars : ∀ c ∈ (wwwReplace u.host).data, hostStoredOk c = true := by
    intro c hc
    apply h3
    rw [wwwReplace_of_www hs] at hc
    exact List.drop_subset _ _ hc
  have hcond : (decide (wwwReplace u.host ≠ "") &&
      (wwwReplace u.host).data.all hostRawOk) = true := by
    rw [decide_eq_true hne, Bool.true_and, List.all_eq_true]
    intro c hc
    exact hostStoredOk_rawOk (hchars c hc)
  unfold URLRec.hostnameSet
  rw [hcond, if_pos rfl]
  apply String.ext
  show List.map charToLower (wwwReplace u.host).data = (wwwReplace u.host).data
  calc List.map charToLower (wwwReplace u.host).data
      = List.map id (wwwReplace u.host).data :=
        List.map_congr_left (fun c hc => hostStoredOk_lower_fix (hchars c hc))
    _ = (wwwReplace u.host).data := List.map_id _

/-- The pipeline's scheme comes from the HTTPS step. -/
theorem cleanUpd_scheme (options : CleanOptions) (probe : String → Bool) (u : URLRec) :
    (cleanUpd options probe u).scheme = (httpsUpd options probe u).scheme := by
  unfold cleanUpd
  rw [(pathUpd_fields _ _).1, (fragUpd_fields _ _).1, (queryUpd_fields _ _).1,
    (portUpd_fields _ _).1, (wwwUpd_fields _ _).1]

/-- The pipeline's host comes from the www step. -/
theorem cleanUpd_host (options : CleanOptions) (probe : String → Bool) (u : URLRec) :
    (cleanUpd options probe u).host =
      (wwwUpd options (httpsUpd options probe u)).host := by
  unfold cleanUpd
  rw [(pathUpd_fields _ _).2.1, (fragUpd_fields _ _).2.1, (queryUpd_fields _ _).2.1,
    (portUpd_fields _ _).2.1]

/-- The pipeline's query is the query rewrite of the input query. -/
theorem cleanUpd_query (options : CleanOptions) (probe : String → Bool) (u : URLRec) :
    (cleanUpd options probe u).query = queryNext options u.query := by
  unfold cleanUpd
  rw [(pathUpd_fields _ _).2.2.2.1, (fragUpd_fields _ _).2.2.2.2]
  show queryNext options
    (portUpd options (wwwUpd options (httpsUpd options probe u))).query = _
  rw [(portUpd_fields _ _).2.2.2.1, (wwwUpd_fields _ _).2.2.2.1,
    (httpsUpd_fields _ _ _).2.2.1]

/-- The pipeline's fragment comes from the fragment step. -/
theorem cleanUpd_fragment (options : CleanOptions) (probe : String → Bool) (u : URLRec) :
    (cleanUpd options probe u).fragment =
      (fragUpd options (queryUpd options (portUpd options
        (wwwUpd options (httpsUpd options probe u))))).fragment := by
  unfold cleanUpd
  rw [(pathUpd_fields _ _).2.2.2.2]

/-- With a constant probe and no `www.www.` host, the pipeline record rewrite
is idempotent. -/
theorem cleanUpd_fix {options : CleanOptions} {probe : String → Bool} {b : Bool}
    (hpr : ∀ x, probe x = b) {u : URLRec} (h : u.WF)
    (hw : jsStartsWith (wwwReplace u.hostname) "www." = false) :
    cleanUpd options probe (cleanUpd options probe u) = cleanUpd options probe u := by
  have hscheme := cleanUpd_scheme options probe u
  have hvhost := cleanUpd_host options probe u
  have hvq := cleanUpd_query options probe u
  have hvf := cleanUpd_fragment options probe u
  have hvWF : (cleanUpd options probe u).WF := cleanUpd_WF h
  generalize hvv : cleanUpd options probe u = v at hscheme hvhost hvq hvf hvWF ⊢
  have ha : httpsUpd options probe v = v := by
    by_cases htry : options.tryHttps = true
    · by_cases husch : u.scheme = "http"
      · have hguard : (options.tryHttps && (u.protocol == "http:")) = true := by
          rw [htry, protocol_http_true husch]
          rfl
        rcases b with _ | _
        · have h1 : httpsUpd options probe u = u := by
            unfold httpsUpd
            rw [hguard, if_pos rfl, hpr u.href, if_neg Bool.false_ne_true]
          have hvs : v.scheme = "http" := by
            rw [hscheme, h1, husch]
          unfold httpsUpd
          rw [htry, protocol_http_true hvs, hpr v.href, Bool.true_and]
          rw [if_pos rfl, if_neg Bool.false_ne_true]
        · have h1 : httpsUpd options probe u = u.protocolSet "https:" := by
            unfold httpsUpd
            rw [hguard, if_pos rfl, hpr u.href, if_pos rfl]
          have hvs : v.scheme = "https" := by
            rw [hscheme, h1, (protocolSet_https_fields u).2.2.2.2]
          unfold httpsUpd
          rw [protocol_http_false (by rw [hvs]; decide), Bool.and_false,
            if_neg Bool.false_ne_true]
      · have h1 : httpsUpd options probe u = u := by
          unfold httpsUpd
          rw [protocol_http_false husch, Bool.and_false, if_neg Bool.false_ne_true]
        have hvs : v.scheme = u.scheme := by
          rw [hscheme, h1]
        unfold httpsUpd
        rw [protocol_http_false (by rw [hvs]; exact husch), Bool.and_false,
          if_neg Bool.false_ne_true]
    · have htry' : options.tryHttps = false := Bool.eq_false_iff.mpr htry
      unfold httpsUpd
      rw [htry', Bool.false_and, if_neg Bool.false_ne_true]
  have hu1host : (httpsUpd options probe u).host = u.host :=
    (httpsUpd_fields options probe u).1
  have hb2 : wwwUpd options v = v := by
    by_cases hrem : options.removeWww = true
    · by_cases hst : jsStartsWith (httpsUpd options probe u).hostname "www." = true
      · have hg : (options.removeWww &&
            jsStartsWith (httpsUpd options probe u).hostname "www.") = true := by
          rw [hrem, hst]
          rfl
        have h2 : wwwUpd options (httpsUpd options probe u) =
            (httpsUpd options probe u).hostnameSet
              (wwwReplace (httpsUpd options probe u).hostname) := by
          unfold wwwUpd
          rw [hg, if_pos rfl]
        by_cases hwe : wwwReplace (httpsUpd options probe u).hostname = ""
        · have h3 : wwwUpd options (httpsUpd options probe u) =
              httpsUpd options probe u := by
            rw [h2, hwe, hostnameSet_empty]
          have hvh : v.host = u.host := by
            rw [hvhost, h3, hu1host]
          have hstv : jsStartsWith v.hostname "www." = true := by
            show jsStartsWith v.host "www." = true
            rw [hvh, ← hu1host]
            exact hst
          have hwev : wwwReplace v.hostname = "" := by
            show wwwReplace v.host = ""
            rw [hvh, ← hu1host]
            exact hwe
          unfold wwwUpd
          rw [hrem, hstv, Bool.true_and, if_pos rfl, hwev, hostnameSet_empty]
        · have hb3 : ((httpsUpd options probe u).hostnameSet
              (wwwReplace (httpsUpd options probe u).hostname)).host =
              wwwReplace (httpsUpd options probe u).hostname :=
            host_after_www (httpsUpd_WF h) hst hwe
          have hvh : v.host = wwwReplace (httpsUpd options probe u).hostname := by
            rw [hvhost, h2, hb3]
          have hstv : jsStartsWith v.hostname "www." = false := by
            show jsStartsWith v.host "www." = false
            rw [hvh]
            show jsStartsWith (wwwReplace (httpsUpd options probe u).host) "www." = false
            rw [hu1host]
            exact hw
          unfold wwwUpd
          rw [hstv, Bool.and_false, if_neg Bool.false_ne_true]
      · have hst' : jsStartsWith (httpsUpd options probe u).hostname "www." = false :=
          Bool.eq_false_iff.mpr hst
        have h2 : wwwUpd options (httpsUpd options probe u) =
            httpsUpd options probe u := by
          unfold wwwUpd
          rw [hst', Bool.and_false, if_neg Bool.false_ne_true]
        have hvh : v.host = u.host := by
          rw [hvhost, h2, hu1host]
        have hstv : jsStartsWith v.hostname "www." = false := by
          show jsStartsWith v.host "www." = false
          rw [hvh, ← hu1host]
          exact hst'
        unfold wwwUpd
        rw [hstv, Bool.and_false, if_neg Bool.false_ne_true]
    · have hrem' : options.removeWww = false := Bool.eq_false_iff.mpr hrem
      unfold wwwUpd
      rw [hrem', Bool.false_and, if_neg Bool.false_ne_true]
  have hc : portUpd options v = v := portUpd_noop hvWF
  have hd : queryUpd options v = v := by
    have hq7 := (WF_elim h).2.2.2.2.2.2.1
    unfold queryUpd
    rw [hvq, queryNext_idem hq7, ← hvq]
  have he : fragUpd options v = v := by
    by_cases hrf : options.removeFragment = true
    · have hfr : v.fragment = none ∨ v.fragment = some "" := by
        rw [hvf]
        unfold fragUpd
        split
        · rw [hashSet_empty]
          exact Or.inl rfl
        · next hguard =>
          have hh : (queryUpd options (portUpd options (wwwUpd options
              (httpsUpd options probe u)))).hash = "" := by
            by_contra hcon
            apply hguard
            rw [hrf, Bool.true_and]
            exact decide_eq_true hcon
          exact hash_empty_iff.mp hh
      have hvh : v.hash = "" := hash_empty_iff.mpr hfr
      have hdec : decide (v.hash ≠ "") = false := by
        rw [hvh]
        decide
      unfold fragUpd
      rw [hdec, Bool.and_false, if_neg Bool.false_ne_true]
    · have hrf' : options.removeFragment = false := Bool.eq_false_iff.mpr hrf
      unfold fragUpd
      rw [hrf', Bool.false_and, if_neg Bool.false_ne_true]
  have hf : pathUpd options v = v := by
    have hXWF : (fragUpd options (queryUpd options (portUpd options
        (wwwUpd options (httpsUpd options probe u))))).WF :=
      fragUpd_WF (queryUpd_WF (portUpd_WF (wwwUpd_WF (httpsUpd_WF h))))
    rw [← hvv]
    unfold cleanUpd
    exact pathUpd_idem hXWF
  show cleanUpd options probe v = v
  unfold cleanUpd
  rw [ha, hb2, hc, hd, he, hf]

/-! ## Change-list provenance and the canonical no-op -/

/-- A conditional change append keeps earlier entries. -/
theorem mem_ite_append_left {c : Prop} [Decidable c] {ch : List String} {e x : String}
    (hx : x ∈ ch) : x ∈ (if c then ch ++ [e] else ch) := by
  split
  · exact List.mem_append_left _ hx
  · exact hx

/-- The path step is a no-op on canonical paths: the root, or nonempty
segments only. -/
theorem pathApply_noop {options : CleanOptions} {u : URLRec} {ch : List String}
    (h : u.WF) (hseg : u.pathSegs = [""] ∨ ∀ s ∈ u.pathSegs, s ≠ "") :
    pathApply options (u, ch) = (u, ch) := by
  rcases hseg with hseg | hseg
  · unfold pathApply
    dsimp only
    have hroot : u.pathname = "/" := by
      show (⟨joinPath (u.pathSegs.map String.data)⟩ : String) = "/"
      rw [hseg]
      rfl
    rw [hroot, if_neg (fun hcon => hcon rfl)]
  · rcases WF_elim h with ⟨-, -, -, -, h5, h6, -, -⟩
    have hL : ∀ m ∈ u.pathSegs.map String.data, m ≠ [] ∧ '/' ∉ m := by
      intro m hm
      rcases List.mem_map.mp hm with ⟨s, hsm, rfl⟩
      refine ⟨?_, (segOk_facts (h6 s hsm)).1⟩
      intro hcon
      exact hseg s hsm (String.ext hcon)
    have hLne : u.pathSegs.map String.data ≠ [] := by simpa using h5
    have hcol : collapseL (joinPath (u.pathSegs.map String.data)) =
        joinPath (u.pathSegs.map String.data) := by
      rw [collapse_joinPath hLne (fun m hm => (hL m hm).2)]
      have hfil : (u.pathSegs.map String.data).filter (fun s => !s.isEmpty) =
          u.pathSegs.map String.data :=
        List.filter_eq_self.mpr (fun m hm => by simp [List.isEmpty_iff, (hL m hm).1])
      have hlast : ¬((u.pathSegs.map String.data).getLast? = some []) := by
        rcases eq_nil_or_append_single (u.pathSegs.map String.data) with
          hnil | ⟨L', x, hLeq⟩
        · exact absurd hnil hLne
        · rw [hLeq, List.getLast?_concat]
          intro hcon
          injection hcon with he
          exact (hL x (by rw [hLeq]; simp)).1 he
      rw [hfil, if_neg hlast, List.append_nil]
    have hroot' : u.pathname ≠ "/" := by
      intro hcon
      have hd := congrArg String.data hcon
      rcases hLcase : u.pathSegs.map String.data with _ | ⟨x, rest⟩
      · exact hLne hLcase
      · rw [show u.pathname.data = joinPath (u.pathSegs.map String.data) from rfl,
          hLcase] at hd
        simp only [joinPath] at hd
        injection hd with h1 h2
        rcases List.append_eq_nil.mp h2 with ⟨hx, -⟩
        exact (hL x (by rw [hLcase]; simp)).1 hx
    unfold pathApply
    dsimp only
    rw [if_pos hroot']
    have hcolS : collapseS u.pathname = u.pathname := String.ext hcol
    rw [hcolS]
    have hend : jsEndsWith u.pathname "/" = false := by
      show jsEndsWith (⟨joinPath (u.pathSegs.map String.data)⟩ : String) "/" = false
      exact joinPath_not_endsWith_slash hLne hL
    rw [hend, Bool.and_false, if_neg Bool.false_ne_true]
    rw [if_neg (fun hcon => hcon rfl)]

/-- On a canonical record the whole pipeline is a no-op with no changes; the
HTTPS step is inert when the scheme is already secure, when `tryHttps` is
off, or when the probe reports the upgrade unavailable. -/
theorem cleanParsed_noop {options : CleanOptions} {probe : String → Bool} {u : URLRec}
    (h : u.WF)
    (hs : u.scheme = "https" ∨ options.tryHttps = false ∨ probe u.href = false)
    (hw2 : jsStartsWith u.hostname "www." = false)
    (hq : u.query = none) (hf : u.fragment = none)
    (hseg : u.pathSegs = [""] ∨ ∀ s ∈ u.pathSegs, s ≠ "") :
    cleanParsed options probe u = (u, []) := by
  have h1 : httpsApply options probe (u, []) = (u, []) := by
    rcases hs with hs | hs | hs
    · unfold httpsApply
      dsimp only
      rw [protocol_http_false (by rw [hs]; decide), Bool.and_false,
        if_neg Bool.false_ne_true]
    · unfold httpsApply
      dsimp only
      rw [hs, Bool.false_and, if_neg Bool.false_ne_true]
    · unfold httpsApply
      dsimp only
      split
      · rw [hs, if_neg Bool.false_ne_true]
      · rfl
  have h2 : wwwApply options (u, []) = (u, []) := by
    unfold wwwApply
    dsimp only
    rw [hw2, Bool.and_false, if_neg Bool.false_ne_true]
  have h3 : portApply options (u, []) = (u, []) := portApply_noop h
  have h4 : queryApply options (u, []) = (u, []) := by
    unfold queryApply
    dsimp only
    have hsearch : u.search = "" := search_empty_iff.mpr (Or.inl hq)
    rw [hsearch, if_neg (fun hcon => hcon rfl)]
  have h5 : fragApply options (u, []) = (u, []) := by
    unfold fragApply
    dsimp only
    have hh : u.hash = "" := hash_empty_iff.mpr (Or.inl hf)
    have hdec : decide (u.hash ≠ "") = false := by
      rw [hh]
      decide
    rw [hdec, Bool.and_false, if_neg Bool.false_ne_true]
  have h6 : pathApply options (u, []) = (u, []) := pathApply_noop h hseg
  unfold cleanParsed
  rw [h1, h2, h3, h4, h5, h6]

/-- Entries added by the query, fragment and path steps. -/
theorem mem_tail3_changes {options : CleanOptions} {u : URLRec} {ch : List String}
    {x : String}
    (hx : x ∈ (pathApply options (fragApply options (queryApply options (u, ch)))).2) :
    x ∈ ch ∨ x = "Removed tracking parameters" ∨ x = "Removed URL fragment" ∨
    x = "Normalized path" := by
  rcases h3 : queryApply options (u, ch) with ⟨u3, c3⟩
  rcases h4 : fragApply options (u3, c3) with ⟨u4, c4⟩
  rw [h3, h4] at hx
  have hc3 : ∀ y ∈ c3, y ∈ ch ∨ y = "Removed tracking parameters" := by
    intro y hy
    have hsnd := queryApply_snd options u ch
    rw [h3] at hsnd
    dsimp only at hsnd
    rcases hsnd with hh | hh
    · rw [hh] at hy
      exact Or.inl hy
    · rw [hh] at hy
      rcases List.mem_append.mp hy with hz | hz
      · exact Or.inl hz
      · exact Or.inr (by simpa using hz)
  have hc4 : ∀ y ∈ c4, y ∈ c3 ∨ y = "Removed URL fragment" := by
    intro y hy
    rw [fragApply_eq] at h4
    injection h4 with ha hb
    rw [← hb] at hy
    exact mem_of_ite_append hy
  have hc5 : ∀ y ∈ (pathApply options (u4, c4)).2, y ∈ c4 ∨ y = "Normalized path" := by
    intro y hy
    rcases pathApply_snd options u4 c4 with hh | hh
    · rw [hh] at hy
      exact Or.inl hy
    · rw [hh] at hy
      rcases List.mem_append.mp hy with hz | hz
      · exact Or.inl hz
      · exact Or.inr (by simpa using hz)
  rcases hc5 x hx with hr | hr
  · rcases hc4 x hr with hr2 | hr2
    · rcases hc3 x hr2 with hr3 | hr3
      · exact Or.inl hr3
      · exact Or.inr (Or.inl hr3)
    · exact Or.inr (Or.inr (Or.inl hr2))
  · exact Or.inr (Or.inr (Or.inr hr))

/-- Entries added by the last five steps. -/
theorem mem_tail5_changes {options : CleanOptions} {u : URLRec} {ch : List String}
    {x : String}
    (hx : x ∈ (pathApply options (fragApply options (queryApply options
      (portApply options (wwwApply options (u, ch)))))).2) :
    x ∈ ch ∨ x = "Removed www prefix" ∨ x = "Removed default port" ∨
    x = "Removed tracking parameters" ∨ x = "Removed URL fragment" ∨
    x = "Normalized path" := by
  rcases h1 : wwwApply options (u, ch) with ⟨u1, c1⟩
  rcases h2 : portApply options (u1, c1) with ⟨u2, c2⟩
  rw [h1, h2] at hx
  have hc1 : ∀ y ∈ c1, y ∈ ch ∨ y = "Removed www prefix" := by
    intro y hy
    rw [wwwApply_eq] at h1
    injection h1 with ha hb
    rw [← hb] at hy
    exact mem_of_ite_append hy
  have hc2 : ∀ y ∈ c2, y ∈ c1 ∨ y = "Removed default port" := by
    intro y hy
    rw [portApply_eq] at h2
    injection h2 with ha hb
    rw [← hb] at hy
    exact mem_of_ite_append hy
  rcases mem_tail3_changes hx with hr | hr | hr | hr
  · rcases hc2 x hr with hr2 | hr2
    · rcases hc1 x hr2 with hr3 | hr3
      · exact Or.inl hr3
      · exact Or.inr (Or.inl hr3)
    · exact Or.inr (Or.inr (Or.inl hr2))
  · exact Or.inr (Or.inr (Or.inr (Or.inl hr)))
  · exact Or.inr (Or.inr (Or.inr (Or.inr (Or.inl hr))))
  · exact Or.inr (Or.inr (Or.inr (Or.inr (Or.inr hr))))

/-- The last five steps keep existing entries. -/
theorem tail5_mono {options : CleanOptions} {u : URLRec} {ch : List String} {x : String}
    (hx : x ∈ ch) :
    x ∈ (pathApply options (fragApply options (queryApply options
      (portApply options (wwwApply options (u, ch)))))).2 := by
  rcases h1 : wwwApply options (u, ch) with ⟨u1, c1⟩
  have hx1 : x ∈ c1 := by
    rw [wwwApply_eq] at h1
    injection h1 with ha hb
    rw [← hb]
    exact mem_ite_append_left hx
  rcases h2 : portApply options (u1, c1) with ⟨u2, c2⟩
  have hx2 : x ∈ c2 := by
    rw [portApply_eq] at h2
    injection h2 with ha hb
    rw [← hb]
    exact mem_ite_append_left hx1
  rcases h3 : queryApply options (u2, c2) with ⟨u3, c3⟩
  have hx3 : x ∈ c3 := by
    have hsnd := queryApply_snd options u2 c2
    rw [h3] at hsnd
    dsimp only at hsnd
    rcases hsnd with hh | hh
    · rw [hh]
      exact hx2
    · rw [hh]
      exact List.mem_append_left _ hx2
  rcases h4 : fragApply options (u3, c3) with ⟨u4, c4⟩
  have hx4 : x ∈ c4 := by
    rw [fragApply_eq] at h4
    injection h4 with ha hb
    rw [← hb]
    exact mem_ite_append_left hx3
  rcases pathApply_snd options u4 c4 with hh | hh
  · rw [hh]
    exact hx4
  · rw [hh]
    exact List.mem_append_left _ hx4

/-- On parsed (hence well-formed) records, the change list never contains
the default-port entry: the parser has already removed default ports. -/
theorem no_port_change {options : CleanOptions} {probe : String → Bool} {u : URLRec}
    (h : u.WF) {x : String} (hx : x ∈ (cleanParsed options probe u).2) :
    x = "Upgraded to HTTPS" ∨ x = "Removed www prefix" ∨
    x = "Removed tracking parameters" ∨ x = "Removed URL fragment" ∨
    x = "Normalized path" := by
  unfold cleanParsed at hx
  rcases h0 : httpsApply options probe (u, []) with ⟨u1, c1⟩
  rcases h1 : wwwApply options (u1, c1) with ⟨u2, c2⟩
  rw [h0, h1] at hx
  have hu1 : u1 = httpsUpd options probe u := by
    rw [httpsApply_eq] at h0
    injection h0 with ha hb
    exact ha.symm
  have hu2 : u2 = wwwUpd options u1 := by
    rw [wwwApply_eq] at h1
    injection h1 with ha hb
    exact ha.symm
  have hWF2 : u2.WF := by
    rw [hu2, hu1]
    exact wwwUpd_WF (httpsUpd_WF h)
  rw [portApply_noop hWF2] at hx
  have hc1 : ∀ y ∈ c1, y = "Upgraded to HTTPS" := by
    intro y hy
    rw [httpsApply_eq] at h0
    injection h0 with ha hb
    rw [← hb] at hy
    split at hy
    · rcases mem_of_ite_append hy with hz | hz
      · cases hz
      · exact hz
    · cases hy
  have hc2 : ∀ y ∈ c2, y = "Upgraded to HTTPS" ∨ y = "Removed www prefix" := by
    intro y hy
    rw [wwwApply_eq] at h1
    injection h1 with ha hb
    rw [← hb] at hy
    rcases mem_of_ite_append hy with hz | hz
    · exact Or.inl (hc1 y hz)
    · exact Or.inr hz
  rcases mem_tail3_changes hx with hr | hr | hr | hr
  · rcases hc2 x hr with hr2 | hr2
    · exact Or.inl hr2
    · exact Or.inr (Or.inl hr2)
  · exact Or.inr (Or.inr (Or.inl hr))
  · exact Or.inr (Or.inr (Or.inr (Or.inl hr)))
  · exact Or.inr (Or.inr (Or.inr (Or.inr hr)))

/-! ## Further path serialization facts -/

/-- For flat segments, ending in a slash means a trailing empty segment. -/
theorem joinPath_ends_slash_iff {L : List (List Char)} (hne : L ≠ [])
    (hflat : ∀ m ∈ L, '/' ∉ m) :
    jsEndsWith (⟨joinPath L⟩ : String) "/" = true ↔ L.getLast? = some [] := by
  rcases eq_nil_or_append_single L with rfl | ⟨A, x, rfl⟩
  · exact absurd rfl hne
  · rw [List.getLast?_concat]
    constructor
    · intro h
      rw [jsEndsWith_slash_iff, joinPath_concat] at h
      rcases hx : x with _ | ⟨c, t⟩
      · rfl
      · rw [hx] at h
        rw [List.getLast?_append_of_ne_nil _ (by simp)] at h
        have hlast : (c :: t).getLast (by simp) ∈ c :: t := List.getLast_mem _
        rw [List.getLast?_eq_getLast _ (by simp)] at h
        injection h with he
        have hmem : '/' ∈ x := by
          rw [hx]
          rw [← he]
          exact hlast
        exact absurd hmem (hflat x (by simp))
    · intro h
      injection h with he
      subst he
      exact joinPath_trailing_endsWith_slash

/-- Mapping to strings is injective on character lists. -/
theorem map_mk_inj {X Y : List (List Char)}
    (h : X.map (fun l => (⟨l⟩ : String)) = Y.map (fun l => (⟨l⟩ : String))) : X = Y := by
  have h2 := congrArg (List.map String.data) h
  rw [List.map_map, List.map_map] at h2
  have hcomp : (String.data ∘ fun l => (⟨l⟩ : String)) = id := by
    funext l
    rfl
  rw [hcomp, List.map_id, List.map_id] at h2
  exact h2

/-- Path serialization is injective on admissible segment lists. -/
theorem joinPath_inj {X Y : List (List Char)} (hXne : X ≠ []) (hYne : Y ≠ [])
    (hX : ∀ m ∈ X, '/' ∉ m ∧ m ≠ ['.'] ∧ m ≠ ['.', '.'])
    (hY : ∀ m ∈ Y, '/' ∉ m ∧ m ≠ ['.'] ∧ m ≠ ['.', '.'])
    (h : joinPath X = joinPath Y) : X = Y := by
  have h1 := parsePathSegsL_joinPath_chars hXne hX
  have h2 := parsePathSegsL_joinPath_chars hYne hY
  rw [h] at h1
  rw [h2] at h1
  exact map_mk_inj h1.symm

/-! # Claim theorems -/

/-- C1 counterexample: an already-canonical URL (https scheme, no www, no
port, one non-tracking nonempty sorted query parameter, no fragment, clean
path) comes back with `cleaned = original` but a nonempty change list: the
length heuristic compares `url.search` (with its `?`) against
`searchParams.toString()` (without), so it always fires on a nonempty
surviving query. -/
theorem C1_counterexample :
    cleanUrl "https://example.com/x?a=1" {} (fun _ => false) =
      .ok { original := "https://example.com/x?a=1",
            cleaned := "https://example.com/x?a=1",
            changes := ["Removed tracking parameters"] } ∧
    isTrackingKey "a" = false := by
  exact ⟨rfl, rfl⟩

/-- C1 (corrected): for a parsed-and-reserialized URL that already satisfies
every enabled rule — the scheme is secure, or the HTTPS rule is disabled, or
the probe reports the upgrade unavailable — and has no query at all,
`cleanUrl` returns an empty change list and `cleaned = original`; with a
(canonical, nonempty) query the no-op reporting fails, as the counterexample
shows, though `cleaned = original` still holds there. -/
theorem C1_noop_reporting {u : URLRec} (options : CleanOptions)
    (probe : String → Bool) (h : u.WF)
    (hs : u.scheme = "https" ∨ options.tryHttps = false ∨ probe u.href = false)
    (hw : jsStartsWith u.hostname "www." = false)
    (hq : u.query = none) (hf : u.fragment = none)
    (hseg : u.pathSegs = [""] ∨ ∀ s ∈ u.pathSegs, s ≠ "") :
    cleanUrl u.href options probe =
      .ok { original := u.href, cleaned := u.href, changes := [] } := by
  unfold cleanUrl
  rw [parse_href h]
  dsimp only
  rw [cleanParsed_noop h hs hw hq hf hseg]

/-- C1 witness: the corrected theorem applied at concrete canonical URLs —
an https one, and an http one whose probe reports no upgrade available. -/
theorem C1_noop_reporting_witness :
    cleanUrl (URLRec.href ⟨"https", "example.com", none, ["x"], none, none⟩) {}
      (fun _ => false) =
      .ok { original := URLRec.href ⟨"https", "example.com", none, ["x"], none, none⟩,
            cleaned := URLRec.href ⟨"https", "example.com", none, ["x"], none, none⟩,
            changes := [] } ∧
    cleanUrl (URLRec.href ⟨"http", "example.com", none, ["x"], none, none⟩) {}
      (fun _ => false) =
      .ok { original := URLRec.href ⟨"http", "example.com", none, ["x"], none, none⟩,
            cleaned := URLRec.href ⟨"http", "example.com", none, ["x"], none, none⟩,
            changes := [] } :=
  ⟨C1_noop_reporting {} (fun _ => false)
    (by decide : URLRec.wfB ⟨"https", "example.com", none, ["x"], none, none⟩ = true)
    (Or.inl rfl) (by decide) rfl rfl (Or.inr (by decide)),
   C1_noop_reporting {} (fun _ => false)
    (by decide : URLRec.wfB ⟨"http", "example.com", none, ["x"], none, none⟩ = true)
    (Or.inr (Or.inr rfl)) (by decide) rfl rfl (Or.inr (by decide))⟩

/-- C4: allow-listed parameter names are never classified as tracking: the
allow-list check precedes the pattern checks, and no allow-list entry is in
the deny-list. -/
theorem C4_allowlist_precedence (name : String)
    (h : PARAMS_TO_KEEP.contains (jsToLower name) = true) :
    isTrackingKey name = false := by
  have hrem : PARAMS_TO_REMOVE.contains (jsToLower name) = false := by
    revert h
    generalize jsToLower name = low
    intro h
    have hlow : low ∈ PARAMS_TO_KEEP := by simpa using h
    fin_cases hlow <;> decide
  unfold isTrackingKey looksLikeTracking
  rw [h, if_pos rfl, Bool.or_false]
  exact hrem

/-- C4 witness: a mixed-case allow-listed name. -/
theorem C4_allowlist_precedence_witness : isTrackingKey "PAGE" = false :=
  C4_allowlist_precedence "PAGE" (by decide)

/-- C6: `cleanUrl` fails exactly on inputs the URL parser rejects, the error
carries the offending string, and this is the only error it surfaces. -/
theorem C6_invalid_input (s : String) (options : CleanOptions)
    (probe : String → Bool) (e : String) :
    cleanUrl s options probe = .error e ↔
      (URL.parse s = none ∧ e = "Invalid URL: " ++ s) := by
  unfold cleanUrl
  rcases hp : URL.parse s with _ | u
  · dsimp only
    constructor
    · intro h
      injection h with he
      exact ⟨rfl, he.symm⟩
    · rintro ⟨-, rfl⟩
      rfl
  · dsimp only
    constructor
    · intro h
      rcases hcp : cleanParsed options probe u with ⟨u1, ch1⟩
      rw [hcp] at h
      exact Except.noConfusion h
    · rintro ⟨hcon, -⟩
      exact Option.noConfusion hcon

/-- C6 witness: the spec's own example input. -/
theorem C6_invalid_input_witness :
    cleanUrl "not a url" {} (fun _ => false) =
      .error ("Invalid URL: " ++ "not a url") :=
  (C6_invalid_input "not a url" {} (fun _ => false)
    ("Invalid URL: " ++ "not a url")).mpr ⟨rfl, rfl⟩

/-- C7 counterexample: an explicit default port in the input is stripped by
the parser before the pipeline runs, so the port guard in `cleanUrl` never
sees it and "Removed default port" is not appended. -/
theorem C7_counterexample :
    cleanUrl "http://example.com:80/x" {} (fun _ => false) =
      .ok { original := "http://example.com/x", cleaned := "http://example.com/x",
            changes := [] } := rfl

/-- C7 (corrected): default ports are indeed absent from the cleaned URL —
the spec's example equality holds — but "Removed default port" is never
appended to any change list, because the parser already nulled default
ports, leaving the guard dead. -/
theorem C7_default_ports :
    (∀ (s : String) (options : CleanOptions) (probe : String → Bool)
      (r : CleanResult), cleanUrl s options probe = .ok r →
        "Removed default port" ∉ r.changes) ∧
    Except.map CleanResult.cleaned
      (cleanUrl "http://example.com:80/x" {} (fun _ => false)) =
      .ok "http://example.com/x" := by
  constructor
  · intro s options probe r hr
    unfold cleanUrl at hr
    rcases hp : URL.parse s with _ | u
    · rw [hp] at hr
      exact Except.noConfusion hr
    · rw [hp] at hr
      dsimp only at hr
      rcases hcp : cleanParsed options probe u with ⟨u1, ch1⟩
      rw [hcp] at hr
      injection hr with he
      intro hmem
      rw [← he] at hmem
      have hmem' : "Removed default port" ∈ ch1 := hmem
      have hmem2 : "Removed default port" ∈ (cleanParsed options probe u).2 := by
        rw [hcp]
        exact hmem'
      rcases no_port_change (parse_WF hp) hmem2 with hz | hz | hz | hz | hz <;>
        exact absurd hz (by decide)
  · rfl

/-- C7 witness: the general part applied at the counterexample input. -/
theorem C7_default_ports_witness :
    "Removed default port" ∉
      CleanResult.changes ⟨"http://example.com/x", "http://example.com/x", []⟩ :=
  C7_default_ports.1 "http://example.com:80/x" {} (fun _ => false)
    ⟨"http://example.com/x", "http://example.com/x", []⟩ rfl

/-- C10: the destructuring defaults make every flag true, and with the
default options every rule applies, reproducing the spec's composite
example end to end (probe reporting HTTPS available). -/
theorem C10_defaults :
    ({} : CleanOptions) = ⟨true, true, true, true, true, true, true, true⟩ ∧
    cleanUrl "http://www.example.com/a//b/?utm_source=x&page=2#frag" {}
      (fun _ => true) =
      .ok { original := "http://www.example.com/a//b/?utm_source=x&page=2#frag",
            cleaned := "https://example.com/a/b?page=2",
            changes := ["Upgraded to HTTPS", "Removed www prefix",
              "Removed tracking parameters", "Removed URL fragment",
              "Normalized path"] } := by
  exact ⟨rfl, rfl⟩

/-- C2 counterexample: a `www.www.` host is stripped one label per run, so
cleaning the cleaned URL changes it again — idempotence fails. -/
theorem C2_counterexample :
    cleanUrl "http://www.www.example.com/x" {} (fun _ => false) =
      .ok { original := "http://www.www.example.com/x",
            cleaned := "http://www.example.com/x",
            changes := ["Removed www prefix"] } ∧
    cleanUrl "http://www.example.com/x" {} (fun _ => false) =
      .ok { original := "http://www.example.com/x",
            cleaned := "http://example.com/x",
            changes := ["Removed www prefix"] } ∧
    ("http://www.example.com/x" : String) ≠ "http://example.com/x" := by
  refine ⟨rfl, rfl, ?_⟩
  decide

/-- C2 (corrected): with a constant probe and a host that does not still
start with `www.` after one strip, cleaning the cleaned URL leaves it
unchanged. -/
theorem C2_idempotence {s : String} {options : CleanOptions}
    {probe : String → Bool} {b : Bool} (hpr : ∀ x, probe x = b)
    {u : URLRec} (hp : URL.parse s = some u)
    (hw : jsStartsWith (wwwReplace u.hostname) "www." = false) :
    ∀ r, cleanUrl s options probe = .ok r →
      ∃ r', cleanUrl r.cleaned options probe = .ok r' ∧ r'.cleaned = r.cleaned := by
  intro r hr
  have hWF : u.WF := parse_WF hp
  unfold cleanUrl at hr
  rw [hp] at hr
  dsimp only at hr
  rcases hcp : cleanParsed options probe u with ⟨u1, ch1⟩
  rw [hcp] at hr
  injection hr with he
  have hu1 : u1 = cleanUpd options probe u := by
    have hfst := cleanParsed_fst options probe u
    rw [hcp] at hfst
    exact hfst
  have hu1WF : u1.WF := by
    rw [hu1]
    exact cleanUpd_WF hWF
  have hrc : r.cleaned = u1.href := by
    rw [← he]
  rw [hrc]
  unfold cleanUrl
  rw [parse_href hu1WF]
  dsimp only
  rcases hcp2 : cleanParsed options probe u1 with ⟨u2, ch2⟩
  have hu2 : u2 = u1 := by
    have h2 := cleanParsed_fst options probe u1
    rw [hcp2] at h2
    dsimp only at h2
    rw [hu1] at h2
    rw [cleanUpd_fix hpr hWF hw] at h2
    rw [h2, hu1]
  exact ⟨⟨u1.href, u2.href, ch2⟩, rfl, by rw [hu2]⟩

/-- C2 witness: the corrected theorem applied at a concrete URL. -/
theorem C2_idempotence_witness :
    ∃ r', cleanUrl (CleanResult.cleaned ⟨"http://www.example.com/x",
        "http://example.com/x", ["Removed www prefix"]⟩) {} (fun _ => false) =
      .ok r' ∧
      r'.cleaned = CleanResult.cleaned ⟨"http://www.example.com/x",
        "http://example.com/x", ["Removed www prefix"]⟩ :=
  C2_idempotence (s := "http://www.example.com/x") (b := false) (fun _ => rfl)
    (u := ⟨"http", "www.example.com", none, ["x"], none, none⟩) rfl (by decide)
    ⟨"http://www.example.com/x", "http://example.com/x", ["Removed www prefix"]⟩ rfl

/-- C3 counterexample: the array sort compares whole `"key,value"` strings,
not keys alone, so equal-key pairs are reordered by value: `?a=2&a=1`
becomes `?a=1&a=2`, violating stability by key. -/
theorem C3_counterexample :
    cleanUrl "https://example.com/x?a=2&a=1" {} (fun _ => false) =
      .ok { original := "https://example.com/x?a=2&a=1",
            cleaned := "https://example.com/x?a=1&a=2",
            changes := ["Removed tracking parameters"] } := rfl

/-- C3 (corrected): with `sortParams` on, the surviving pairs are rewritten
as some permutation of the post-filter sequence sorted under the default
comparator order `pairLe` (code-unit order of `"key,value"` strings) — not a
by-key stable sort — and the spec's concrete example still holds. -/
theorem C3_sort_stability (options : CleanOptions)
    (hsort : options.sortParams = true) (u : URLRec) (ch : List String)
    (hq : u.search ≠ "") :
    (∃ fin : List (String × String),
      fin.Perm ((parseQuery u.search).filter (keepPair options)) ∧
      List.Sorted pairLe fin ∧
      (queryApply options (u, ch)).1 = u.searchSet (serializeParams fin)) ∧
    cleanUrl "https://example.com/x?b=2&a=1&a=2" {} (fun _ => false) =
      .ok { original := "https://example.com/x?b=2&a=1&a=2",
            cleaned := "https://example.com/x?a=1&a=2&b=2",
            changes := ["Removed tracking parameters"] } := by
  constructor
  · refine ⟨List.insertionSort pairLe
      ((parseQuery u.search).filter (keepPair options)),
      List.perm_insertionSort _ _, List.sorted_insertionSort _ _, ?_⟩
    unfold queryApply
    dsimp only
    rw [if_pos hq, hsort, if_pos rfl]
  · rfl

/-- C3 witness: the corrected theorem applied at the spec's example query. -/
theorem C3_sort_stability_witness :
    (∃ fin : List (String × String),
      fin.Perm ((parseQuery (URLRec.search ⟨"https", "example.com", none, ["x"],
        some "b=2&a=1&a=2", none⟩)).filter (keepPair {})) ∧
      List.Sorted pairLe fin ∧
      (queryApply {} (⟨"https", "example.com", none, ["x"],
        some "b=2&a=1&a=2", none⟩, [])).1 =
        URLRec.searchSet ⟨"https", "example.com", none, ["x"],
          some "b=2&a=1&a=2", none⟩ (serializeParams fin)) ∧
    cleanUrl "https://example.com/x?b=2&a=1&a=2" {} (fun _ => false) =
      .ok { original := "https://example.com/x?b=2&a=1&a=2",
            cleaned := "https://example.com/x?a=1&a=2&b=2",
            changes := ["Removed tracking parameters"] } :=
  C3_sort_stability {} rfl
    ⟨"https", "example.com", none, ["x"], some "b=2&a=1&a=2", none⟩ [] (by decide)

/-- C8: away from both static tables, the classifier is exactly the spec's
structural pattern list, with each regex test read as the containment it
computes; the redundant alternatives (`tracking`, `refer`, `referr`,
`referrer`) are absorbed by the shorter patterns they contain. -/
theorem C8_classifier_patterns (name : String)
    (hk : PARAMS_TO_KEEP.contains (jsToLower name) = false)
    (hr : PARAMS_TO_REMOVE.contains (jsToLower name) = false) :
    isTrackingKey name = specPatternMatch (jsToLower name) := by
  unfold isTrackingKey looksLikeTracking
  rw [hr, hk, if_neg Bool.false_ne_true, Bool.false_or]
  generalize jsToLower name = q
  have hboole : ∀ (x y : Bool), (x = true ↔ y = true) → x = y := by
    intro x y hxy
    cases x
    · cases y
      · rfl
      · exact absurd (hxy.mpr rfl) (by decide)
    · rw [hxy.mp rfl]
  have htrack : (containsSub q "track" || containsSub q "tracking") =
      containsSub q "track" := by
    cases htr : containsSub q "tracking"
    · rw [Bool.or_false]
    · rw [containsSub_mono (by decide) htr, Bool.true_or]
  have hrefer : containsSub q "refer" = true → containsSub q "ref" = true :=
    fun hh => containsSub_mono (by decide) hh
  have hreferr : containsSub q "referr" = true → containsSub q "ref" = true :=
    fun hh => containsSub_mono (by decide) hh
  have hreferrer : containsSub q "referrer" = true → containsSub q "ref" = true :=
    fun hh => containsSub_mono (by decide) hh
  have href4 : (containsSub q "ref" || containsSub q "refer" ||
      containsSub q "referr" || containsSub q "referrer") = containsSub q "ref" := by
    apply hboole
    simp only [Bool.or_eq_true]
    constructor
    · rintro (((h | h) | h) | h)
      · exact h
      · exact hrefer h
      · exact hreferr h
      · exact hreferrer h
    · intro h
      exact Or.inl (Or.inl (Or.inl h))
  unfold specPatternMatch
  rw [htrack, href4]
  simp only [trackingPatterns, List.any_cons, List.any_nil, Bool.or_false]
  apply hboole
  simp only [Bool.or_eq_true, or_assoc]

/-- C8 witness: a name in neither table, matching the `click` pattern. -/
theorem C8_classifier_patterns_witness :
    isTrackingKey "myclickthing" = specPatternMatch (jsToLower "myclickthing") :=
  C8_classifier_patterns "myclickthing" (by decide) (by decide)

/-- Appending strings concatenates their characters. -/
theorem string_data_append (a b : String) : (a ++ b).data = a.data ++ b.data := rfl

/-- The serialized URL starts with its scheme and `://`. -/
theorem href_prefix {u : URLRec} {s : String} (h : u.scheme = s) :
    ∃ rest, u.href = (s ++ "://") ++ rest := by
  refine ⟨u.host ++ (match u.port with
    | none => ""
    | some p => ":" ++ natRepr p) ++ u.pathname ++ (match u.query with
    | none => ""
    | some q => "?" ++ q) ++ (match u.fragment with
    | none => ""
    | some f => "#" ++ f), ?_⟩
  unfold URLRec.href URLRec.protocol
  rw [h]
  apply String.ext
  simp only [string_data_append, List.append_assoc]
  rfl

/-- C5: with HTTPS upgrading enabled on an insecure-scheme URL, a failing
probe never aborts the call — the result keeps scheme `http` and carries no
upgrade entry — while a succeeding probe yields scheme `https` and appends
"Upgraded to HTTPS". -/
theorem C5_https_probe {s : String} {options : CleanOptions}
    {probe : String → Bool} {u : URLRec} (hp : URL.parse s = some u)
    (htry : options.tryHttps = true) (hsch : u.scheme = "http") :
    (probe u.href = false →
      ∃ r, cleanUrl s options probe = .ok r ∧ "Upgraded to HTTPS" ∉ r.changes ∧
        ∃ rest, r.cleaned = ("http" ++ "://") ++ rest) ∧
    (probe u.href = true →
      ∃ r, cleanUrl s options probe = .ok r ∧ "Upgraded to HTTPS" ∈ r.changes ∧
        ∃ rest, r.cleaned = ("https" ++ "://") ++ rest) := by
  unfold cleanUrl
  rw [hp]
  dsimp only
  rcases hcp : cleanParsed options probe u with ⟨u1, ch1⟩
  have hu1 : u1 = cleanUpd options probe u := by
    have hfst := cleanParsed_fst options probe u
    rw [hcp] at hfst
    exact hfst
  constructor
  · intro hprobe
    have hhupd : httpsUpd options probe u = u := by
      unfold httpsUpd
      rw [htry, protocol_http_true hsch, Bool.true_and, if_pos rfl, hprobe,
        if_neg Bool.false_ne_true]
    have hsch1 : u1.scheme = "http" := by
      rw [hu1, cleanUpd_scheme, hhupd, hsch]
    refine ⟨⟨u.href, u1.href, ch1⟩, rfl, ?_, href_prefix hsch1⟩
    intro hmem
    have hhttps : httpsApply options probe (u, []) = (u, []) := by
      unfold httpsApply
      dsimp only
      rw [htry, protocol_http_true hsch, Bool.true_and, if_pos rfl, hprobe,
        if_neg Bool.false_ne_true]
    unfold cleanParsed at hcp
    rw [hhttps] at hcp
    have hsnd := congrArg Prod.snd hcp
    dsimp only at hsnd
    rw [← hsnd] at hmem
    rcases mem_tail5_changes hmem with hz | hz | hz | hz | hz | hz
    · cases hz
    · exact absurd hz (by decide)
    · exact absurd hz (by decide)
    · exact absurd hz (by decide)
    · exact absurd hz (by decide)
    · exact absurd hz (by decide)
  · intro hprobe
    have hhupd : httpsUpd options probe u = u.protocolSet "https:" := by
      unfold httpsUpd
      rw [htry, protocol_http_true hsch, Bool.true_and, if_pos rfl, hprobe,
        if_pos rfl]
    have hsch1 : u1.scheme = "https" := by
      rw [hu1, cleanUpd_scheme, hhupd, (protocolSet_https_fields u).2.2.2.2]
    refine ⟨⟨u.href, u1.href, ch1⟩, rfl, ?_, href_prefix hsch1⟩
    have hhttps : httpsApply options probe (u, []) =
        (u.protocolSet "https:", [] ++ ["Upgraded to HTTPS"]) := by
      unfold httpsApply
      dsimp only
      rw [htry, protocol_http_true hsch, Bool.true_and, if_pos rfl, hprobe,
        if_pos rfl]
    unfold cleanParsed at hcp
    rw [hhttps] at hcp
    have hsnd := congrArg Prod.snd hcp
    dsimp only at hsnd
    rw [← hsnd]
    exact tail5_mono (by simp)

/-- C5 witness: both probe outcomes at a concrete insecure URL. -/
theorem C5_https_probe_witness :
    (∃ r, cleanUrl "http://example.com/x" {} (fun _ => false) = .ok r ∧
      "Upgraded to HTTPS" ∉ r.changes ∧
      ∃ rest, r.cleaned = ("http" ++ "://") ++ rest) ∧
    (∃ r, cleanUrl "http://example.com/x" {} (fun _ => true) = .ok r ∧
      "Upgraded to HTTPS" ∈ r.changes ∧
      ∃ rest, r.cleaned = ("https" ++ "://") ++ rest) :=
  ⟨(@C5_https_probe "http://example.com/x" {} (fun _ => false)
      ⟨"http", "example.com", none, ["x"], none, none⟩ rfl rfl rfl).1 rfl,
   (@C5_https_probe "http://example.com/x" {} (fun _ => true)
      ⟨"http", "example.com", none, ["x"], none, none⟩ rfl rfl rfl).2 rfl⟩

/-- C9: the root path is never altered — the path step is the identity there
and the spec's example URL round-trips unchanged — while for every non-root
already-collapsed pathname ending in a separator, the rewritten record's
pathname is the pathname minus exactly its final character. -/
theorem C9_trailing_slash (options : CleanOptions)
    (hts : options.removeTrailingSlash = true) :
    (∀ (u : URLRec) (ch : List String), u.pathname = "/" →
      pathApply options (u, ch) = (u, ch)) ∧
    (∀ (u : URLRec) (ch : List String), u.WF →
      collapseS u.pathname = u.pathname → u.pathname ≠ "/" →
      jsEndsWith u.pathname "/" = true →
      (pathApply options (u, ch)).1.pathname = jsDropLast u.pathname) ∧
    cleanUrl "https://example.com/" {} (fun _ => false) =
      .ok { original := "https://example.com/", cleaned := "https://example.com/",
            changes := [] } := by
  refine ⟨?_, ?_, rfl⟩
  · intro u ch hroot
    unfold pathApply
    dsimp only
    rw [hroot, if_neg (fun hcon => hcon rfl)]
  · intro u ch hWF hcol hroot hend
    rcases WF_elim hWF with ⟨-, -, -, -, h5, h6, -, -⟩
    have hLne : u.pathSegs.map String.data ≠ [] := by simpa using h5
    have hflat : ∀ m ∈ u.pathSegs.map String.data, '/' ∉ m := by
      intro m hm
      rcases List.mem_map.mp hm with ⟨x, hx, rfl⟩
      exact (segOk_facts (h6 x hx)).1
    have hdots : ∀ m ∈ u.pathSegs.map String.data,
        '/' ∉ m ∧ m ≠ ['.'] ∧ m ≠ ['.', '.'] := by
      intro m hm
      rcases List.mem_map.mp hm with ⟨x, hx, rfl⟩
      exact ⟨(segOk_facts (h6 x hx)).1, (segOk_facts (h6 x hx)).2.1,
        (segOk_facts (h6 x hx)).2.2⟩
    have hend2 : jsEndsWith
        (⟨joinPath (u.pathSegs.map String.data)⟩ : String) "/" = true := hend
    have hlastL : (u.pathSegs.map String.data).getLast? = some [] :=
      (joinPath_ends_slash_iff hLne hflat).mp hend2
    rcases eq_nil_or_append_single (u.pathSegs.map String.data) with
      hnil | ⟨A, x, hLeq⟩
    · exact absurd hnil hLne
    · have hxnil : x = [] := by
        rw [hLeq, List.getLast?_concat] at hlastL
        exact Option.some.inj hlastL
      subst hxnil
      have hAflat : ∀ m ∈ A, '/' ∉ m ∧ m ≠ ['.'] ∧ m ≠ ['.', '.'] := by
        intro m hm
        exact hdots m (by rw [hLeq]; exact List.mem_append_left _ hm)
      have hcolL : collapseL (joinPath (u.pathSegs.map String.data)) =
          joinPath (u.pathSegs.map String.data) := congrArg String.data hcol
      rw [collapse_joinPath hLne hflat] at hcolL
      rw [hLeq] at hcolL
      rw [List.filter_append, List.getLast?_concat] at hcolL
      have hfilnil : ([([] : List Char)].filter (fun s => !s.isEmpty)) = [] := rfl
      rw [hfilnil, List.append_nil, if_pos rfl] at hcolL
      by_cases hAnil : A = []
      · exfalso
        apply hroot
        show (⟨joinPath (u.pathSegs.map String.data)⟩ : String) = "/"
        rw [hLeq, hAnil]
        rfl
      · have hAeq : A.filter (fun s => !s.isEmpty) ++ [([] : List Char)] =
            A ++ [[]] := by
          apply joinPath_inj ?_ ?_ ?_ ?_ hcolL
          · simp
          · simp
          · intro m hm
            rcases List.mem_append.mp hm with hm | hm
            · exact hAflat m (List.mem_of_mem_filter hm)
            · have hm0 : m = [] := by simpa using hm
              subst hm0
              refine ⟨?_, ?_, ?_⟩ <;> intro hc <;> cases hc
          · intro m hm
            rcases List.mem_append.mp hm with hm | hm
            · exact hAflat m hm
            · have hm0 : m = [] := by simpa using hm
              subst hm0
              refine ⟨?_, ?_, ?_⟩ <;> intro hc <;> cases hc
        have hAfil : A.filter (fun s => !s.isEmpty) = A := by
          have hdl := congrArg List.dropLast hAeq
          rwa [List.dropLast_concat, List.dropLast_concat] at hdl
        rw [pathApply_fst]
        show (⟨joinPath ((pathNext options u.pathSegs).map String.data)⟩ : String) = _
        unfold pathNext
        dsimp only
        have hroot2 : (⟨joinPath (u.pathSegs.map String.data)⟩ : String) ≠ "/" := hroot
        rw [if_pos hroot2]
        have hcol2 : collapseS (⟨joinPath (u.pathSegs.map String.data)⟩ : String) =
            (⟨joinPath (u.pathSegs.map String.data)⟩ : String) := hcol
        rw [hcol2, hts, hend2, Bool.true_and, if_pos rfl]
        have hdropne : jsDropLast (⟨joinPath (u.pathSegs.map String.data)⟩ : String) ≠
            (⟨joinPath (u.pathSegs.map String.data)⟩ : String) := by
          intro hcon
          have hlen := congrArg (fun t => t.data.length) hcon
          simp only [jsDropLast, List.length_dropLast] at hlen
          have hpos : 0 < (joinPath (u.pathSegs.map String.data)).length := by
            rw [hLeq, joinPath_concat]
            simp
          omega
        rw [if_pos hdropne]
        have hdrop : (jsDropLast
            (⟨joinPath (u.pathSegs.map String.data)⟩ : String)).data = joinPath A := by
          show (joinPath (u.pathSegs.map String.data)).dropLast = joinPath A
          rw [hLeq, joinPath_concat, List.dropLast_concat]
        rw [hdrop]
        rw [parsePathSegsL_joinPath_chars hAnil (fun m hm => hAflat m hm)]
        have hdata : (A.map (fun l => (⟨l⟩ : String))).map String.data = A := by
          rw [List.map_map]
          have hcomp : (String.data ∘ fun l => (⟨l⟩ : String)) = id := by
            funext l
            rfl
          rw [hcomp, List.map_id]
        rw [hdata]
        apply String.ext
        exact hdrop.symm

/-- C9 witness: the corrected parts at the root path and at `/a/`. -/
theorem C9_trailing_slash_witness :
    pathApply {} ((⟨"https", "example.com", none, [""], none, none⟩ : URLRec), []) =
      ((⟨"https", "example.com", none, [""], none, none⟩ : URLRec), []) ∧
    (pathApply {} ((⟨"https", "example.com", none, ["a", ""], none, none⟩ : URLRec),
        [])).1.pathname =
      jsDropLast (URLRec.pathname ⟨"https", "example.com", none, ["a", ""], none, none⟩) :=
  ⟨(C9_trailing_slash {} rfl).1 _ [] rfl,
   (C9_trailing_slash {} rfl).2.1 _ []
     (by decide : URLRec.wfB ⟨"https", "example.com", none, ["a", ""], none, none⟩ = true)
     (by decide) (by decide) (by decide)⟩
